import Mathlib

/-!
Verification of the volunteer shift-scheduler core (`scheduler.py`).

The embedding below translates the Python source into Lean:
* timestamps are minutes since an epoch (`ℤ`) — `parse_iso` yields minute
  granularity; hours are exact rationals (`ℚ`), standing in for Python floats;
* `float('inf')` (the default `max_hours`) is modelled by a dedicated
  constructor of `MaxHours`;
* Python dicts (`volunteers`, `shifts`, `_assign_map`) preserve insertion
  order and are modelled as association lists iterated in order;
* in-place mutation is modelled by state-passing: each helper returns the
  updated `State`;
* Python's stable `list.sort(key=...)` is modelled by `List.insertionSort`
  with the corresponding lexicographic key relation (any two stable sorts of
  the same total preorder agree);
* the CP-SAT solver is an external black box: `assign_cp_sat` is
  parameterised by the boolean solution `sol` it returns, and theorems about
  it assume the constraints the model imposes on any returned solution.
-/

namespace SchedulerModel


/-- The tolerance `1e-9` appearing in the hour-cap comparisons. -/
def tol : ℚ := 1 / 1000000000

/-- Python's `int()` applied to a rational: truncation toward zero. -/
def pyInt (q : ℚ) : ℤ := q.num.tdiv q.den

/-- `overlap(a_start, a_end, b_start, b_end)` from scheduler.py line 20:
`not (a_end <= b_start or b_end <= a_start)`. -/
def overlapB (aS aE bS bE : ℤ) : Bool :=
  !(decide (aE ≤ bS) || decide (bE ≤ aS))

/-- `max_hours`: a rational, or `float('inf')` (the dataclass default). -/
inductive MaxHours where
  | fin (q : ℚ)
  | inf
deriving DecidableEq, Repr

/-- The `Volunteer` dataclass (scheduler.py lines 23-30). -/
structure Volunteer where
  id : String
  name : String
  group : Option String
  maxHours : MaxHours
  assignedHours : ℚ
  assignedShifts : List String
deriving DecidableEq, Repr

/-- The `Shift` dataclass (scheduler.py lines 32-40); `stop` stands for the
Python field `end` (a Lean keyword). -/
structure Shift where
  id : String
  start : ℤ
  stop : ℤ
  requiredGroups : List (String × ℕ)
  allowedGroups : Option (List String)
  excludedGroups : Option (List String)
  assigned : List String
deriving DecidableEq, Repr

/-- `Shift.duration_hours` (line 42): `(end - start).total_seconds() / 3600`,
with timestamps in minutes. -/
def Shift.durationHours (s : Shift) : ℚ :=
  ((s.stop - s.start : ℤ) : ℚ) / 60

/-- Membership of an optional group label in a group set (Python `in` on a
set of strings; `None` is never a member). -/
def memOpt (g : Option String) (l : List String) : Bool :=
  match g with
  | some x => l.contains x
  | none => false

/-- `Shift.allows` (lines 45-50).  Note the Python truthiness test: an
*empty* `allowed_groups`/`excluded_groups` set is falsy, so it imposes no
restriction. -/
def Shift.allows (s : Shift) (v : Volunteer) : Bool :=
  (match s.allowedGroups with
   | some ag => ag.isEmpty || memOpt v.group ag
   | none => true)
  &&
  (match s.excludedGroups with
   | some eg => eg.isEmpty || !memOpt v.group eg
   | none => true)

/-- The mutable scheduler state: the two entity dicts plus `_assign_map`
(volunteer id ↦ committed `(shift_id, start, end)` triples, line 60). -/
structure State where
  volunteers : List Volunteer
  shifts : List Shift
  assignMap : List (String × List (String × ℤ × ℤ))
deriving DecidableEq, Repr

/-- Ordered-dict lookup. -/
def lookupAL {κ α : Type} [BEq κ] (m : List (κ × α)) (k : κ) : Option α :=
  (m.find? (fun p => p.1 == k)).map (·.2)

/-- Point update of the volunteer dict. -/
def updateVol (vs : List Volunteer) (vid : String) (f : Volunteer → Volunteer) :
    List Volunteer :=
  vs.map (fun v => if v.id == vid then f v else v)

/-- Point update of the shift dict. -/
def updateShiftA (ss : List Shift) (sid : String) (f : Shift → Shift) : List Shift :=
  ss.map (fun s => if s.id == sid then f s else s)

/-- `self._assign_map[v.id].append((shift.id, shift.start, shift.end))`. -/
def updateAM (m : List (String × List (String × ℤ × ℤ))) (vid : String)
    (ivl : String × ℤ × ℤ) : List (String × List (String × ℤ × ℤ)) :=
  m.map (fun p => if p.1 == vid then (p.1, p.2 ++ [ivl]) else p)

/-- `Scheduler._would_overlap` (lines 73-77): scan the volunteer's committed
intervals (`.get(volunteer.id, [])`). -/
def wouldOverlap (st : State) (vid : String) (sh : Shift) : Bool :=
  match lookupAL st.assignMap vid with
  | some l => l.any (fun t => overlapB t.2.1 t.2.2 sh.start sh.stop)
  | none => false

/-- The hour-cap filter `v.assigned_hours + d <= v.max_hours + 1e-9`
(lines 90/148); always true for an unbounded volunteer. -/
def withinCap (v : Volunteer) (d : ℚ) : Bool :=
  match v.maxHours with
  | .inf => true
  | .fin m => decide (v.assignedHours + d ≤ m + tol)

/-- One assignment (lines 97-101 and 158-162): add the duration to the
volunteer's hours, append the shift id, append the volunteer id to the
shift's `assigned`, and record the interval in `_assign_map`. -/
def applyAssign (st : State) (sh : Shift) (vid : String) : State :=
  { volunteers := updateVol st.volunteers vid (fun v =>
      { v with assignedHours := v.assignedHours + sh.durationHours,
               assignedShifts := v.assignedShifts ++ [sh.id] }),
    shifts := updateShiftA st.shifts sh.id (fun s =>
      { s with assigned := s.assigned ++ [vid] }),
    assignMap := updateAM st.assignMap vid (sh.id, sh.start, sh.stop) }

/-- The greedy/backtracking sort key (lines 92 and 151):
ascending lexicographic `(assigned_hours, len(assigned_shifts), -max_hours)`
(so `-∞` for the unbounded default sorts first among full ties). -/
def greedyLe (a b : Volunteer) : Bool :=
  decide (a.assignedHours < b.assignedHours) ||
  (a.assignedHours == b.assignedHours &&
    (decide (a.assignedShifts.length < b.assignedShifts.length) ||
      (a.assignedShifts.length == b.assignedShifts.length &&
        (match a.maxHours, b.maxHours with
         | .inf, _ => true
         | .fin _, .inf => false
         | .fin x, .fin y => decide (y ≤ x)))))

/-- `greedyLe` as a decidable relation, for `List.insertionSort`. -/
def greedyR : Volunteer → Volunteer → Prop := fun a b => greedyLe a b = true

instance : DecidableRel greedyR := fun a b => instDecidableEqBool _ _

/-- `candidates.sort(key=...)`: a stable sort by the key above. -/
def sortCands (l : List Volunteer) : List Volunteer :=
  l.insertionSort greedyR

/-- The greedy candidate pool (lines 88-90): group match, `allows`, no
overlap against `_assign_map`, and the hour cap. -/
def eligible (st : State) (sh : Shift) (g : String) : List Volunteer :=
  st.volunteers.filter (fun v =>
    v.group == some g && sh.allows v && !(wouldOverlap st v.id sh) &&
      withinCap v sh.durationHours)

/-- One `(group, count)` iteration of `Scheduler.assign` (lines 86-104):
sort the pool, commit volunteers off the front until `count` is met, and
record any shortfall. -/
def assignGroupStep (st : State) (sh : Shift) (g : String) (c : ℕ) :
    State × List (String × String × ℕ) :=
  let cands := sortCands (eligible st sh g)
  let st1 := (cands.take c).foldl (fun acc v => applyAssign acc sh v.id) st
  (st1, if cands.length < c then [(sh.id, g, c - cands.length)] else [])

/-- `Scheduler.assign` (lines 82-109).  The loop iterates the shift dict in
order; only a shift's immutable fields are read from the loop variable, so
the fold runs over the pre-loop shift list. -/
def Scheduler.assign (st : State) : State × List (String × String × ℕ) :=
  st.shifts.foldl
    (fun acc sh => sh.requiredGroups.foldl
      (fun acc2 gc =>
        let r := assignGroupStep acc2.1 sh gc.1 gc.2
        (r.1, acc2.2 ++ r.2)) acc)
    (st, [])

/-- Request-layer volunteer input (api_scheduler.py `VolunteerInput`). -/
structure VolunteerInput where
  id : String
  name : String
  group : Option String
  maxHours : MaxHours
deriving DecidableEq, Repr

/-- Request-layer shift input (api_scheduler.py `ShiftInput`, after
timestamp parsing). -/
structure ShiftInput where
  id : String
  start : ℤ
  stop : ℤ
  requiredGroups : List (String × ℕ)
  allowedGroups : Option (List String)
  excludedGroups : Option (List String)
deriving DecidableEq, Repr

/-- `Volunteer(**v.dict())`: fresh entity, mutable fields at their dataclass
defaults. -/
def mkVolunteer (i : VolunteerInput) : Volunteer :=
  ⟨i.id, i.name, i.group, i.maxHours, 0, []⟩

/-- Fresh `Shift` from request input. -/
def mkShift (i : ShiftInput) : Shift :=
  ⟨i.id, i.start, i.stop, i.requiredGroups, i.allowedGroups, i.excludedGroups, []⟩

/-- `Scheduler.__init__` on freshly constructed entities: the two dicts plus
`_assign_map = {vid: [] for vid in volunteers}`. -/
def mkState (vs : List VolunteerInput) (ss : List ShiftInput) : State :=
  { volunteers := vs.map mkVolunteer,
    shifts := ss.map mkShift,
    assignMap := vs.map (fun v => (v.id, [])) }

/-- The spec's `max_hours` domain: a non-negative real, or unbounded. -/
def MaxHours.nonneg : MaxHours → Prop
  | .fin m => 0 ≤ m
  | .inf => True

instance (m : MaxHours) : Decidable m.nonneg := by
  unfold MaxHours.nonneg; cases m <;> infer_instance

/-- Valid request input: unique volunteer ids, unique shift ids (both are
dict keys), per shift unique `required_groups` keys (a dict), and
non-negative hour caps (§3: `max_hours` is a non-negative real, default
unbounded). -/
def ValidInput (vs : List VolunteerInput) (ss : List ShiftInput) : Prop :=
  (vs.map (·.id)).Nodup ∧ (ss.map (·.id)).Nodup ∧
    (∀ s ∈ ss, (s.requiredGroups.map (·.1)).Nodup) ∧
    ∀ i ∈ vs, i.maxHours.nonneg

instance (vs : List VolunteerInput) (ss : List ShiftInput) :
    Decidable (ValidInput vs ss) := by
  unfold ValidInput; infer_instance

/-- `self.volunteers[vid].group`: group of a volunteer id in the current
state (always present along the paths that use it). -/
def groupOfId (vs : List Volunteer) (vid : String) : Option String :=
  match vs.find? (fun v => v.id == vid) with
  | some v => v.group
  | none => none

/-- The unfilled-requirement report recomputed from final state, shared by
`assign_optimal` (lines 181-186) and `assign_cp_sat` (lines 259-265): for
each shift and required group, count assigned volunteers of that group and
record any positive deficit. -/
def computeUnfilled (st : State) : List (String × String × ℕ) :=
  st.shifts.foldl
    (fun acc s => acc ++ s.requiredGroups.filterMap (fun gc =>
      let ac := (s.assigned.filter
        (fun vid => groupOfId st.volunteers vid == some gc.1)).length
      if ac < gc.2 then some (s.id, gc.1, gc.2 - ac) else none))
    []

/-! ### CP-SAT path (`Scheduler.assign_cp_sat`, lines 194-271)

The external solver is a black box: the model variables `x[(v.id, s.id)]`
exist for the pairs computed below, and a returned solution is a boolean
valuation `sol` of those variables.  The constraints built in lines 212-233
are stated as propositions about `sol`; theorems about the decoded result
assume them, exactly as CP-SAT guarantees them for any feasible solution. -/

/-- A model variable exists for `(v, s)` iff `s.allows(v)` and `v.group in
s.required_groups` (lines 206-210). -/
def hasVar (v : Volunteer) (s : Shift) : Bool :=
  s.allows v && memOpt v.group (s.requiredGroups.map (·.1))

/-- The variable dict `x` in insertion order: volunteer-major (lines
206-210). -/
def cpPairs (st : State) : List (Volunteer × Shift) :=
  st.volunteers.flatMap (fun v =>
    st.shifts.filterMap (fun s => if hasVar v s then some (v, s) else none))

/-- Scaled shift duration `int(s.duration_hours() * 100)` (line 222). -/
def scaledDur (s : Shift) : ℤ := pyInt (s.durationHours * 100)

/-- Scaled hour cap `int(v.max_hours * 100)` (line 223); only the finite
case is ever reached (the infinite case raises, see `assign_cp_sat`). -/
def scaledMax : MaxHours → ℤ
  | .fin q => pyInt (q * 100)
  | .inf => 0

/-- Coverage constraints (lines 213-216): per shift and required group, the
chosen candidates of that group number at most the required count. -/
def coverageOK (st : State) (sol : String → String → Bool) : Prop :=
  ∀ s ∈ st.shifts, ∀ gc ∈ s.requiredGroups,
    ((st.volunteers.filter (fun v =>
      v.group == some gc.1 && hasVar v s && sol v.id s.id)).length) ≤ gc.2

/-- Hour-cap constraints (lines 220-224): per volunteer, the sum of scaled
durations of chosen shifts is at most the scaled cap. -/
def hourCapOK (st : State) (sol : String → String → Bool) : Prop :=
  ∀ v ∈ st.volunteers,
    ((st.shifts.filter (fun s => hasVar v s && sol v.id s.id)).map scaledDur).sum
      ≤ scaledMax v.maxHours

/-- No-overlap constraints (lines 227-233): a volunteer is chosen for at
most one of any two distinct overlapping shifts that both carry a variable
for it. -/
def noOverlapOK (st : State) (sol : String → String → Bool) : Prop :=
  ∀ s1 ∈ st.shifts, ∀ s2 ∈ st.shifts, ∀ v ∈ st.volunteers,
    s1.id ≠ s2.id → hasVar v s1 = true → hasVar v s2 = true →
    overlapB s1.start s1.stop s2.start s2.stop = true →
    ¬(sol v.id s1.id = true ∧ sol v.id s2.id = true)

instance (st : State) (sol : String → String → Bool) :
    Decidable (coverageOK st sol) := by
  unfold coverageOK; infer_instance

instance (st : State) (sol : String → String → Bool) :
    Decidable (hourCapOK st sol) := by
  unfold hourCapOK; infer_instance

instance (st : State) (sol : String → String → Bool) :
    Decidable (noOverlapOK st sol) := by
  unfold noOverlapOK; infer_instance

/-- Clearing pass before decoding (lines 247-251): empty every shift's
`assigned` and reset every volunteer's mutable fields (`_assign_map` is not
touched by this path). -/
def clearState (st : State) : State :=
  { volunteers := st.volunteers.map (fun v =>
      { v with assignedShifts := [], assignedHours := 0 }),
    shifts := st.shifts.map (fun s => { s with assigned := [] }),
    assignMap := st.assignMap }

/-- Decoding one true variable (lines 253-257): append the volunteer to the
shift, the shift to the volunteer, and add the duration (looked up by shift
id, whose static fields are unchanged). -/
def cpApply (st : State) (v : Volunteer) (s : Shift) : State :=
  { volunteers := updateVol st.volunteers v.id (fun w =>
      { w with assignedShifts := w.assignedShifts ++ [s.id],
               assignedHours := w.assignedHours + s.durationHours }),
    shifts := updateShiftA st.shifts s.id (fun t =>
      { t with assigned := t.assigned ++ [v.id] }),
    assignMap := st.assignMap }

/-- The solve-and-decode phase of `assign_cp_sat` (lines 247-271): clear the
prior assignments, decode the valuation in variable order, recompute the
deficit report. -/
def cpSolve (st : State) (sol : String → String → Bool) :
    State × List (String × String × ℕ) :=
  let st1 := clearState st
  let st2 := (cpPairs st).foldl
    (fun acc p => if sol p.1.id p.2.id then cpApply acc p.1 p.2 else acc) st1
  (st2, computeUnfilled st2)

/-- `Scheduler.assign_cp_sat` (lines 194-271), parameterised by the solver's
returned valuation.  Building the hour-cap constraint evaluates
`int(v.max_hours * 100)` for *every* volunteer (line 223), which raises
`OverflowError` when `max_hours` is `float('inf')`; this is the error case.
Otherwise the prior assignments are cleared and the solution decoded. -/
def assign_cp_sat (st : State) (sol : String → String → Bool) :
    Except Unit (State × List (String × String × ℕ)) :=
  if st.volunteers.any (fun v => v.maxHours == MaxHours.inf) then
    .error ()
  else
    .ok (cpSolve st sol)

/-! ### Reporting (`Scheduler.report`, lines 276-284) -/

/-- One step of the `group_totals` accumulation:
`setdefault(v.group, 0.0)` followed by `+= v.assigned_hours`. -/
def addTotal (m : List (Option String × ℚ)) (g : Option String) (h : ℚ) :
    List (Option String × ℚ) :=
  if m.any (fun p => p.1 == g) then
    m.map (fun p => if p.1 == g then (p.1, p.2 + h) else p)
  else
    m ++ [(g, h)]

/-- The `report()` payload. -/
structure Report where
  groupTotals : List (Option String × ℚ)
  volunteerDetails : List (String × String × Option String × ℚ × List String)
deriving DecidableEq, Repr

/-- `Scheduler.report` (lines 276-284): fold the volunteers into per-group
hour totals (first-occurrence key order) and project the per-volunteer
details.  The method only reads state. -/
def Scheduler.report (st : State) : Report :=
  { groupTotals :=
      st.volunteers.foldl (fun m v => addTotal m v.group v.assignedHours) [],
    volunteerDetails :=
      st.volunteers.map (fun v =>
        (v.id, v.name, v.group, v.assignedHours, v.assignedShifts)) }

/-- `report()` together with the (unchanged) state it leaves behind: the
method performs no writes, which the pair makes explicit. -/
def Scheduler.reportWithState (st : State) : Report × State :=
  (Scheduler.report st, st)

/-! ### Backtracking path (`Scheduler.assign_optimal`, lines 114-192) -/

/-- `sum(s.required_groups.values())`. -/
def reqTotal (s : Shift) : ℕ := (s.requiredGroups.map (·.2)).sum

/-- Shift ordering for slot construction (line 117): stable sort by the
ascending key `-sum(required_groups.values())`, i.e. hardest first. -/
def hardFirstR : Shift → Shift → Prop :=
  fun a b => (decide (reqTotal b ≤ reqTotal a)) = true

instance : DecidableRel hardFirstR := fun _ _ => instDecidableEqBool _ _

/-- Stable sort of the shift dict values, hardest first. -/
def sortShiftsHard (l : List Shift) : List Shift := l.insertionSort hardFirstR

/-- Slot list (lines 116-120): one `(shift, group)` entry per required unit.
Each slot carries the shift value captured at slot construction; only
immutable fields are read from it later (`self.shifts[shift_id]` resolves to
the same object, whose static fields never change during the search). -/
def mkSlots (shifts : List Shift) : List (Shift × String) :=
  (sortShiftsHard shifts).flatMap (fun s =>
    s.requiredGroups.flatMap (fun gc => List.replicate gc.2 (s, gc.1)))

/-- `score_solution` (lines 125-129): filled assignments plus `0.01` times
total assigned hours. -/
def scoreOf (st : State) : ℚ :=
  ((st.shifts.map (fun s => (s.assigned.length : ℚ))).sum) +
    (1 / 100) * (st.volunteers.map (·.assignedHours)).sum

/-- The incumbent `best_solution` (line 122): score and the snapshot
`{sid: list(s.assigned)}`. -/
structure Best where
  score : ℚ
  assignments : List (String × List String)
deriving DecidableEq, Repr

/-- The incumbent snapshot taken at a leaf (line 139). -/
def snapshot (st : State) : List (String × List String) :=
  st.shifts.map (fun s => (s.id, s.assigned))

/-- Candidate pool of a slot (lines 144-148): `volunteers_by_group[group]`
lists that group's volunteers in dict order, so it equals filtering the
volunteer dict; then `allows`, no overlap, not already on this shift, and
the hour cap. -/
def eligibleOpt (st : State) (sh : Shift) (g : String) : List Volunteer :=
  st.volunteers.filter (fun v =>
    v.group == some g && sh.allows v && !(wouldOverlap st v.id sh) &&
      !(v.assignedShifts.contains sh.id) && withinCap v sh.durationHours)

mutual

/-- `backtrack(i)` (lines 131-170), instrumented with two ghost counters:
`t` counts call entries — the wall-clock abort `time.time() - start_time >
timeout` happens only at call entry and the clock is monotone, so it is
abstracted as a predicate `expired` of the entry counter — and `scored`
counts the `score_solution` calls performed at leaves.  The in-place
assign/undo bracket around each recursive call (lines 158-170) is modelled
by handing the extended state to the recursive call only: in exact rational
arithmetic the undo restores the pre-assign state exactly. -/
def backtrack (expired : ℕ → Bool) :
    List (Shift × String) → State → ℕ → Best → ℕ → ℕ × Best × ℕ
  | slots, st, t, best, scored =>
    if expired t then (t + 1, best, scored)
    else
      match slots with
      | [] =>
        let sc := scoreOf st
        if best.score < sc then (t + 1, ⟨sc, snapshot st⟩, scored + 1)
        else (t + 1, best, scored + 1)
      | slot :: rest =>
        let cands := sortCands (eligibleOpt st slot.1 slot.2)
        if cands.isEmpty then backtrack expired rest st (t + 1) best scored
        else backtrackCands expired slot rest cands st (t + 1) best scored
termination_by slots _ _ _ _ => (slots.length, 0)
decreasing_by all_goals simp_wf <;> omega

/-- The candidate loop of `backtrack` (lines 157-170): try each sorted
candidate in turn, recursing on the remaining slots with the extended
state. -/
def backtrackCands (expired : ℕ → Bool) (slot : Shift × String)
    (rest : List (Shift × String)) :
    List Volunteer → State → ℕ → Best → ℕ → ℕ × Best × ℕ
  | [], _, t, best, scored => (t, best, scored)
  | v :: vs, st, t, best, scored =>
    let r := backtrack expired rest (applyAssign st slot.1 v.id) t best scored
    backtrackCands expired slot rest vs st r.1 r.2.1 r.2.2
termination_by vs _ _ _ _ => (rest.length, vs.length + 1)
decreasing_by all_goals simp_wf <;> omega

end

/-- `self.shifts[sid].duration_hours()` (line 179). -/
def durOf (ss : List Shift) (sid : String) : ℚ :=
  match ss.find? (fun s => s.id == sid) with
  | some s => s.durationHours
  | none => 0

/-- Writing the incumbent back (lines 175-176): for each recorded shift id,
set its `assigned` list. -/
def applyAssignments (ss : List Shift) (asg : List (String × List String)) :
    List Shift :=
  asg.foldl
    (fun acc p => acc.map (fun s =>
      if s.id == p.1 then { s with assigned := p.2 } else s)) ss

/-- Re-deriving the volunteers from the applied shifts (lines 177-179):
`assigned_shifts` is the list of shift ids containing the volunteer, in
shift-dict order, and `assigned_hours` the exact sum of their durations. -/
def rederiveVolunteers (st : State) : State :=
  { st with volunteers := st.volunteers.map (fun v =>
      let asgn := (st.shifts.filter (fun s => s.assigned.contains v.id)).map (·.id)
      { v with assignedShifts := asgn,
               assignedHours := (asgn.map (durOf st.shifts)).sum }) }

/-- `Scheduler.assign_optimal` (lines 114-192): build the slot list, search
with the initial empty incumbent `{"score": -1, "assignments": {}}`, write
the best incumbent back, re-derive the volunteers and recompute the deficit
report.  The final `ℕ` is the ghost count of leaf scorings. -/
def assign_optimal (st : State) (expired : ℕ → Bool) :
    State × List (String × String × ℕ) × ℕ :=
  let slots := mkSlots st.shifts
  let r := backtrack expired slots st 0 ⟨-1, []⟩ 0
  let st1 : State := { st with shifts := applyAssignments st.shifts r.2.1.assignments }
  let st2 := rederiveVolunteers st1
  (st2, computeUnfilled st2, r.2.2)

/-! ### Strategy-parameterised greedy assign

`test_strategies.py` imports `OptimizationStrategy` and calls
`Scheduler.assign(strategy=...)`, but the `scheduler.py` at hand has no such
parameter: the strategy-dispatching variant is repository code not among the
available sources — only its tests and API callers are.  It is therefore
modelled from the spec below. -/

/-- Modelled from the spec: the `OptimizationStrategy` enumeration imported
by `test_strategies.py` but absent from the available `scheduler.py`;
§4.2 lists the three strategies, `minimize_unfilled` being the default. -/
inductive OptimizationStrategy where
  | minimize_unfilled
  | maximize_fairness
  | minimize_overtime
deriving DecidableEq, Repr

/-- Modelled from the spec: (§4.2 comparator table) the first
`minimize_overtime` key, `assigned_hours / max_hours if max_hours finite
else 0`. -/
def loadFraction (v : Volunteer) : ℚ :=
  match v.maxHours with
  | .fin m => v.assignedHours / m
  | .inf => 0

/-- Modelled from the spec: (§4.2 comparator table) the strategy-specific
ascending lexicographic sort keys.  `minimize_unfilled` is the key of the
available `assign` (line 92); `maximize_fairness` drops the `-max_hours`
tiebreak; `minimize_overtime` leads with the load fraction. -/
def strategyLe : OptimizationStrategy → Volunteer → Volunteer → Bool
  | .minimize_unfilled => greedyLe
  | .maximize_fairness => fun a b =>
      decide (a.assignedHours < b.assignedHours) ||
      (a.assignedHours == b.assignedHours &&
        decide (a.assignedShifts.length ≤ b.assignedShifts.length))
  | .minimize_overtime => fun a b =>
      decide (loadFraction a < loadFraction b) ||
      (loadFraction a == loadFraction b &&
        (decide (a.assignedHours < b.assignedHours) ||
          (a.assignedHours == b.assignedHours &&
            decide (a.assignedShifts.length ≤ b.assignedShifts.length))))

/-- The strategy key as a decidable relation. -/
def strategyR (strat : OptimizationStrategy) : Volunteer → Volunteer → Prop :=
  fun a b => strategyLe strat a b = true

instance (strat : OptimizationStrategy) : DecidableRel (strategyR strat) :=
  fun _ _ => instDecidableEqBool _ _

/-- Modelled from the spec: (§4.2) the stable strategy-specific sort of the
candidate pool. -/
def sortCandsS (strat : OptimizationStrategy) (l : List Volunteer) :
    List Volunteer :=
  l.insertionSort (strategyR strat)

/-- Modelled from the spec: (§4.2) one `(group, count)` step of
`assign(strategy)` — as `assignGroupStep` but sorting by the strategy key. -/
def assignGroupStepS (strat : OptimizationStrategy) (st : State) (sh : Shift)
    (g : String) (c : ℕ) : State × List (String × String × ℕ) :=
  let cands := sortCandsS strat (eligible st sh g)
  let st1 := (cands.take c).foldl (fun acc v => applyAssign acc sh v.id) st
  (st1, if cands.length < c then [(sh.id, g, c - cands.length)] else [])

/-- Modelled from the spec: (§4.2 contract) `assign(strategy)` — the greedy
pass of the available `assign`, with the candidate comparator selected by
the strategy. -/
def Scheduler.assignS (strat : OptimizationStrategy) (st : State) :
    State × List (String × String × ℕ) :=
  st.shifts.foldl
    (fun acc sh => sh.requiredGroups.foldl
      (fun acc2 gc =>
        let r := assignGroupStepS strat acc2.1 sh gc.1 gc.2
        (r.1, acc2.2 ++ r.2)) acc)
    (st, [])

/-- Modelled from the spec: calling `assign()` with the strategy argument
omitted selects the default `minimize_unfilled`. -/
def Scheduler.assignDefault (st : State) : State × List (String × String × ℕ) :=
  Scheduler.assignS .minimize_unfilled st

/-! ### Chunked CP-SAT solve

`api_scheduler.py` (lines 301-315, 318-373) invokes
`sched.assign_cp_sat_chunked(chunk_size=5, timeout_per_chunk=timeout)`, but
no such method exists in the available `scheduler.py` — only its callers
are.  It is modelled from the spec (§4.4 "Chunking") below. -/

/-- A volunteer with the mutable fields reset, the per-chunk lookup
default. -/
def emptyVol (v : Volunteer) : Volunteer :=
  { v with assignedShifts := [], assignedHours := 0 }

/-- Modelled from the spec: the CP-SAT model state restricted to one chunk
of shifts (§4.4 Chunking). -/
def chunkState (st : State) (c : List Shift) : State :=
  { volunteers := st.volunteers, shifts := c, assignMap := st.assignMap }

/-- Consecutive chunks of size `k` (the final chunk may be shorter). -/
def chunkList {α : Type} (k : ℕ) (l : List α) : List (List α) :=
  if _h : k = 0 ∨ l.isEmpty = true then []
  else l.take k :: chunkList k (l.drop k)
termination_by l.length
decreasing_by
  simp only [List.length_drop]
  rcases Nat.eq_zero_or_pos k with hk | hk
  · exact absurd (Or.inl hk) _h
  · have hne : l.isEmpty ≠ true := fun h => _h (Or.inr h)
    have : 0 < l.length := by
      cases l with
      | nil => exact absurd rfl hne
      | cons a t => simp
    omega

/-- Modelled from the spec: the per-chunk CP-SAT results, one per chunk
index (§4.4 Chunking). -/
def chunkSolved (st : State) (k : ℕ)
    (sols : ℕ → String → String → Bool) :
    List (State × List (String × String × ℕ)) :=
  (chunkList k st.shifts).enum.map (fun p =>
    cpSolve (chunkState st p.2) (sols p.1))

/-- Modelled from the spec: the cross-chunk accumulation of each
volunteer's assignments (§4.4 Chunking). -/
def chunkAggVols (st : State) (k : ℕ)
    (sols : ℕ → String → String → Bool) : List Volunteer :=
  st.volunteers.map (fun v =>
    let per := (chunkSolved st k sols).map (fun r =>
      (r.1.volunteers.find? (fun w => w.id == v.id)).getD (emptyVol v))
    { v with assignedShifts := (per.map (fun x => x.assignedShifts)).flatten,
             assignedHours := (per.map (fun x => x.assignedHours)).sum })

/-- Modelled from the spec: the aggregated payload of a successful chunked
solve, the `.ok` value of `assign_cp_sat_chunked` (§4.4 Chunking). -/
def chunkedAgg (st : State) (k : ℕ) (sols : ℕ → String → String → Bool) :
    State × List (String × String × ℕ) :=
  ({ volunteers := chunkAggVols st k sols,
     shifts := ((chunkSolved st k sols).map (fun r => r.1.shifts)).flatten,
     assignMap := st.assignMap },
   ((chunkSolved st k sols).map (fun r => r.2)).flatten)

/-- Modelled from the spec: `assign_cp_sat_chunked(chunk_size,
timeout_per_chunk)` (§4.4 "Chunking"), invoked by the request layer but
absent from the available `scheduler.py`.  The shift collection is
partitioned into fixed-size chunks; each chunk is solved independently by
the CP-SAT model restricted to that chunk's shifts with its own time budget
(hence one solver valuation per chunk), and the per-chunk results are
aggregated into the common result shape: shifts are the concatenation of the
chunk results, each volunteer's assignments and hours are accumulated across
chunks, and the deficit reports are concatenated. -/
def assign_cp_sat_chunked (st : State) (chunkSize : ℕ)
    (sols : ℕ → String → String → Bool) :
    Except Unit (State × List (String × String × ℕ)) :=
  if st.volunteers.any (fun v => v.maxHours == MaxHours.inf) then
    .error ()
  else
    let chunks := (chunkList chunkSize st.shifts).enum
    let solved := chunks.map (fun p =>
      cpSolve { volunteers := st.volunteers, shifts := p.2,
                assignMap := st.assignMap } (sols p.1))
    let aggShifts := (solved.map (fun r => r.1.shifts)).flatten
    let aggVols := st.volunteers.map (fun v =>
      let per := solved.map (fun r =>
        (r.1.volunteers.find? (fun w => w.id == v.id)).getD
          { v with assignedShifts := [], assignedHours := 0 })
      { v with assignedShifts := (per.map (·.assignedShifts)).flatten,
               assignedHours := (per.map (·.assignedHours)).sum })
    .ok ({ volunteers := aggVols, shifts := aggShifts,
           assignMap := st.assignMap },
         (solved.map (·.2)).flatten)

/-! ## Derived notions used by the statements -/

/-- The immutable fields of a volunteer (never written by any solve path). -/
def vCore (v : Volunteer) : String × String × Option String × MaxHours :=
  (v.id, v.name, v.group, v.maxHours)

/-- The immutable fields of a shift. -/
def sCore (s : Shift) :
    String × ℤ × ℤ × List (String × ℕ) × Option (List String) ×
      Option (List String) :=
  (s.id, s.start, s.stop, s.requiredGroups, s.allowedGroups, s.excludedGroups)

/-- Start time of the shift with a given id. -/
def startOf (ss : List Shift) (sid : String) : ℤ :=
  match ss.find? (fun s => s.id == sid) with
  | some s => s.start
  | none => 0

/-- End time of the shift with a given id. -/
def stopOf (ss : List Shift) (sid : String) : ℤ :=
  match ss.find? (fun s => s.id == sid) with
  | some s => s.stop
  | none => 0

/-- The spec's hour-cap invariant `assigned_hours ≤ max_hours + 1e-9`
(trivially true for an unbounded volunteer). -/
def capProp (v : Volunteer) : Prop :=
  match v.maxHours with
  | .inf => True
  | .fin m => v.assignedHours ≤ m + tol

instance (v : Volunteer) : Decidable (capProp v) := by
  unfold capProp; cases v.maxHours <;> infer_instance

/-- Two shift ids name non-overlapping intervals (relative to a shift
list). -/
def noOvIds (ss : List Shift) (a b : String) : Prop :=
  overlapB (startOf ss a) (stopOf ss a) (startOf ss b) (stopOf ss b) = false

instance (ss : List Shift) (a b : String) : Decidable (noOvIds ss a b) := by
  unfold noOvIds; infer_instance

/-- Count of assigned volunteers of group `g` on the shift `s`, with groups
looked up in `vols` (the quantity bounded by the coverage requirement). -/
def gcount (vols : List Volunteer) (s : Shift) (g : String) : ℕ :=
  (s.assigned.filter (fun vid => groupOfId vols vid == some g)).length

/-- Unique dict keys of a (fresh) scheduler state, as guaranteed by valid
request input. -/
def ValidState (st : State) : Prop :=
  (st.volunteers.map (·.id)).Nodup ∧ (st.shifts.map (·.id)).Nodup ∧
    ∀ s ∈ st.shifts, (s.requiredGroups.map (·.1)).Nodup

instance (st : State) : Decidable (ValidState st) := by
  unfold ValidState; infer_instance

/-- The `_assign_map` record corresponding to a shift id. -/
def annot (ss : List Shift) (sid : String) : String × ℤ × ℤ :=
  (sid, startOf ss sid, stopOf ss sid)

/-- Invariant of every state reachable by the greedy pass or along the
backtracking search, relative to the fresh initial state `st₀`: the
immutable fields are untouched, the per-volunteer accounting identities
hold, and `assigned_shifts`, `assigned` and `_assign_map` agree. -/
structure Inv (st₀ st : State) : Prop where
  coreV : st.volunteers.map vCore = st₀.volunteers.map vCore
  coreS : st.shifts.map sCore = st₀.shifts.map sCore
  hoursEq : ∀ v ∈ st.volunteers,
    v.assignedHours = ((v.assignedShifts.map (durOf st₀.shifts)).sum)
  cap : ∀ v ∈ st.volunteers, capProp v
  nodupAS : ∀ v ∈ st.volunteers, v.assignedShifts.Nodup
  noOv : ∀ v ∈ st.volunteers, v.assignedShifts.Pairwise (noOvIds st₀.shifts)
  sync : ∀ v ∈ st.volunteers,
    lookupAL st.assignMap v.id = some (v.assignedShifts.map (annot st₀.shifts))
  corr : ∀ v ∈ st.volunteers, ∀ s ∈ st.shifts,
    s.assigned.count v.id = v.assignedShifts.count s.id
  assignedVal : ∀ s ∈ st.shifts, ∀ vid ∈ s.assigned,
    vid ∈ st.volunteers.map (·.id)
  validAS : ∀ v ∈ st.volunteers, ∀ sid ∈ v.assignedShifts,
    ∃ s ∈ st.shifts, s.id = sid
  noneF : ∀ v ∈ st.volunteers, v.group = none →
    v.assignedShifts = [] ∧ v.assignedHours = 0

/-- The per-interval content of a failed `_would_overlap` test: none of the
volunteer's committed shift ids overlaps the candidate shift. -/
def OvFree (S : List Shift) (asg : List String) (sh : Shift) : Prop :=
  ∀ sid ∈ asg, overlapB (startOf S sid) (stopOf S sid) sh.start sh.stop = false

/-- The `assigned` list of the shift with the given id. -/
def assignedOf (st : State) (sid : String) : List String :=
  match st.shifts.find? (fun s => s.id == sid) with
  | some s => s.assigned
  | none => []

/-- Count of assigned volunteers of group `g` on the shift with id `sid`. -/
def gcountId (st : State) (sid g : String) : ℕ :=
  ((assignedOf st sid).filter
    (fun vid => groupOfId st.volunteers vid == some g)).length

/-- The per-shift final facts recorded once a shift has been processed by
`assign`: per required group, the assigned headcount of that group is capped
by the requirement, and any shortfall appears exactly once in the running
`unfilled_shifts` with the exact deficit. -/
def ShiftDone (st : State) (unf : List (String × String × ℕ)) (s0 : Shift) :
    Prop :=
  ∀ gc ∈ s0.requiredGroups,
    gcountId st s0.id gc.1 ≤ gc.2 ∧
    (gcountId st s0.id gc.1 < gc.2 →
      unf.count (s0.id, gc.1, gc.2 - gcountId st s0.id gc.1) = 1)

/-- Invariant of the outer shift loop of `assign`, after the shifts in `P`
have been processed and with those in `R` still pending
(`st₀.shifts = P ++ R`). -/
structure OuterP (st₀ : State) (P R : List Shift)
    (acc : State × List (String × String × ℕ)) : Prop where
  inv : Inv st₀ acc.1
  tracked : ∀ v ∈ acc.1.volunteers, ∀ sid ∈ v.assignedShifts,
    sid ∈ P.map (fun s => s.id)
  untouched : ∀ t ∈ acc.1.shifts, t.id ∈ R.map (fun s => s.id) →
    t.assigned = []
  unfSrc : ∀ u ∈ acc.2, u.1 ∈ P.map (fun s => s.id)
  done : ∀ s0 ∈ P, ShiftDone acc.1 acc.2 s0

/-- Invariant of the inner group loop of `assign` while shift `sh` is being
processed: groups in `gdone` are finished, those in `grest` pending
(`sh.requiredGroups = gdone ++ grest`). -/
structure InnerP (st₀ : State) (P R' : List Shift) (sh : Shift)
    (gdone grest : List (String × ℕ))
    (acc : State × List (String × String × ℕ)) : Prop where
  inv : Inv st₀ acc.1
  tracked : ∀ v ∈ acc.1.volunteers, ∀ sid ∈ v.assignedShifts,
    sid ∈ P.map (fun s => s.id) ∨ sid = sh.id
  groupTrack : ∀ v ∈ acc.1.volunteers, sh.id ∈ v.assignedShifts →
    ∃ gc ∈ gdone, v.group = some gc.1
  untouched : ∀ t ∈ acc.1.shifts, t.id ∈ R'.map (fun s => s.id) →
    t.assigned = []
  unfSrc : ∀ u ∈ acc.2, u.1 ∈ P.map (fun s => s.id) ∨
    (u.1 = sh.id ∧ ∃ gc ∈ gdone, u.2.1 = gc.1)
  doneP : ∀ s0 ∈ P, ShiftDone acc.1 acc.2 s0
  doneG : ∀ gc ∈ gdone,
    gcountId acc.1 sh.id gc.1 ≤ gc.2 ∧
    (gcountId acc.1 sh.id gc.1 < gc.2 →
      acc.2.count (sh.id, gc.1, gc.2 - gcountId acc.1 sh.id gc.1) = 1)
  restZero : ∀ gc ∈ grest, gcountId acc.1 sh.id gc.1 = 0

/-- One shift's contribution to the recomputed `unfilled` report. -/
def shiftDeficits (vols : List Volunteer) (s : Shift) :
    List (String × String × ℕ) :=
  s.requiredGroups.filterMap (fun gc =>
    let ac := (s.assigned.filter
      (fun vid => groupOfId vols vid == some gc.1)).length
    if ac < gc.2 then some (s.id, gc.1, gc.2 - ac) else none)

/-- The scaled duration of a shift id (as the model's hour-cap constraint
measures it). -/
def scaledDurOf (ss : List Shift) (sid : String) : ℤ :=
  pyInt (durOf ss sid * 100)

/-- Multiplicity of a `(shift id, group)` pair among the pending slots. -/
def slotCount (slots : List (Shift × String)) (sid g : String) : ℕ :=
  (slots.filter (fun p => p.1.id == sid && p.2 == g)).length

/-- The running bound of the search: committed group headcount plus pending
slots of that pair never exceeds the requirement. -/
def SlotBound (st : State) (slots : List (Shift × String)) : Prop :=
  ∀ s ∈ st.shifts, ∀ gc ∈ s.requiredGroups,
    gcountId st s.id gc.1 + slotCount slots s.id gc.1 ≤ gc.2

/-- Every pending slot carries a shift value of the initial dict. -/
def SlotsFrom (st₀ : State) (slots : List (Shift × String)) : Prop :=
  ∀ p ∈ slots, p.1 ∈ st₀.shifts

/-- Per-shift group-headcount bound of a complete (leaf) configuration. -/
def GBound (st : State) : Prop :=
  ∀ s ∈ st.shifts, ∀ gc ∈ s.requiredGroups, gcountId st s.id gc.1 ≤ gc.2

/-- What is known of any incumbent: it is still the initial sentinel
`{"score": -1, "assignments": {}}`, or the snapshot of a leaf state reached
by legal assignments. -/
def BestP (st₀ : State) (b : Best) : Prop :=
  b = ⟨-1, []⟩ ∨ ∃ st', Inv st₀ st' ∧ GBound st' ∧ b.assignments = snapshot st'

/-- The per-shift effect of `applyAssignments`: each recorded pair is applied
in turn to a single shift (the fold of maps is a map of folds, since the
update keeps ids). -/
def applyOne (asg : List (String × List String)) (s : Shift) : Shift :=
  asg.foldl (fun s' p =>
    if s'.id == p.1 then { s' with assigned := p.2 } else s') s

/-- The final state of `assign_optimal` once the incumbent's shifts are in
place: write-back state of lines 174-179. -/
def optFinal (st₀ st' : State) : State :=
  rederiveVolunteers { st₀ with shifts := st'.shifts }

/-- The recorded total of a group label, if present. -/
def lookupTot (m : List (Option String × ℚ)) (g : Option String) : Option ℚ :=
  (m.find? (fun p => p.1 == g)).map (fun p => p.2)

/-- Combined hours of the volunteers carrying one group label. -/
def groupSum (l : List Volunteer) (g : Option String) : ℚ :=
  ((l.filter (fun v => v.group == g)).map (fun v => v.assignedHours)).sum

/-- The `-max_hours` tiebreak read as a relation: `a`'s cap is at least
`b`'s, the unbounded default counting as the largest cap. -/
def maxHoursGe (a b : MaxHours) : Prop :=
  match a, b with
  | .inf, _ => True
  | .fin _, .inf => False
  | .fin x, .fin y => y ≤ x

/-- Two volunteers with finite caps, one group-less. -/
def vsW : List VolunteerInput :=
  [⟨"alice", "Alice", some "G", .fin 10⟩, ⟨"bob", "Bob", none, .fin 5⟩]

/-- One two-hour shift requiring one volunteer of group `G`. -/
def ssW : List ShiftInput :=
  [⟨"s1", 0, 120, [("G", 1)], none, none⟩]

/-- The all-true solver valuation. -/
def solW : String → String → Bool := fun _ _ => true

/-- The volunteer of the hour-cap counterexample: finite cap `83/50`
hours. -/
def vsX : List VolunteerInput :=
  [⟨"v", "V", some "G", .fin (83 / 50)⟩]

/-- A 100-minute shift: its duration `5/3` hours scales to
`int(500/3) = 166`, matching the scaled cap `int(166) = 166` while
exceeding the real cap. -/
def ssX : List ShiftInput :=
  [⟨"s", 0, 100, [("G", 1)], none, none⟩]

/-! ## Theorems -/

/-! ## Helper lemmas -/

theorem overlapB_symm (aS aE bS bE : ℤ) :
    overlapB aS aE bS bE = overlapB bS bE aS aE := by
  simp [overlapB, Bool.or_comm]

theorem mem_map_nodup_eq {α β : Type} {f : α → β} {l : List α}
    (h : (l.map f).Nodup) {a b : α} (ha : a ∈ l) (hb : b ∈ l)
    (hf : f a = f b) : a = b := by
  induction l with
  | nil => cases ha
  | cons x t ih =>
    simp only [List.map_cons, List.nodup_cons] at h
    rcases List.mem_cons.mp ha with rfl | ha'
    · rcases List.mem_cons.mp hb with rfl | hb'
      · rfl
      · exact absurd (hf ▸ List.mem_map_of_mem f hb') h.1
    · rcases List.mem_cons.mp hb with rfl | hb'
      · exact absurd (hf ▸ List.mem_map_of_mem f ha') h.1
      · exact ih h.2 ha' hb'

theorem find?_beq_eq_of_nodup {α : Type} {f : α → String} {l : List α}
    (h : (l.map f).Nodup) {a : α} (ha : a ∈ l) :
    l.find? (fun x => f x == f a) = some a := by
  induction l with
  | nil => cases ha
  | cons x t ih =>
    simp only [List.map_cons, List.nodup_cons] at h
    by_cases hx : f x = f a
    · have : x = a := by
        rcases List.mem_cons.mp ha with rfl | ha'
        · rfl
        · exact absurd (hx ▸ List.mem_map_of_mem f ha') h.1
      simp [List.find?, hx, this]
    · have ha' : a ∈ t := by
        rcases List.mem_cons.mp ha with rfl | ha'
        · exact absurd rfl hx
        · exact ha'
      have hbx : (f x == f a) = false := beq_eq_false_iff_ne.mpr hx
      simp only [List.find?_cons, hbx]
      exact ih h.2 ha'

theorem shift_ids_of_core {ss ts : List Shift}
    (h : ss.map sCore = ts.map sCore) : ss.map (·.id) = ts.map (·.id) := by
  have h2 := congrArg (List.map Prod.fst) h
  simpa [List.map_map, sCore, Function.comp] using h2

theorem vol_ids_of_core {vs ws : List Volunteer}
    (h : vs.map vCore = ws.map vCore) : vs.map (·.id) = ws.map (·.id) := by
  have h2 := congrArg (List.map Prod.fst) h
  simpa [List.map_map, vCore, Function.comp] using h2

theorem durOf_congr {ss ts : List Shift} (h : ss.map sCore = ts.map sCore)
    (sid : String) : durOf ss sid = durOf ts sid := by
  induction ss generalizing ts with
  | nil => cases ts with
    | nil => rfl
    | cons t tt => simp at h
  | cons s rest ih =>
    cases ts with
    | nil => simp at h
    | cons t tt =>
      simp only [List.map_cons, List.cons.injEq] at h
      have hid : s.id = t.id := congrArg (fun c => c.1) h.1
      have hst : s.start = t.start := congrArg (fun c => c.2.1) h.1
      have hsp : s.stop = t.stop := congrArg (fun c => c.2.2.1) h.1
      by_cases hx : s.id = sid
      · have hb : (s.id == sid) = true := beq_iff_eq.mpr hx
        have hb' : (t.id == sid) = true := beq_iff_eq.mpr (hid ▸ hx)
        simp [durOf, List.find?, hb, hb', Shift.durationHours, hst, hsp]
      · have hb : (s.id == sid) = false := beq_eq_false_iff_ne.mpr hx
        have hb' : (t.id == sid) = false := beq_eq_false_iff_ne.mpr (hid ▸ hx)
        simpa [durOf, List.find?, hb, hb'] using ih h.2

theorem startOf_congr {ss ts : List Shift} (h : ss.map sCore = ts.map sCore)
    (sid : String) : startOf ss sid = startOf ts sid := by
  induction ss generalizing ts with
  | nil => cases ts with
    | nil => rfl
    | cons t tt => simp at h
  | cons s rest ih =>
    cases ts with
    | nil => simp at h
    | cons t tt =>
      simp only [List.map_cons, List.cons.injEq] at h
      have hid : s.id = t.id := congrArg (fun c => c.1) h.1
      have hst : s.start = t.start := congrArg (fun c => c.2.1) h.1
      by_cases hx : s.id = sid
      · have hb : (s.id == sid) = true := beq_iff_eq.mpr hx
        have hb' : (t.id == sid) = true := beq_iff_eq.mpr (hid ▸ hx)
        simp [startOf, List.find?, hb, hb', hst]
      · have hb : (s.id == sid) = false := beq_eq_false_iff_ne.mpr hx
        have hb' : (t.id == sid) = false := beq_eq_false_iff_ne.mpr (hid ▸ hx)
        simpa [startOf, List.find?, hb, hb'] using ih h.2

theorem stopOf_congr {ss ts : List Shift} (h : ss.map sCore = ts.map sCore)
    (sid : String) : stopOf ss sid = stopOf ts sid := by
  induction ss generalizing ts with
  | nil => cases ts with
    | nil => rfl
    | cons t tt => simp at h
  | cons s rest ih =>
    cases ts with
    | nil => simp at h
    | cons t tt =>
      simp only [List.map_cons, List.cons.injEq] at h
      have hid : s.id = t.id := congrArg (fun c => c.1) h.1
      have hsp : s.stop = t.stop := congrArg (fun c => c.2.2.1) h.1
      by_cases hx : s.id = sid
      · have hb : (s.id == sid) = true := beq_iff_eq.mpr hx
        have hb' : (t.id == sid) = true := beq_iff_eq.mpr (hid ▸ hx)
        simp [stopOf, List.find?, hb, hb', hsp]
      · have hb : (s.id == sid) = false := beq_eq_false_iff_ne.mpr hx
        have hb' : (t.id == sid) = false := beq_eq_false_iff_ne.mpr (hid ▸ hx)
        simpa [stopOf, List.find?, hb, hb'] using ih h.2

theorem groupOfId_congr {vs ws : List Volunteer}
    (h : vs.map vCore = ws.map vCore) (vid : String) :
    groupOfId vs vid = groupOfId ws vid := by
  induction vs generalizing ws with
  | nil => cases ws with
    | nil => rfl
    | cons w wt => simp at h
  | cons v rest ih =>
    cases ws with
    | nil => simp at h
    | cons w wt =>
      simp only [List.map_cons, List.cons.injEq] at h
      have hid : v.id = w.id := congrArg (fun c => c.1) h.1
      have hg : v.group = w.group := congrArg (fun c => c.2.2.1) h.1
      by_cases hx : v.id = vid
      · have hb : (v.id == vid) = true := beq_iff_eq.mpr hx
        have hb' : (w.id == vid) = true := beq_iff_eq.mpr (hid ▸ hx)
        simp [groupOfId, List.find?, hb, hb', hg]
      · have hb : (v.id == vid) = false := beq_eq_false_iff_ne.mpr hx
        have hb' : (w.id == vid) = false := beq_eq_false_iff_ne.mpr (hid ▸ hx)
        simpa [groupOfId, List.find?, hb, hb'] using ih h.2


/-! ## The state invariant shared by the greedy and backtracking paths -/

theorem validState_mkState {vs : List VolunteerInput} {ss : List ShiftInput}
    (h : ValidInput vs ss) : ValidState (mkState vs ss) := by
  obtain ⟨h1, h2, h3, _⟩ := h
  refine ⟨?_, ?_, ?_⟩
  · simpa [mkState, List.map_map, Function.comp, mkVolunteer] using h1
  · simpa [mkState, List.map_map, Function.comp, mkShift] using h2
  · intro s hs
    simp only [mkState, List.mem_map] at hs
    obtain ⟨i, hi, rfl⟩ := hs
    simpa [mkShift] using h3 i hi

theorem lookup_mkState_assignMap {vs : List VolunteerInput} {k : String}
    (hk : k ∈ vs.map (fun i => i.id)) :
    lookupAL (vs.map (fun v => (v.id, ([] : List (String × ℤ × ℤ))))) k =
      some [] := by
  induction vs with
  | nil => cases hk
  | cons i t ih =>
    by_cases hx : i.id = k
    · have hb : (i.id == k) = true := beq_iff_eq.mpr hx
      simp [lookupAL, List.find?_cons, hb]
    · have hb : (i.id == k) = false := beq_eq_false_iff_ne.mpr hx
      have hk' : k ∈ t.map (fun i => i.id) := by
        rcases List.mem_map.mp hk with ⟨j, hj, rfl⟩
        rcases List.mem_cons.mp hj with rfl | hj'
        · exact absurd rfl hx
        · exact List.mem_map_of_mem _ hj'
      simpa [lookupAL, List.find?_cons, hb] using ih hk'

theorem inv_mkState {vs : List VolunteerInput} {ss : List ShiftInput}
    (hval : ValidInput vs ss) : Inv (mkState vs ss) (mkState vs ss) := by
  constructor
  · rfl
  · rfl
  · intro v hv
    obtain ⟨i, _, rfl⟩ := List.mem_map.mp hv
    simp [mkVolunteer]
  · intro v hv
    obtain ⟨i, hi, rfl⟩ := List.mem_map.mp hv
    have hm := hval.2.2.2 i hi
    unfold capProp mkVolunteer
    cases hmx : i.maxHours with
    | fin m =>
      rw [hmx] at hm
      unfold MaxHours.nonneg at hm
      simp only
      have : (0:ℚ) < tol := by norm_num [tol]
      linarith
    | inf => simp
  · intro v hv
    obtain ⟨i, _, rfl⟩ := List.mem_map.mp hv
    simp [mkVolunteer]
  · intro v hv
    obtain ⟨i, _, rfl⟩ := List.mem_map.mp hv
    simp [mkVolunteer]
  · intro v hv
    obtain ⟨i, hi, rfl⟩ := List.mem_map.mp hv
    have : (mkVolunteer i).id ∈ vs.map (fun j => j.id) := by
      simpa [mkVolunteer] using List.mem_map_of_mem (fun j => j.id) hi
    simpa [mkVolunteer, mkState] using lookup_mkState_assignMap this
  · intro v hv s hs
    obtain ⟨j, _, rfl⟩ := List.mem_map.mp hs
    obtain ⟨i, _, rfl⟩ := List.mem_map.mp hv
    simp [mkShift, mkVolunteer]
  · intro s hs vid hvid
    obtain ⟨j, _, rfl⟩ := List.mem_map.mp hs
    simp [mkShift] at hvid
  · intro v hv sid hsid
    obtain ⟨i, _, rfl⟩ := List.mem_map.mp hv
    simp [mkVolunteer] at hsid
  · intro v hv hg
    obtain ⟨i, _, rfl⟩ := List.mem_map.mp hv
    simp [mkVolunteer]

theorem durOf_mem {ss : List Shift} (h : (ss.map (·.id)).Nodup) {s : Shift}
    (hs : s ∈ ss) : durOf ss s.id = s.durationHours := by
  unfold durOf
  rw [find?_beq_eq_of_nodup (f := Shift.id) h hs]

theorem startOf_mem {ss : List Shift} (h : (ss.map (·.id)).Nodup) {s : Shift}
    (hs : s ∈ ss) : startOf ss s.id = s.start := by
  unfold startOf
  rw [find?_beq_eq_of_nodup (f := Shift.id) h hs]

theorem stopOf_mem {ss : List Shift} (h : (ss.map (·.id)).Nodup) {s : Shift}
    (hs : s ∈ ss) : stopOf ss s.id = s.stop := by
  unfold stopOf
  rw [find?_beq_eq_of_nodup (f := Shift.id) h hs]

theorem lookupAL_cons {κ α : Type} [BEq κ] (q : κ × α) (m : List (κ × α))
    (k : κ) :
    lookupAL (q :: m) k = if q.1 == k then some q.2 else lookupAL m k := by
  cases hq : q.1 == k
  · simp [lookupAL, List.find?_cons, hq]
  · simp [lookupAL, List.find?_cons, hq]

theorem lookupAL_updateAM (m : List (String × List (String × ℤ × ℤ)))
    (vid k : String) (ivl : String × ℤ × ℤ) :
    lookupAL (updateAM m vid ivl) k =
      (lookupAL m k).map (fun l => if k = vid then l ++ [ivl] else l) := by
  induction m with
  | nil => rfl
  | cons p t ih =>
    have hu : updateAM (p :: t) vid ivl =
        (if p.1 == vid then (p.1, p.2 ++ [ivl]) else p) :: updateAM t vid ivl := rfl
    rw [hu, lookupAL_cons, lookupAL_cons]
    by_cases hv : p.1 = vid
    · have hbv : (p.1 == vid) = true := beq_iff_eq.mpr hv
      by_cases hk : p.1 = k
      · have hbk : (p.1 == k) = true := beq_iff_eq.mpr hk
        have hkv : k = vid := hk ▸ hv
        simp [hbv, hbk, hkv]
      · have hbk : (p.1 == k) = false := beq_eq_false_iff_ne.mpr hk
        simp [hbv, hbk, ih]
    · have hbv : (p.1 == vid) = false := beq_eq_false_iff_ne.mpr hv
      by_cases hk : p.1 = k
      · have hbk : (p.1 == k) = true := beq_iff_eq.mpr hk
        have hkv : ¬(k = vid) := fun h => hv (hk.trans h)
        simp [hbv, hbk, hkv]
      · have hbk : (p.1 == k) = false := beq_eq_false_iff_ne.mpr hk
        simp [hbv, hbk, ih]

theorem updateVol_ids (vs : List Volunteer) (vid : String)
    {f : Volunteer → Volunteer} (hf : ∀ v, (f v).id = v.id) :
    (updateVol vs vid f).map (fun v => v.id) = vs.map (fun v => v.id) := by
  unfold updateVol
  rw [List.map_map]
  refine List.map_congr_left ?_
  intro v _
  by_cases hb : v.id == vid <;> simp [Function.comp, hb, hf]

theorem mem_updateVol {vs : List Volunteer} {vid : String}
    {f : Volunteer → Volunteer} {w : Volunteer} (hw : w ∈ updateVol vs vid f) :
    ∃ v ∈ vs, w = if v.id == vid then f v else v := by
  unfold updateVol at hw
  obtain ⟨v, hv, rfl⟩ := List.mem_map.mp hw
  exact ⟨v, hv, rfl⟩

theorem mem_updateShiftA {ss : List Shift} {sid : String}
    {f : Shift → Shift} {t : Shift} (ht : t ∈ updateShiftA ss sid f) :
    ∃ s ∈ ss, t = if s.id == sid then f s else s := by
  unfold updateShiftA at ht
  obtain ⟨s, hs, rfl⟩ := List.mem_map.mp ht
  exact ⟨s, hs, rfl⟩

/-- One committed assignment preserves the state invariant, provided the
committed volunteer satisfies the guards the candidate filters impose: the
hour cap, no overlap against its committed intervals, not already on this
shift, and a (string) group. -/
theorem inv_applyAssign {st₀ st : State} (hval : ValidState st₀)
    (hInv : Inv st₀ st) {sh : Shift} (hsh : sh ∈ st₀.shifts) {vid : String}
    (hvid : vid ∈ st.volunteers.map (fun v => v.id))
    (hov : wouldOverlap st vid sh = false)
    (hcond : ∀ w ∈ st.volunteers, w.id = vid →
      withinCap w sh.durationHours = true ∧ sh.id ∉ w.assignedShifts ∧
        w.group ≠ none) :
    Inv st₀ (applyAssign st sh vid) := by
  have hndS : (st₀.shifts.map (fun s => s.id)).Nodup := hval.2.1
  have hdur : durOf st₀.shifts sh.id = sh.durationHours := durOf_mem hndS hsh
  have hann : annot st₀.shifts sh.id = (sh.id, sh.start, sh.stop) := by
    unfold annot
    rw [startOf_mem hndS hsh, stopOf_mem hndS hsh]
  constructor
  · -- coreV
    show (updateVol st.volunteers vid _).map vCore = _
    unfold updateVol
    rw [List.map_map]
    have : ∀ v ∈ st.volunteers,
        (vCore ∘ fun v => if v.id == vid then
          { v with assignedHours := v.assignedHours + sh.durationHours,
                   assignedShifts := v.assignedShifts ++ [sh.id] } else v) v =
          vCore v := by
      intro v _
      by_cases hb : v.id == vid <;> simp [Function.comp, hb, vCore]
    rw [List.map_congr_left this]
    exact hInv.coreV
  · -- coreS
    show (updateShiftA st.shifts sh.id _).map sCore = _
    unfold updateShiftA
    rw [List.map_map]
    have : ∀ s ∈ st.shifts,
        (sCore ∘ fun s => if s.id == sh.id then
          { s with assigned := s.assigned ++ [vid] } else s) s = sCore s := by
      intro s _
      by_cases hb : s.id == sh.id <;> simp [Function.comp, hb, sCore]
    rw [List.map_congr_left this]
    exact hInv.coreS
  · -- hoursEq
    intro w hw
    obtain ⟨v, hv, rfl⟩ := mem_updateVol hw
    by_cases hb : v.id = vid
    · have hbt : (v.id == vid) = true := beq_iff_eq.mpr hb
      simp only [hbt, if_true, List.map_append, List.sum_append, List.map_cons,
        List.map_nil, List.sum_cons, List.sum_nil, hdur]
      rw [hInv.hoursEq v hv]
      ring
    · have hbf : (v.id == vid) = false := beq_eq_false_iff_ne.mpr hb
      simp only [hbf, if_false]
      exact hInv.hoursEq v hv
  · -- cap
    intro w hw
    obtain ⟨v, hv, rfl⟩ := mem_updateVol hw
    by_cases hb : v.id = vid
    · have hbt : (v.id == vid) = true := beq_iff_eq.mpr hb
      have hcap := (hcond v hv hb).1
      simp only [hbt, if_true]
      unfold capProp
      unfold withinCap at hcap
      cases hm : v.maxHours with
      | fin m =>
        rw [hm] at hcap
        simp only
        exact of_decide_eq_true hcap
      | inf => simp
    · have hbf : (v.id == vid) = false := beq_eq_false_iff_ne.mpr hb
      simp only [hbf, if_false]
      exact hInv.cap v hv
  · -- nodupAS
    intro w hw
    obtain ⟨v, hv, rfl⟩ := mem_updateVol hw
    by_cases hb : v.id = vid
    · have hbt : (v.id == vid) = true := beq_iff_eq.mpr hb
      have hdup := (hcond v hv hb).2.1
      simp only [hbt, if_true]
      simp [List.nodup_append, hInv.nodupAS v hv, hdup]
    · have hbf : (v.id == vid) = false := beq_eq_false_iff_ne.mpr hb
      simp only [hbf, if_false]
      exact hInv.nodupAS v hv
  · -- noOv
    intro w hw
    obtain ⟨v, hv, rfl⟩ := mem_updateVol hw
    by_cases hb : v.id = vid
    · have hbt : (v.id == vid) = true := beq_iff_eq.mpr hb
      simp only [hbt, if_true]
      rw [List.pairwise_append]
      refine ⟨hInv.noOv v hv, List.pairwise_singleton _ _, ?_⟩
      intro a ha b hbm
      have hbb : b = sh.id := by simpa using hbm
      subst hbb
      -- extract per-interval facts from the failed overlap test
      have hsync := hInv.sync v hv
      rw [hb] at hsync
      unfold wouldOverlap at hov
      rw [hsync] at hov
      simp only [List.any_eq_false, List.mem_map] at hov
      have := hov (annot st₀.shifts a) ⟨a, ha, rfl⟩
      unfold noOvIds
      rw [startOf_mem hndS hsh, stopOf_mem hndS hsh]
      unfold annot at this
      simpa using this
    · have hbf : (v.id == vid) = false := beq_eq_false_iff_ne.mpr hb
      simp only [hbf, if_false]
      exact hInv.noOv v hv
  · -- sync
    intro w hw
    obtain ⟨v, hv, rfl⟩ := mem_updateVol hw
    by_cases hb : v.id = vid
    · have hbt : (v.id == vid) = true := beq_iff_eq.mpr hb
      simp only [hbt, if_true]
      show lookupAL (updateAM st.assignMap vid _) v.id = _
      rw [lookupAL_updateAM, hInv.sync v hv]
      simp [hb, hann]
    · have hbf : (v.id == vid) = false := beq_eq_false_iff_ne.mpr hb
      simp only [hbf, if_false]
      show lookupAL (updateAM st.assignMap vid _) v.id = _
      rw [lookupAL_updateAM, hInv.sync v hv]
      simp [hb]
  · -- corr
    intro w hw t ht
    obtain ⟨v, hv, rfl⟩ := mem_updateVol hw
    obtain ⟨s, hs, rfl⟩ := mem_updateShiftA ht
    have base := hInv.corr v hv s hs
    by_cases hb : v.id = vid <;> by_cases hc : s.id = sh.id
    · have hbt : (v.id == vid) = true := beq_iff_eq.mpr hb
      have hct : (s.id == sh.id) = true := beq_iff_eq.mpr hc
      simp only [hbt, hct, if_true]
      rw [hb, hc] at base
      rw [List.count_append, List.count_append, hb, hc]
      simp [base]
    · have hbt : (v.id == vid) = true := beq_iff_eq.mpr hb
      have hcf : (s.id == sh.id) = false := beq_eq_false_iff_ne.mpr hc
      simp only [hbt, hcf, if_true, if_false]
      simp only [List.count_append]
      simp [base, hc]
    · have hbf : (v.id == vid) = false := beq_eq_false_iff_ne.mpr hb
      have hct : (s.id == sh.id) = true := beq_iff_eq.mpr hc
      simp only [hbf, hct, if_true, if_false]
      simp only [List.count_append]
      have : v.id ≠ vid := hb
      simp [base, this]
    · have hbf : (v.id == vid) = false := beq_eq_false_iff_ne.mpr hb
      have hcf : (s.id == sh.id) = false := beq_eq_false_iff_ne.mpr hc
      simp only [hbf, hcf, if_false]
      exact base
  · -- assignedVal
    intro t ht u hu
    obtain ⟨s, hs, rfl⟩ := mem_updateShiftA ht
    have hvols : (applyAssign st sh vid).volunteers =
        updateVol st.volunteers vid (fun v =>
          { v with assignedHours := v.assignedHours + sh.durationHours,
                   assignedShifts := v.assignedShifts ++ [sh.id] }) := rfl
    have hidp : (updateVol st.volunteers vid (fun v =>
        { v with assignedHours := v.assignedHours + sh.durationHours,
                 assignedShifts := v.assignedShifts ++ [sh.id] })).map
          (fun v => v.id) = st.volunteers.map (fun v => v.id) :=
      updateVol_ids _ _ (fun v => rfl)
    rw [hvols, hidp]
    by_cases hc : s.id = sh.id
    · have hct : (s.id == sh.id) = true := beq_iff_eq.mpr hc
      rw [hct] at hu
      simp only [if_true] at hu
      rcases List.mem_append.mp hu with h1 | h2
      · exact hInv.assignedVal s hs u h1
      · have : u = vid := by simpa using h2
        exact this ▸ hvid
    · have hcf : (s.id == sh.id) = false := beq_eq_false_iff_ne.mpr hc
      rw [hcf] at hu
      simp at hu
      exact hInv.assignedVal s hs u hu
  · -- validAS
    intro w hw sid hsid
    obtain ⟨v, hv, rfl⟩ := mem_updateVol hw
    have mem_upd : ∀ sid, (∃ s ∈ st.shifts, s.id = sid) →
        ∃ t ∈ updateShiftA st.shifts sh.id
          (fun s => { s with assigned := s.assigned ++ [vid] }), t.id = sid := by
      intro sid hex
      obtain ⟨s, hs, rfl⟩ := hex
      refine ⟨if s.id == sh.id then
        { s with assigned := s.assigned ++ [vid] } else s, ?_, ?_⟩
      · exact List.mem_map_of_mem _ hs
      · by_cases hc : s.id == sh.id <;> simp [hc]
    by_cases hb : v.id = vid
    · have hbt : (v.id == vid) = true := beq_iff_eq.mpr hb
      rw [hbt] at hsid
      simp only [if_true] at hsid
      rcases List.mem_append.mp hsid with h1 | h2
      · exact mem_upd sid (hInv.validAS v hv sid h1)
      · have hsid2 : sid = sh.id := by simpa using h2
        subst hsid2
        have : sh.id ∈ st.shifts.map (fun s => s.id) := by
          rw [shift_ids_of_core hInv.coreS]
          exact List.mem_map_of_mem _ hsh
        obtain ⟨s, hs, hsi⟩ := List.mem_map.mp this
        exact mem_upd _ ⟨s, hs, hsi⟩
    · have hbf : (v.id == vid) = false := beq_eq_false_iff_ne.mpr hb
      rw [hbf] at hsid
      simp at hsid
      exact mem_upd sid (hInv.validAS v hv sid hsid)
  · -- noneF
    intro w hw hg
    obtain ⟨v, hv, rfl⟩ := mem_updateVol hw
    by_cases hb : v.id = vid
    · have hbt : (v.id == vid) = true := beq_iff_eq.mpr hb
      exfalso
      apply (hcond v hv hb).2.2
      simpa [hbt] using hg
    · have hbf : (v.id == vid) = false := beq_eq_false_iff_ne.mpr hb
      simp only [hbf, if_false] at hg ⊢
      exact hInv.noneF v hv hg

theorem ovFree_of_wouldOverlap {st₀ st : State} (hInv : Inv st₀ st)
    {v : Volunteer} (hv : v ∈ st.volunteers) {sh : Shift}
    (h : wouldOverlap st v.id sh = false) :
    OvFree st₀.shifts v.assignedShifts sh := by
  intro sid hsid
  unfold wouldOverlap at h
  rw [hInv.sync v hv] at h
  simp only [List.any_eq_false, List.mem_map] at h
  have := h (annot st₀.shifts sid) ⟨sid, hsid, rfl⟩
  simpa [annot] using this

theorem wouldOverlap_of_ovFree {st₀ st : State} (hInv : Inv st₀ st)
    {w : Volunteer} (hw : w ∈ st.volunteers) {sh : Shift}
    (h : OvFree st₀.shifts w.assignedShifts sh) :
    wouldOverlap st w.id sh = false := by
  unfold wouldOverlap
  rw [hInv.sync w hw]
  simp only [List.any_eq_false, List.mem_map]
  rintro t ⟨sid, hsid, rfl⟩
  simpa [annot] using h sid hsid

/-- Committing a list of candidates off the front of the sorted pool (the
inner loop of `assign`, lines 94-102): the invariant is preserved, the
current shift's `assigned` grows by exactly the committed ids, and each
committed volunteer gains this shift and its duration. -/
theorem commit_spec {st₀ : State} (hval : ValidState st₀) {sh : Shift}
    (hsh : sh ∈ st₀.shifts) {g : String} :
    ∀ (chosen : List Volunteer) (st : State), Inv st₀ st →
      (chosen.map (fun v => v.id)).Nodup →
      (∀ v ∈ chosen, v ∈ st.volunteers) →
      (∀ v ∈ chosen, v.group = some g) →
      (∀ v ∈ chosen, withinCap v sh.durationHours = true) →
      (∀ v ∈ chosen, OvFree st₀.shifts v.assignedShifts sh) →
      (∀ v ∈ chosen, sh.id ∉ v.assignedShifts) →
      (∀ v ∈ chosen, ∀ w ∈ st.volunteers, w.id = v.id → w = v) →
      Inv st₀ (chosen.foldl (fun acc v => applyAssign acc sh v.id) st) ∧
      (chosen.foldl (fun acc v => applyAssign acc sh v.id) st).shifts =
        st.shifts.map (fun s => if s.id == sh.id then
          { s with assigned := s.assigned ++ chosen.map (fun v => v.id) }
        else s) ∧
      (chosen.foldl (fun acc v => applyAssign acc sh v.id) st).volunteers =
        st.volunteers.map (fun w =>
          if w.id ∈ chosen.map (fun v => v.id) then
            { w with assignedHours := w.assignedHours + sh.durationHours,
                     assignedShifts := w.assignedShifts ++ [sh.id] }
          else w) := by
  intro chosen
  induction chosen with
  | nil =>
    intro st hInv _ _ _ _ _ _ _
    refine ⟨hInv, ?_, ?_⟩
    · have h0 : ∀ s ∈ st.shifts,
          (if s.id == sh.id then
            { s with assigned :=
                s.assigned ++ List.map (fun v => v.id) ([] : List Volunteer) }
          else s) = s := by
        intro s _
        split <;> simp
      simp only [List.foldl_nil]
      rw [List.map_congr_left h0]
      simp
    · simp
  | cons v1 rest ih =>
    intro st hInv hnd hmem hgrp hcap hovf hdup hEq
    have hndc := hnd
    rw [List.map_cons, List.nodup_cons] at hndc
    have hnd1 : v1.id ∉ rest.map (fun v => v.id) := hndc.1
    have hndr : (rest.map (fun v => v.id)).Nodup := hndc.2
    have hm1 : v1 ∈ st.volunteers := hmem v1 (List.mem_cons_self _ _)
    have hvid : v1.id ∈ st.volunteers.map (fun v => v.id) :=
      List.mem_map_of_mem _ hm1
    have hov : wouldOverlap st v1.id sh = false :=
      wouldOverlap_of_ovFree hInv hm1 (hovf v1 (List.mem_cons_self _ _))
    have hcondv : ∀ w ∈ st.volunteers, w.id = v1.id →
        withinCap w sh.durationHours = true ∧ sh.id ∉ w.assignedShifts ∧
          w.group ≠ none := by
      intro w hw hwid
      have hwv : w = v1 := hEq v1 (List.mem_cons_self _ _) w hw hwid
      rw [hwv]
      refine ⟨hcap v1 (List.mem_cons_self _ _), hdup v1 (List.mem_cons_self _ _), ?_⟩
      rw [hgrp v1 (List.mem_cons_self _ _)]
      simp
    have hInv1 : Inv st₀ (applyAssign st sh v1.id) :=
      inv_applyAssign hval hInv hsh hvid hov hcondv
    -- entries of rest are untouched by the first commit
    have hmem' : ∀ v ∈ rest, v ∈ (applyAssign st sh v1.id).volunteers := by
      intro v hv
      have hne : v.id ≠ v1.id := by
        intro h
        exact hnd1 (h ▸ List.mem_map_of_mem _ hv)
      have hbf : (v.id == v1.id) = false := beq_eq_false_iff_ne.mpr hne
      show v ∈ updateVol st.volunteers v1.id _
      unfold updateVol
      refine List.mem_map.mpr ⟨v, hmem v (List.mem_cons_of_mem _ hv), ?_⟩
      simp [hbf]
    have hEq' : ∀ v ∈ rest, ∀ w ∈ (applyAssign st sh v1.id).volunteers,
        w.id = v.id → w = v := by
      intro v hv w hw hwid
      obtain ⟨w0, hw0, rfl⟩ := mem_updateVol hw
      by_cases hb : w0.id = v1.id
      · have hbt : (w0.id == v1.id) = true := beq_iff_eq.mpr hb
        simp only [hbt, if_true] at hwid ⊢
        exfalso
        have hvv : v.id = v1.id := by
          have hwv : w0.id = v.id := hwid
          rw [← hwv, hb]
        exact hnd1 (hvv ▸ List.mem_map_of_mem _ hv)
      · have hbf : (w0.id == v1.id) = false := beq_eq_false_iff_ne.mpr hb
        simp [hbf] at hwid ⊢
        exact hEq v (List.mem_cons_of_mem _ hv) w0 hw0 hwid
    have hrest := ih (applyAssign st sh v1.id) hInv1 hndr hmem'
      (fun v hv => hgrp v (List.mem_cons_of_mem _ hv))
      (fun v hv => hcap v (List.mem_cons_of_mem _ hv))
      (fun v hv => hovf v (List.mem_cons_of_mem _ hv))
      (fun v hv => hdup v (List.mem_cons_of_mem _ hv))
      hEq'
    refine ⟨hrest.1, ?_, ?_⟩
    · -- shifts characterisation
      rw [show (v1 :: rest).foldl (fun acc v => applyAssign acc sh v.id) st =
        rest.foldl (fun acc v => applyAssign acc sh v.id)
          (applyAssign st sh v1.id) from rfl]
      rw [hrest.2.1]
      show (updateShiftA st.shifts sh.id _).map _ = _
      unfold updateShiftA
      rw [List.map_map]
      refine List.map_congr_left ?_
      intro s _
      by_cases hc : s.id = sh.id
      · have hct : (s.id == sh.id) = true := beq_iff_eq.mpr hc
        simp [Function.comp, hct]
      · have hcf : (s.id == sh.id) = false := beq_eq_false_iff_ne.mpr hc
        simp [Function.comp, hcf]
    · -- volunteers characterisation
      rw [show (v1 :: rest).foldl (fun acc v => applyAssign acc sh v.id) st =
        rest.foldl (fun acc v => applyAssign acc sh v.id)
          (applyAssign st sh v1.id) from rfl]
      rw [hrest.2.2]
      show (updateVol st.volunteers v1.id _).map _ = _
      unfold updateVol
      rw [List.map_map]
      refine List.map_congr_left ?_
      intro w _
      by_cases hb : w.id = v1.id
      · have hbt : (w.id == v1.id) = true := beq_iff_eq.mpr hb
        have hnotr : w.id ∉ rest.map (fun v => v.id) := hb ▸ hnd1
        simp only [Function.comp, hbt, if_true]
        have hmem1 : w.id ∈ (v1 :: rest).map (fun v => v.id) := by
          simp [hb]
        simp [hnotr, hmem1, hb]
        intro x hx hxx
        exact hnd1 (hxx ▸ List.mem_map_of_mem (fun v => v.id) hx)
      · have hbf : (w.id == v1.id) = false := beq_eq_false_iff_ne.mpr hb
        simp only [Function.comp, hbf, if_false]
        by_cases hr : w.id ∈ rest.map (fun v => v.id)
        · have hmem1 : w.id ∈ (v1 :: rest).map (fun v => v.id) := by
            simp [hr]
          simp [hr, hmem1, hb]
        · have hmem1 : w.id ∉ (v1 :: rest).map (fun v => v.id) := by
            simp [hb, hr]
          simp [hr, hmem1, hb]



/-! ## Greedy pass: per-shift bookkeeping -/

theorem mem_eligible {st : State} {sh : Shift} {g : String} {v : Volunteer}
    (hv : v ∈ eligible st sh g) :
    v ∈ st.volunteers ∧ v.group = some g ∧ sh.allows v = true ∧
      wouldOverlap st v.id sh = false ∧ withinCap v sh.durationHours = true := by
  unfold eligible at hv
  rw [List.mem_filter] at hv
  refine ⟨hv.1, ?_⟩
  have h := hv.2
  simp only [Bool.and_eq_true, beq_iff_eq, Bool.not_eq_true'] at h
  exact ⟨h.1.1.1, h.1.1.2, h.1.2, h.2⟩

theorem mem_sortCands {l : List Volunteer} {v : Volunteer} :
    v ∈ sortCands l ↔ v ∈ l := by
  unfold sortCands
  exact List.mem_insertionSort greedyR

theorem sortCands_ids_perm (l : List Volunteer) :
    ((sortCands l).map (fun v => v.id)).Perm (l.map (fun v => v.id)) :=
  (List.perm_insertionSort greedyR l).map _

theorem takeSort_ids_nodup {l : List Volunteer} {c : ℕ}
    (h : (l.map (fun v => v.id)).Nodup) :
    (((sortCands l).take c).map (fun v => v.id)).Nodup := by
  have h1 : ((sortCands l).map (fun v => v.id)).Nodup :=
    ((sortCands_ids_perm l).nodup_iff).mpr h
  have h2 : ((sortCands l).take c).map (fun v => v.id) =
      ((sortCands l).map (fun v => v.id)).take c := by
    rw [List.map_take]
  rw [h2]
  exact h1.sublist (List.take_sublist _ _)

theorem eligible_ids_nodup {st₀ st : State} (hval : ValidState st₀)
    (hInv : Inv st₀ st) (sh : Shift) (g : String) :
    ((eligible st sh g).map (fun v => v.id)).Nodup := by
  have hnd : (st.volunteers.map (fun v => v.id)).Nodup := by
    rw [vol_ids_of_core hInv.coreV]
    exact hval.1
  have : (eligible st sh g).Sublist st.volunteers := List.filter_sublist _
  exact hnd.sublist (this.map _)

theorem find?_updateShiftA {ss : List Shift} {sid : String} {f : Shift → Shift}
    (hf : ∀ s, (f s).id = s.id) (k : String) :
    (updateShiftA ss sid f).find? (fun s => s.id == k) =
      (ss.find? (fun s => s.id == k)).map
        (fun s => if s.id == sid then f s else s) := by
  induction ss with
  | nil => rfl
  | cons s t ih =>
    have hid : (if s.id == sid then f s else s).id = s.id := by
      split <;> simp [hf]
    show List.find? _ ((if s.id == sid then f s else s) :: updateShiftA t sid f) = _
    cases hk : s.id == k
    · rw [List.find?_cons, List.find?_cons]
      rw [show ((if s.id == sid then f s else s).id == k) = false by rw [hid]; exact hk]
      rw [hk]
      exact ih
    · rw [List.find?_cons, List.find?_cons]
      rw [show ((if s.id == sid then f s else s).id == k) = true by rw [hid]; exact hk]
      rw [hk]
      rfl

theorem mem_sCore_exists {ss ts : List Shift}
    (h : ss.map sCore = ts.map sCore) {t : Shift} (ht : t ∈ ss) :
    ∃ s ∈ ts, sCore s = sCore t := by
  induction ss generalizing ts with
  | nil => cases ht
  | cons s rest ih =>
    cases ts with
    | nil => simp at h
    | cons u ut =>
      simp only [List.map_cons, List.cons.injEq] at h
      rcases List.mem_cons.mp ht with rfl | ht'
      · exact ⟨u, List.mem_cons_self _ _, h.1.symm⟩
      · obtain ⟨s2, hs2, he⟩ := ih h.2 ht'
        exact ⟨s2, List.mem_cons_of_mem _ hs2, he⟩

theorem mem_vCore_exists {vs ws : List Volunteer}
    (h : vs.map vCore = ws.map vCore) {v : Volunteer} (hv : v ∈ vs) :
    ∃ w ∈ ws, vCore w = vCore v := by
  induction vs generalizing ws with
  | nil => cases hv
  | cons x rest ih =>
    cases ws with
    | nil => simp at h
    | cons u ut =>
      simp only [List.map_cons, List.cons.injEq] at h
      rcases List.mem_cons.mp hv with rfl | hv'
      · exact ⟨u, List.mem_cons_self _ _, h.1.symm⟩
      · obtain ⟨w2, hw2, he⟩ := ih h.2 hv'
        exact ⟨w2, List.mem_cons_of_mem _ hw2, he⟩

/-- One `(group, count)` step of `assign` takes the inner-loop invariant one
group further. -/
theorem groupStep_spec {st₀ : State} (hval : ValidState st₀)
    {P R' : List Shift} {sh : Shift}
    (hsplit : st₀.shifts = P ++ sh :: R')
    {gdone grest : List (String × ℕ)} {gc : String × ℕ}
    (hgsplit : sh.requiredGroups = gdone ++ gc :: grest)
    {acc : State × List (String × String × ℕ)}
    (hP : InnerP st₀ P R' sh gdone (gc :: grest) acc) :
    InnerP st₀ P R' sh (gdone ++ [gc]) grest
      ((assignGroupStep acc.1 sh gc.1 gc.2).1,
        acc.2 ++ (assignGroupStep acc.1 sh gc.1 gc.2).2) := by
  have hInv := hP.inv
  have hshmem : sh ∈ st₀.shifts := by
    rw [hsplit]
    exact List.mem_append.mpr (Or.inr (List.mem_cons_self _ _))
  -- id disjointness facts
  have hids := hval.2.1
  rw [hsplit, List.map_append, List.map_cons] at hids
  obtain ⟨hndP, hndC, hdisj⟩ := List.nodup_append.mp hids
  have hshP : sh.id ∉ P.map (fun s => s.id) := by
    intro h
    exact hdisj h (List.mem_cons_self _ _)
  have hshR : sh.id ∉ R'.map (fun s => s.id) := (List.nodup_cons.mp hndC).1
  -- group-key disjointness facts
  have hkeys := hval.2.2 sh hshmem
  rw [hgsplit, List.map_append, List.map_cons] at hkeys
  obtain ⟨hkD, hkC, hkdisj⟩ := List.nodup_append.mp hkeys
  have hgD : gc.1 ∉ gdone.map (fun p => p.1) := by
    intro h
    exact hkdisj h (List.mem_cons_self _ _)
  have hgR : gc.1 ∉ grest.map (fun p => p.1) := (List.nodup_cons.mp hkC).1
  -- volunteer dict keys
  have hvnd : (acc.1.volunteers.map (fun v => v.id)).Nodup := by
    rw [vol_ids_of_core hInv.coreV]
    exact hval.1
  set cands := sortCands (eligible acc.1 sh gc.1) with hcands
  set chosen := cands.take gc.2 with hchosen
  have hmemc : ∀ v ∈ chosen, v ∈ eligible acc.1 sh gc.1 := by
    intro v hv
    exact mem_sortCands.mp (List.take_subset _ _ hv)
  have hmemV : ∀ v ∈ chosen, v ∈ acc.1.volunteers :=
    fun v hv => (mem_eligible (hmemc v hv)).1
  have hgrp : ∀ v ∈ chosen, v.group = some gc.1 :=
    fun v hv => (mem_eligible (hmemc v hv)).2.1
  have hEq : ∀ v ∈ chosen, ∀ w ∈ acc.1.volunteers, w.id = v.id → w = v :=
    fun v hv w hw hwid => mem_map_nodup_eq hvnd hw (hmemV v hv) hwid
  have hdup : ∀ v ∈ chosen, sh.id ∉ v.assignedShifts := by
    intro v hv hmem
    obtain ⟨gc2, hgc2, hg2⟩ := hP.groupTrack v (hmemV v hv) hmem
    have heq2 : gc.1 = gc2.1 := by
      have hg := hgrp v hv
      rw [hg] at hg2
      exact (Option.some.injEq _ _).mp hg2
    exact hgD (heq2 ▸ List.mem_map_of_mem _ hgc2)
  have Hc := commit_spec hval hshmem (g := gc.1) chosen acc.1 hInv
    (takeSort_ids_nodup (eligible_ids_nodup hval hInv sh gc.1))
    hmemV hgrp
    (fun v hv => (mem_eligible (hmemc v hv)).2.2.2.2)
    (fun v hv => ovFree_of_wouldOverlap hInv (hmemV v hv)
      (mem_eligible (hmemc v hv)).2.2.2.1)
    hdup hEq
  set st1 := chosen.foldl (fun a v => applyAssign a sh v.id) acc.1 with hst1
  have HS : st1.shifts =
      acc.1.shifts.map (fun s => if s.id == sh.id then
        { s with assigned := s.assigned ++ chosen.map (fun v => v.id) }
      else s) := Hc.2.1
  have HV : st1.volunteers =
      acc.1.volunteers.map (fun w =>
        if w.id ∈ chosen.map (fun v => v.id) then
          { w with assignedHours := w.assignedHours + sh.durationHours,
                   assignedShifts := w.assignedShifts ++ [sh.id] }
        else w) := Hc.2.2
  have hInv1 : Inv st₀ st1 := Hc.1
  -- groups of committed ids, as seen through the dict lookup
  have hgid : ∀ vid ∈ chosen.map (fun v => v.id),
      groupOfId acc.1.volunteers vid = some gc.1 := by
    intro vid hvid
    obtain ⟨v, hv, rfl⟩ := List.mem_map.mp hvid
    unfold groupOfId
    rw [find?_beq_eq_of_nodup (f := Volunteer.id) hvnd (hmemV v hv)]
    exact hgrp v hv
  have hgid1 : groupOfId st1.volunteers = groupOfId acc.1.volunteers := by
    funext vid
    exact groupOfId_congr (hInv1.coreV.trans hInv.coreV.symm) vid
  -- the shift dict after the commit, entry by entry
  have hfind : ∀ k : String, st1.shifts.find? (fun s => s.id == k) =
      (acc.1.shifts.find? (fun s => s.id == k)).map
        (fun s => if s.id == sh.id then
          { s with assigned := s.assigned ++ chosen.map (fun v => v.id) }
        else s) := by
    intro k
    rw [show st1.shifts = updateShiftA acc.1.shifts sh.id (fun s =>
      { s with assigned := s.assigned ++ chosen.map (fun v => v.id) })
      from HS]
    exact find?_updateShiftA
      (f := fun s => { s with assigned := s.assigned ++ chosen.map (fun v => v.id) })
      (fun s => rfl) k
  have hAssignedNe : ∀ k, k ≠ sh.id → assignedOf st1 k = assignedOf acc.1 k := by
    intro k hk
    unfold assignedOf
    rw [hfind k]
    cases hf : acc.1.shifts.find? (fun s => s.id == k) with
    | none => rfl
    | some s =>
      have hp := List.find?_some hf
      have hsid : s.id = k := by
        simpa using hp
      have hne2 : s.id ≠ sh.id := fun h => hk (hsid ▸ h)
      simp [hne2]
  have hshmem1 : sh.id ∈ acc.1.shifts.map (fun s => s.id) := by
    rw [shift_ids_of_core hInv.coreS]
    exact List.mem_map_of_mem _ hshmem
  have hAssignedSh : assignedOf st1 sh.id =
      assignedOf acc.1 sh.id ++ chosen.map (fun v => v.id) := by
    unfold assignedOf
    rw [hfind sh.id]
    obtain ⟨s, hs, hsid⟩ := List.mem_map.mp hshmem1
    have hf : acc.1.shifts.find? (fun t => t.id == sh.id) = some s := by
      have he : sh.id = s.id := hsid.symm
      rw [he]
      exact find?_beq_eq_of_nodup (f := Shift.id)
        (by rw [shift_ids_of_core hInv.coreS]; exact hval.2.1) hs
    rw [hf]
    simp [hsid]
  -- group counts through the commit
  have hcount : ∀ g2 : String, gcountId st1 sh.id g2 =
      gcountId acc.1 sh.id g2 +
        ((chosen.map (fun v => v.id)).filter
          (fun vid => groupOfId acc.1.volunteers vid == some g2)).length := by
    intro g2
    unfold gcountId
    rw [hAssignedSh, hgid1, List.filter_append, List.length_append]
  have hcountNe : ∀ k g2, k ≠ sh.id →
      gcountId st1 k g2 = gcountId acc.1 k g2 := by
    intro k g2 hk
    unfold gcountId
    rw [hAssignedNe k hk, hgid1]
  have hfilter_all : ((chosen.map (fun v => v.id)).filter
      (fun vid => groupOfId acc.1.volunteers vid == some gc.1)).length =
        chosen.length := by
    rw [List.filter_eq_self.mpr, List.length_map]
    intro vid hvid
    rw [hgid vid hvid]
    simp
  have hfilter_ne : ∀ g2, g2 ≠ gc.1 →
      ((chosen.map (fun v => v.id)).filter
        (fun vid => groupOfId acc.1.volunteers vid == some g2)).length = 0 := by
    intro g2 hg2
    rw [List.length_eq_zero, List.filter_eq_nil]
    intro vid hvid
    rw [hgid vid hvid]
    simp [Ne.symm hg2]
  have hcnt_new : gcountId st1 sh.id gc.1 = chosen.length := by
    rw [hcount, hfilter_all, hP.restZero gc (List.mem_cons_self _ _)]
    omega
  have hlen : chosen.length = min gc.2 cands.length := List.length_take _ _
  show InnerP st₀ P R' sh (gdone ++ [gc]) grest
    (st1, acc.2 ++ (if cands.length < gc.2 then
      [(sh.id, gc.1, gc.2 - cands.length)] else []))
  constructor
  · exact hInv1
  · -- tracked
    intro w hw sid hsid
    rw [HV] at hw
    obtain ⟨v, hv, rfl⟩ := List.mem_map.mp hw
    by_cases hmem : v.id ∈ chosen.map (fun x => x.id)
    · rw [if_pos hmem] at hsid
      simp only at hsid
      rcases List.mem_append.mp hsid with h1 | h2
      · exact hP.tracked v hv sid h1
      · right
        simpa using h2
    · rw [if_neg hmem] at hsid
      exact hP.tracked v hv sid hsid
  · -- groupTrack
    intro w hw hsid
    rw [HV] at hw
    obtain ⟨v, hv, rfl⟩ := List.mem_map.mp hw
    by_cases hmem : v.id ∈ chosen.map (fun x => x.id)
    · rw [if_pos hmem] at hsid ⊢
      obtain ⟨v2, hv2, hvid2⟩ := List.mem_map.mp hmem
      have hveq : v = v2 := hEq v2 hv2 v hv hvid2.symm
      refine ⟨gc, List.mem_append.mpr (Or.inr (List.mem_cons_self _ _)), ?_⟩
      show v.group = some gc.1
      rw [hveq]
      exact hgrp v2 hv2
    · rw [if_neg hmem] at hsid ⊢
      obtain ⟨gc2, hgc2, hg2⟩ := hP.groupTrack v hv hsid
      exact ⟨gc2, List.mem_append.mpr (Or.inl hgc2), hg2⟩
  · -- untouched
    intro t ht htid
    rw [HS] at ht
    obtain ⟨s, hs, rfl⟩ := List.mem_map.mp ht
    by_cases hc : s.id = sh.id
    · exfalso
      have hid : (if s.id == sh.id then
          { s with assigned := s.assigned ++ chosen.map (fun v => v.id) }
        else s).id = s.id := by
        split <;> rfl
      rw [hid] at htid
      exact hshR (hc ▸ htid)
    · have hcf : (s.id == sh.id) = false := beq_eq_false_iff_ne.mpr hc
      rw [hcf] at htid ⊢
      exact hP.untouched s hs htid
  · -- unfSrc
    intro u hu
    rcases List.mem_append.mp hu with h1 | h2
    · rcases hP.unfSrc u h1 with h | ⟨he, gc2, hgc2, hk⟩
      · exact Or.inl h
      · exact Or.inr ⟨he, gc2, List.mem_append.mpr (Or.inl hgc2), hk⟩
    · by_cases hcl : cands.length < gc.2
      · rw [if_pos hcl] at h2
        have hu2 : u = (sh.id, gc.1, gc.2 - cands.length) :=
          List.mem_singleton.mp h2
        subst hu2
        exact Or.inr ⟨rfl, gc,
          List.mem_append.mpr (Or.inr (List.mem_cons_self _ _)), rfl⟩
      · rw [if_neg hcl] at h2
        cases h2
  · -- doneP
    intro s0 hs0 gc2 hgc2
    have hne : s0.id ≠ sh.id := by
      intro h
      exact hshP (h ▸ List.mem_map_of_mem _ hs0)
    have hq := hP.doneP s0 hs0 gc2 hgc2
    rw [hcountNe s0.id gc2.1 hne]
    refine ⟨hq.1, ?_⟩
    intro hlt
    rw [List.count_append]
    have h0 : List.count (s0.id, gc2.1, gc2.2 - gcountId acc.1 s0.id gc2.1)
        (if cands.length < gc.2 then
          [(sh.id, gc.1, gc.2 - cands.length)] else []) = 0 := by
      split
      · rw [List.count_eq_zero]
        intro hmem
        have ht1 := List.mem_singleton.mp hmem
        have ht2 : s0.id = sh.id := congrArg (fun t => t.1) ht1
        exact hne ht2
      · rfl
    rw [h0, hq.2 hlt]
  · -- doneG
    intro gc2 hgc2
    rcases List.mem_append.mp hgc2 with hin | hnew
    · -- a previously finished group is untouched by this step
      have hne2 : gc2.1 ≠ gc.1 := by
        intro h
        exact hgD (h ▸ List.mem_map_of_mem (fun p => p.1) hin)
      have hq := hP.doneG gc2 hin
      have hcnt : gcountId st1 sh.id gc2.1 = gcountId acc.1 sh.id gc2.1 := by
        rw [hcount, hfilter_ne gc2.1 hne2]
        omega
      rw [hcnt]
      refine ⟨hq.1, ?_⟩
      intro hlt
      rw [List.count_append]
      have h0 : List.count (sh.id, gc2.1, gc2.2 - gcountId acc.1 sh.id gc2.1)
          (if cands.length < gc.2 then
            [(sh.id, gc.1, gc.2 - cands.length)] else []) = 0 := by
        split
        · rw [List.count_eq_zero]
          intro hmem
          have ht1 := List.mem_singleton.mp hmem
          have ht2 : gc2.1 = gc.1 := congrArg (fun t => t.2.1) ht1
          exact hne2 ht2
        · rfl
      rw [h0, hq.2 hlt]
    · -- the group finished by this very step
      have hgc2e : gc2 = gc := List.mem_singleton.mp hnew
      subst hgc2e
      rw [hcnt_new, hlen]
      constructor
      · omega
      · intro hlt
        have hcl : cands.length < gc2.2 := by omega
        rw [List.count_append]
        have h1 : List.count (sh.id, gc2.1, gc2.2 - min gc2.2 cands.length)
            acc.2 = 0 := by
          rw [List.count_eq_zero]
          intro hmem
          rcases hP.unfSrc _ hmem with h | ⟨_, gc3, hgc3, hk⟩
          · exact hshP h
          · exact hgD (hk.symm ▸ List.mem_map_of_mem (fun p => p.1) hgc3)
        have h2 : List.count (sh.id, gc2.1, gc2.2 - min gc2.2 cands.length)
            (if cands.length < gc2.2 then
              [(sh.id, gc2.1, gc2.2 - cands.length)] else []) = 1 := by
          rw [if_pos hcl]
          have he : gc2.2 - min gc2.2 cands.length = gc2.2 - cands.length := by
            omega
          rw [he]
          simp
        rw [h1, h2]
  · -- restZero
    intro gc2 hgc2
    have hne2 : gc2.1 ≠ gc.1 := by
      intro h
      exact hgR (h ▸ List.mem_map_of_mem (fun p => p.1) hgc2)
    rw [hcount gc2.1, hfilter_ne gc2.1 hne2,
      hP.restZero gc2 (List.mem_cons_of_mem _ hgc2)]

/-- Folding the remaining groups of the current shift. -/
theorem inner_fold {st₀ : State} (hval : ValidState st₀)
    {P R' : List Shift} {sh : Shift} (hsplit : st₀.shifts = P ++ sh :: R') :
    ∀ (grest gdone : List (String × ℕ))
      (acc : State × List (String × String × ℕ)),
      sh.requiredGroups = gdone ++ grest →
      InnerP st₀ P R' sh gdone grest acc →
      InnerP st₀ P R' sh (gdone ++ grest) []
        (grest.foldl (fun acc2 gc =>
          let r := assignGroupStep acc2.1 sh gc.1 gc.2
          (r.1, acc2.2 ++ r.2)) acc) := by
  intro grest
  induction grest with
  | nil =>
    intro gdone acc _ hP
    simpa using hP
  | cons gc grest2 ih =>
    intro gdone acc hsp hP
    have hstep := groupStep_spec hval hsplit hsp hP
    have hsp2 : sh.requiredGroups = (gdone ++ [gc]) ++ grest2 := by
      rw [hsp]
      simp
    have hres := ih (gdone ++ [gc]) _ hsp2 hstep
    rw [show (gdone ++ [gc]) ++ grest2 = gdone ++ gc :: grest2 by simp] at hres
    exact hres

/-- Entering a new shift: the outer invariant yields the inner one with no
group processed yet. -/
theorem outer_to_inner {st₀ : State} (hval : ValidState st₀)
    {P R' : List Shift} {sh : Shift} (hsplit : st₀.shifts = P ++ sh :: R')
    {acc : State × List (String × String × ℕ)}
    (hO : OuterP st₀ P (sh :: R') acc) :
    InnerP st₀ P R' sh [] sh.requiredGroups acc := by
  have hids := hval.2.1
  rw [hsplit, List.map_append, List.map_cons] at hids
  obtain ⟨hndP, hndC, hdisj⟩ := List.nodup_append.mp hids
  have hshP : sh.id ∉ P.map (fun s => s.id) := by
    intro h
    exact hdisj h (List.mem_cons_self _ _)
  constructor
  · exact hO.inv
  · intro v hv sid hsid
    exact Or.inl (hO.tracked v hv sid hsid)
  · intro v hv hsid
    exact absurd (hO.tracked v hv sh.id hsid) hshP
  · intro t ht htid
    refine hO.untouched t ht ?_
    rw [List.map_cons]
    exact List.mem_cons_of_mem _ htid
  · intro u hu
    exact Or.inl (hO.unfSrc u hu)
  · exact hO.done
  · intro gc hgc
    cases hgc
  · intro gc _
    unfold gcountId
    have hz : assignedOf acc.1 sh.id = [] := by
      unfold assignedOf
      cases hf : acc.1.shifts.find? (fun s => s.id == sh.id) with
      | none => rfl
      | some s =>
        have hp := List.find?_some hf
        have hsid : s.id = sh.id := by simpa using hp
        have hmem := List.mem_of_find?_eq_some hf
        refine hO.untouched s hmem ?_
        rw [List.map_cons, hsid]
        exact List.mem_cons_self _ _
    rw [hz]
    rfl

/-- Leaving a shift whose groups are all processed. -/
theorem inner_to_outer {st₀ : State} {P R' : List Shift} {sh : Shift}
    {acc : State × List (String × String × ℕ)}
    (hI : InnerP st₀ P R' sh sh.requiredGroups [] acc) :
    OuterP st₀ (P ++ [sh]) R' acc := by
  constructor
  · exact hI.inv
  · intro v hv sid hsid
    rw [List.map_append, List.map_cons]
    rcases hI.tracked v hv sid hsid with h | h
    · exact List.mem_append.mpr (Or.inl h)
    · exact List.mem_append.mpr (Or.inr (h ▸ List.mem_cons_self _ _))
  · exact hI.untouched
  · intro u hu
    rw [List.map_append, List.map_cons]
    rcases hI.unfSrc u hu with h | ⟨he, _, _, _⟩
    · exact List.mem_append.mpr (Or.inl h)
    · exact List.mem_append.mpr (Or.inr (he ▸ List.mem_cons_self _ _))
  · intro s0 hs0
    rcases List.mem_append.mp hs0 with h | h
    · exact hI.doneP s0 h
    · have he : s0 = sh := List.mem_singleton.mp h
      subst he
      intro gc hgc
      exact hI.doneG gc hgc

/-- Folding the remaining shifts of the outer loop of `assign`. -/
theorem outer_fold {st₀ : State} (hval : ValidState st₀) :
    ∀ (R P : List Shift) (acc : State × List (String × String × ℕ)),
      st₀.shifts = P ++ R → OuterP st₀ P R acc →
      OuterP st₀ (P ++ R) []
        (R.foldl (fun acc sh => sh.requiredGroups.foldl
          (fun acc2 gc =>
            let r := assignGroupStep acc2.1 sh gc.1 gc.2
            (r.1, acc2.2 ++ r.2)) acc) acc) := by
  intro R
  induction R with
  | nil =>
    intro P acc _ hO
    simpa using hO
  | cons sh R2 ih =>
    intro P acc hsplit hO
    have hI := outer_to_inner hval hsplit hO
    have hInner := inner_fold hval hsplit sh.requiredGroups [] acc
      (by simp) hI
    rw [List.nil_append] at hInner
    have hO2 := inner_to_outer hInner
    have hsplit2 : st₀.shifts = (P ++ [sh]) ++ R2 := by
      rw [hsplit]
      simp
    have hres := ih (P ++ [sh]) _ hsplit2 hO2
    rw [show (P ++ [sh]) ++ R2 = P ++ sh :: R2 by simp] at hres
    exact hres

/-- The outer invariant holds at the fresh initial state. -/
theorem outerP_init {vs : List VolunteerInput} {ss : List ShiftInput}
    (hval : ValidInput vs ss) :
    OuterP (mkState vs ss) [] (mkState vs ss).shifts (mkState vs ss, []) := by
  constructor
  · exact inv_mkState hval
  · intro v hv sid hsid
    obtain ⟨i, _, rfl⟩ := List.mem_map.mp hv
    cases hsid
  · intro t ht _
    obtain ⟨j, _, rfl⟩ := List.mem_map.mp ht
    rfl
  · intro u hu
    cases hu
  · intro s0 hs0
    cases hs0

/-- The complete specification of the greedy `assign` on fresh valid input:
the state invariant holds in the final state, and every shift satisfies the
per-group headcount/deficit contract. -/
theorem assign_spec {vs : List VolunteerInput} {ss : List ShiftInput}
    (hval : ValidInput vs ss) :
    Inv (mkState vs ss) (Scheduler.assign (mkState vs ss)).1 ∧
      ∀ s0 ∈ (mkState vs ss).shifts,
        ShiftDone (Scheduler.assign (mkState vs ss)).1
          (Scheduler.assign (mkState vs ss)).2 s0 := by
  have h0 := outerP_init hval
  have h := outer_fold (validState_mkState hval) (mkState vs ss).shifts []
    (mkState vs ss, []) (by simp) h0
  rw [List.nil_append] at h
  exact ⟨h.inv, fun s0 hs0 => h.done s0 hs0⟩



/-! ## The recomputed deficit report (`assign_optimal` lines 181-186 and
`assign_cp_sat` lines 259-265) -/

theorem foldl_append_flatten {α β : Type} (f : α → List β) :
    ∀ (l : List α) (a : List β),
      l.foldl (fun acc x => acc ++ f x) a = a ++ (l.map f).flatten := by
  intro l
  induction l with
  | nil => intro a; simp
  | cons x t ih =>
    intro a
    simp only [List.foldl_cons, List.map_cons, List.flatten_cons]
    rw [ih (a ++ f x), List.append_assoc]

theorem computeUnfilled_eq (st : State) :
    computeUnfilled st =
      (st.shifts.map (shiftDeficits st.volunteers)).flatten := by
  show st.shifts.foldl
    (fun acc s => acc ++ shiftDeficits st.volunteers s) [] = _
  rw [foldl_append_flatten]
  simp

theorem count_filterMap_eq_one {L : List (String × ℕ)}
    (hnd : (L.map (fun p => p.1)).Nodup)
    {f : (String × ℕ) → Option (String × String × ℕ)}
    (hfst : ∀ gc t, f gc = some t → t.2.1 = gc.1)
    {gc : String × ℕ} (hgc : gc ∈ L) {t : String × String × ℕ}
    (ht : f gc = some t) :
    (L.filterMap f).count t = 1 := by
  induction L with
  | nil => cases hgc
  | cons hd tl ih =>
    rw [List.map_cons, List.nodup_cons] at hnd
    rcases List.mem_cons.mp hgc with rfl | hmem
    · rw [List.filterMap_cons, ht]
      rw [List.count_cons_self]
      have hz : (tl.filterMap f).count t = 0 := by
        rw [List.count_eq_zero]
        intro hmem2
        obtain ⟨gc2, hgc2, hf2⟩ := List.mem_filterMap.mp hmem2
        have h1 : t.2.1 = gc2.1 := hfst gc2 t hf2
        have h2 : t.2.1 = gc.1 := hfst gc t ht
        have hk : gc.1 ∈ tl.map (fun p => p.1) := by
          rw [← h2, h1]
          exact List.mem_map_of_mem (fun p => p.1) hgc2
        exact hnd.1 hk
      rw [hz]
    · rw [List.filterMap_cons]
      cases hf : f hd with
      | none => exact ih hnd.2 hmem
      | some u =>
        have hu : u.2.1 = hd.1 := hfst hd u hf
        have htg : t.2.1 = gc.1 := hfst gc t ht
        have hne : u ≠ t := by
          intro he
          apply hnd.1
          rw [← he, hu] at htg
          exact htg ▸ List.mem_map_of_mem (fun p => p.1) hmem
        rw [List.count_cons_of_ne (Ne.symm hne)]
        exact ih hnd.2 hmem

/-- In the recomputed report, a shift's shortfall for one of its required
groups appears exactly once, with the exact deficit. -/
theorem computeUnfilled_count {st : State}
    (hsnd : (st.shifts.map (fun s => s.id)).Nodup)
    (hkeys : ∀ s ∈ st.shifts, (s.requiredGroups.map (fun p => p.1)).Nodup)
    {s : Shift} (hs : s ∈ st.shifts) {gc : String × ℕ}
    (hgc : gc ∈ s.requiredGroups)
    (hlt : (s.assigned.filter
      (fun vid => groupOfId st.volunteers vid == some gc.1)).length < gc.2) :
    (computeUnfilled st).count
      (s.id, gc.1, gc.2 - (s.assigned.filter
        (fun vid => groupOfId st.volunteers vid == some gc.1)).length) = 1 := by
  rw [computeUnfilled_eq]
  obtain ⟨l1, l2, hsp⟩ := List.append_of_mem hs
  rw [hsp, List.map_append, List.map_cons, List.flatten_append,
    List.flatten_cons, List.count_append, List.count_append]
  rw [hsp, List.map_append, List.map_cons] at hsnd
  obtain ⟨hnd1, hnd2, hdisj⟩ := List.nodup_append.mp hsnd
  have hsid1 : s.id ∉ l1.map (fun x => x.id) := by
    intro h
    exact hdisj h (List.mem_cons_self _ _)
  have hsid2 : s.id ∉ l2.map (fun x => x.id) := (List.nodup_cons.mp hnd2).1
  have hblk : ∀ (l : List Shift), s.id ∉ l.map (fun x => x.id) →
      ((l.map (shiftDeficits st.volunteers)).flatten).count
        (s.id, gc.1, gc.2 - (s.assigned.filter
          (fun vid => groupOfId st.volunteers vid == some gc.1)).length) = 0 := by
    intro l hl
    rw [List.count_eq_zero]
    intro hmem
    obtain ⟨blk, hblk2, hmem2⟩ := List.mem_flatten.mp hmem
    obtain ⟨s2, hs2, rfl⟩ := List.mem_map.mp hblk2
    obtain ⟨gc2, _, hf2⟩ := List.mem_filterMap.mp hmem2
    have : s2.id = s.id := by
      simp only at hf2
      split at hf2
      · exact congrArg (fun t => t.1) (Option.some.injEq _ _ |>.mp hf2)
      · cases hf2
    exact hl (this ▸ List.mem_map_of_mem (fun x => x.id) hs2)
  rw [hblk l1 hsid1, hblk l2 hsid2]
  have hone : (shiftDeficits st.volunteers s).count
      (s.id, gc.1, gc.2 - (s.assigned.filter
        (fun vid => groupOfId st.volunteers vid == some gc.1)).length) = 1 := by
    unfold shiftDeficits
    refine count_filterMap_eq_one ?_ ?_ hgc ?_
    · exact hkeys s hs
    · intro gc2 t hf2
      simp only at hf2
      split at hf2
      · exact (congrArg (fun t => t.2.1) (Option.some.injEq _ _ |>.mp hf2)).symm
      · cases hf2
    · simp only
      rw [if_pos hlt]
  rw [hone]



/-! ## CP-SAT decode characterisation -/

/-- Decoding a pair list over a state whose mutable fields follow the given
patterns extends each pattern by the pairs selected by `sol`; `cpApply`
touches entries purely by id, so no key uniqueness is needed here. -/
theorem cpFold_char (st : State) (sol : String → String → Bool)
    (M : List (String × List (String × ℤ × ℤ))) :
    ∀ (Q : List (Volunteer × Shift)) (A : Volunteer → List String)
      (AH : Volunteer → ℚ) (B : Shift → List String),
      (Q.foldl (fun acc p =>
          if sol p.1.id p.2.id then cpApply acc p.1 p.2 else acc)
        { volunteers := st.volunteers.map (fun v =>
            { v with assignedShifts := A v, assignedHours := AH v }),
          shifts := st.shifts.map (fun s => { s with assigned := B s }),
          assignMap := M }) =
      { volunteers := st.volunteers.map (fun v =>
          { v with
            assignedShifts := A v ++ (Q.filter (fun p =>
              p.1.id == v.id && sol p.1.id p.2.id)).map (fun p => p.2.id),
            assignedHours := AH v + ((Q.filter (fun p =>
              p.1.id == v.id && sol p.1.id p.2.id)).map
                (fun p => p.2.durationHours)).sum }),
        shifts := st.shifts.map (fun s =>
          { s with assigned := B s ++ (Q.filter (fun p =>
              p.2.id == s.id && sol p.1.id p.2.id)).map (fun p => p.1.id) }),
        assignMap := M } := by
  intro Q
  induction Q with
  | nil =>
    intro A AH B
    simp only [List.foldl_nil, List.filter_nil, List.map_nil,
      List.append_nil, List.sum_nil, add_zero]
  | cons p Q2 ih =>
    intro A AH B
    by_cases hsol : sol p.1.id p.2.id = true
    · rw [List.foldl_cons, if_pos hsol]
      have hstep : cpApply
          { volunteers := st.volunteers.map (fun v =>
              { v with assignedShifts := A v, assignedHours := AH v }),
            shifts := st.shifts.map (fun s => { s with assigned := B s }),
            assignMap := M } p.1 p.2 =
          { volunteers := st.volunteers.map (fun v =>
              { v with
                assignedShifts :=
                  if p.1.id == v.id then A v ++ [p.2.id] else A v,
                assignedHours :=
                  if p.1.id == v.id then AH v + p.2.durationHours
                  else AH v }),
            shifts := st.shifts.map (fun s =>
              { s with assigned :=
                if p.2.id == s.id then B s ++ [p.1.id] else B s }),
            assignMap := M } := by
        unfold cpApply updateVol updateShiftA
        simp only [List.map_map]
        congr 1
        · refine List.map_congr_left ?_
          intro v _
          by_cases hb : v.id = p.1.id
          · have h1 : (v.id == p.1.id) = true := beq_iff_eq.mpr hb
            have h2 : (p.1.id == v.id) = true := beq_iff_eq.mpr hb.symm
            simp [Function.comp, h1, h2]
          · have h1 : (v.id == p.1.id) = false := beq_eq_false_iff_ne.mpr hb
            have h2 : (p.1.id == v.id) = false :=
              beq_eq_false_iff_ne.mpr (Ne.symm hb)
            simp [Function.comp, h1, h2]
        · refine List.map_congr_left ?_
          intro s _
          by_cases hb : s.id = p.2.id
          · have h1 : (s.id == p.2.id) = true := beq_iff_eq.mpr hb
            have h2 : (p.2.id == s.id) = true := beq_iff_eq.mpr hb.symm
            simp [Function.comp, h1, h2]
          · have h1 : (s.id == p.2.id) = false := beq_eq_false_iff_ne.mpr hb
            have h2 : (p.2.id == s.id) = false :=
              beq_eq_false_iff_ne.mpr (Ne.symm hb)
            simp [Function.comp, h1, h2]
      rw [hstep, ih]
      congr 1
      · refine List.map_congr_left ?_
        intro v _
        by_cases hb : p.1.id = v.id
        · have h1 : (p.1.id == v.id) = true := beq_iff_eq.mpr hb
          rw [List.filter_cons]
          simp only [h1, hsol, Bool.and_self, if_true, List.map_cons]
          simp [List.append_assoc]
          ring
        · have h1 : (p.1.id == v.id) = false := beq_eq_false_iff_ne.mpr hb
          rw [List.filter_cons]
          simp only [h1, Bool.false_and, if_false]
          simp [h1]
      · refine List.map_congr_left ?_
        intro s _
        by_cases hb : p.2.id = s.id
        · have h1 : (p.2.id == s.id) = true := beq_iff_eq.mpr hb
          rw [List.filter_cons]
          simp only [h1, hsol, Bool.and_self, if_true, List.map_cons]
          simp [List.append_assoc, h1]
        · have h1 : (p.2.id == s.id) = false := beq_eq_false_iff_ne.mpr hb
          rw [List.filter_cons]
          simp only [h1, Bool.false_and, if_false]
          simp [h1]
    · have hsolf : sol p.1.id p.2.id = false := by
        cases h : sol p.1.id p.2.id
        · rfl
        · exact absurd h hsol
      rw [List.foldl_cons, if_neg hsol, ih]
      congr 1
      · refine List.map_congr_left ?_
        intro v _
        rw [List.filter_cons]
        simp [hsolf]
      · refine List.map_congr_left ?_
        intro s _
        rw [List.filter_cons]
        simp [hsolf]

theorem filter_flatMap {α β : Type} (g : α → List β) (q : β → Bool) :
    ∀ l : List α, (l.flatMap g).filter q = l.flatMap (fun a => (g a).filter q) := by
  intro l
  induction l with
  | nil => rfl
  | cons x t ih =>
    rw [List.flatMap_cons, List.flatMap_cons, List.filter_append, ih]

theorem flatMap_if_singleton {α β : Type} (q : α → Bool) (f : α → β) :
    ∀ l : List α,
      (l.flatMap (fun a => if q a then [f a] else [])) = (l.filter q).map f := by
  intro l
  induction l with
  | nil => rfl
  | cons x t ih =>
    rw [List.flatMap_cons, List.filter_cons]
    by_cases hq : q x = true
    · simp only [hq, if_true, List.map_cons, List.singleton_append, ih]
    · have hqf : q x = false := by
        cases h : q x
        · rfl
        · exact absurd h hq
      simp only [hqf, Bool.false_eq_true, if_false, List.nil_append, ih]

theorem flatMap_eq_nil_of_forall {α β : Type} {g : α → List β} :
    ∀ {l : List α}, (∀ a ∈ l, g a = []) → l.flatMap g = [] := by
  intro l
  induction l with
  | nil => intro _; rfl
  | cons x t ih =>
    intro h
    rw [List.flatMap_cons, h x (List.mem_cons_self _ _), List.nil_append]
    exact ih (fun a ha => h a (List.mem_cons_of_mem _ ha))

/-- The variables of one volunteer, filtered by that volunteer's own id. -/
theorem block_filter_vol (sol : String → String → Bool) (v : Volunteer) :
    ∀ ss : List Shift,
      ((ss.filterMap (fun s => if hasVar v s then some (v, s) else none)).filter
        (fun p => p.1.id == v.id && sol p.1.id p.2.id)) =
      (ss.filter (fun s => hasVar v s && sol v.id s.id)).map (fun s => (v, s)) := by
  intro ss
  induction ss with
  | nil => rfl
  | cons s t ih =>
    rw [List.filterMap_cons, List.filter_cons]
    by_cases hvar : hasVar v s = true
    · rw [if_pos hvar]
      rw [List.filter_cons]
      by_cases hsol : sol v.id s.id = true
      · simp [hvar, hsol, ← ih]
      · have hsolf : sol v.id s.id = false := by
          cases h : sol v.id s.id
          · rfl
          · exact absurd h hsol
        simp [hvar, hsolf, ← ih]
    · have hvf : hasVar v s = false := by
        cases h : hasVar v s
        · rfl
        · exact absurd h hvar
      rw [if_neg (by simp [hvf])]
      simp only [List.filter_cons, hvf, Bool.false_and, Bool.false_eq_true,
        if_false]
      exact ih

/-- A volunteer whose id differs contributes nothing to the filter by
`v.id`. -/
theorem block_filter_vol_ne (sol : String → String → Bool) {v w : Volunteer}
    (hne : w.id ≠ v.id) (ss : List Shift) :
    ((ss.filterMap (fun s => if hasVar w s then some (w, s) else none)).filter
      (fun p => p.1.id == v.id && sol p.1.id p.2.id)) = [] := by
  rw [List.filter_eq_nil_iff]
  intro p hp
  obtain ⟨s, _, hf⟩ := List.mem_filterMap.mp hp
  have hpw : p.1 = w := by
    split at hf
    · exact (congrArg (fun t => t.1) (Option.some.injEq _ _ |>.mp hf)).symm
    · cases hf
  rw [hpw]
  have hb : (w.id == v.id) = false := beq_eq_false_iff_ne.mpr hne
  simp [hb]

/-- The selected pairs of one volunteer, extracted from the whole variable
list. -/
theorem cpPairs_filter_vol {st : State}
    (hvnd : (st.volunteers.map (fun v => v.id)).Nodup)
    (sol : String → String → Bool) {v : Volunteer} (hv : v ∈ st.volunteers) :
    (cpPairs st).filter (fun p => p.1.id == v.id && sol p.1.id p.2.id) =
      (st.shifts.filter (fun s => hasVar v s && sol v.id s.id)).map
        (fun s => (v, s)) := by
  unfold cpPairs
  rw [filter_flatMap]
  obtain ⟨l1, l2, hsp⟩ := List.append_of_mem hv
  rw [hsp]
  have hnd2 := hvnd
  rw [hsp, List.map_append, List.map_cons] at hnd2
  obtain ⟨h1, h2, hdisj⟩ := List.nodup_append.mp hnd2
  have hne1 : ∀ w ∈ l1, w.id ≠ v.id := by
    intro w hw he
    exact hdisj (he ▸ List.mem_map_of_mem (fun x => x.id) hw)
      (List.mem_cons_self _ _)
  have hne2 : ∀ w ∈ l2, w.id ≠ v.id := by
    intro w hw he
    exact (List.nodup_cons.mp h2).1
      (he ▸ List.mem_map_of_mem (fun x => x.id) hw)
  rw [List.flatMap_append, List.flatMap_cons]
  rw [flatMap_eq_nil_of_forall (fun w hw => block_filter_vol_ne sol (hne1 w hw) _),
    flatMap_eq_nil_of_forall (fun w hw => block_filter_vol_ne sol (hne2 w hw) _)]
  rw [block_filter_vol]
  simp

theorem flatMap_congr {α β : Type} {g h : α → List β} :
    ∀ {l : List α}, (∀ a ∈ l, g a = h a) → l.flatMap g = l.flatMap h := by
  intro l
  induction l with
  | nil => intro _; rfl
  | cons x t ih =>
    intro hc
    rw [List.flatMap_cons, List.flatMap_cons, hc x (List.mem_cons_self _ _),
      ih (fun a ha => hc a (List.mem_cons_of_mem _ ha))]

/-- One volunteer's variable block, filtered by a shift id: with unique
shift ids it contributes at most the single pair for that shift. -/
theorem block_filter_shift (sol : String → String → Bool) (w : Volunteer)
    {s : Shift} :
    ∀ ss : List Shift, (ss.map (fun x => x.id)).Nodup → s ∈ ss →
      ((ss.filterMap (fun x => if hasVar w x then some (w, x) else none)).filter
        (fun p => p.2.id == s.id && sol p.1.id p.2.id)) =
      (if hasVar w s && sol w.id s.id then [(w, s)] else []) := by
  intro ss
  induction ss with
  | nil => intro _ h; cases h
  | cons s2 t ih =>
    intro hnd hs
    rw [List.map_cons, List.nodup_cons] at hnd
    have hnone : s.id ∉ t.map (fun x => x.id) → ∀ p ∈ t.filterMap
        (fun x => if hasVar w x then some (w, x) else none),
        (p.2.id == s.id && sol p.1.id p.2.id) = false := by
      intro hnot p hp
      obtain ⟨x, hx, hf⟩ := List.mem_filterMap.mp hp
      have hpx : p.2 = x := by
        split at hf
        · exact (congrArg (fun t2 => t2.2) (Option.some.injEq _ _ |>.mp hf)).symm
        · cases hf
      have hne : x.id ≠ s.id := by
        intro he
        exact hnot (he ▸ List.mem_map_of_mem (fun y => y.id) hx)
      rw [hpx]
      have hb : (x.id == s.id) = false := beq_eq_false_iff_ne.mpr hne
      simp [hb]
    rcases List.mem_cons.mp hs with rfl | hmem
    · -- the head is the shift in question
      rw [List.filterMap_cons]
      have hrest : (t.filterMap
          (fun x => if hasVar w x then some (w, x) else none)).filter
          (fun p => p.2.id == s.id && sol p.1.id p.2.id) = [] := by
        rw [List.filter_eq_nil_iff]
        intro p hp
        have := hnone hnd.1 p hp
        simp [this]
      by_cases hvar : hasVar w s = true
      · rw [if_pos hvar, List.filter_cons]
        by_cases hsol : sol w.id s.id = true
        · simp [hsol, hvar, hrest]
        · have hsolf : sol w.id s.id = false := by
            cases h : sol w.id s.id
            · rfl
            · exact absurd h hsol
          simp [hsolf, hvar, hrest]
      · have hvf : hasVar w s = false := by
          cases h : hasVar w s
          · rfl
          · exact absurd h hvar
        rw [if_neg (by simp [hvf])]
        simp [hvf, hrest]
    · -- the shift in question is further down
      rw [List.filterMap_cons]
      have hne : s2.id ≠ s.id := by
        intro he
        exact hnd.1 (he.symm ▸ List.mem_map_of_mem (fun y => y.id) hmem)
      by_cases hvar : hasVar w s2 = true
      · rw [if_pos hvar, List.filter_cons]
        have hb : (s2.id == s.id) = false := beq_eq_false_iff_ne.mpr hne
        simp only [hb, Bool.false_and, Bool.false_eq_true, if_false]
        exact ih hnd.2 hmem
      · have hvf : hasVar w s2 = false := by
          cases h : hasVar w s2
          · rfl
          · exact absurd h hvar
        rw [if_neg (by simp [hvf])]
        exact ih hnd.2 hmem

/-- The selected pairs of one shift, extracted from the whole variable
list. -/
theorem cpPairs_filter_shift {st : State}
    (hsnd : (st.shifts.map (fun s => s.id)).Nodup)
    (sol : String → String → Bool) {s : Shift} (hs : s ∈ st.shifts) :
    (cpPairs st).filter (fun p => p.2.id == s.id && sol p.1.id p.2.id) =
      (st.volunteers.filter (fun v => hasVar v s && sol v.id s.id)).map
        (fun v => (v, s)) := by
  unfold cpPairs
  rw [filter_flatMap]
  have hblocks : ∀ w ∈ st.volunteers,
      ((st.shifts.filterMap
        (fun x => if hasVar w x then some (w, x) else none)).filter
        (fun p => p.2.id == s.id && sol p.1.id p.2.id)) =
      (if hasVar w s && sol w.id s.id then [(w, s)] else []) :=
    fun w _ => block_filter_shift sol w st.shifts hsnd hs
  rw [flatMap_congr hblocks, flatMap_if_singleton]

/-- Full characterisation of the CP-SAT decode (`cpSolve`): each
volunteer's `assigned_shifts`/`assigned_hours` and each shift's `assigned`
are exactly determined by the variables `sol` sets to true. -/
theorem cpSolve_char (st : State) (sol : String → String → Bool)
    (hvnd : (st.volunteers.map (fun v => v.id)).Nodup)
    (hsnd : (st.shifts.map (fun s => s.id)).Nodup) :
    (cpSolve st sol).1.volunteers = st.volunteers.map (fun v =>
      { v with
        assignedShifts := (st.shifts.filter
          (fun s => hasVar v s && sol v.id s.id)).map (fun s => s.id),
        assignedHours := ((st.shifts.filter
          (fun s => hasVar v s && sol v.id s.id)).map
            Shift.durationHours).sum }) ∧
    (cpSolve st sol).1.shifts = st.shifts.map (fun s =>
      { s with assigned := (st.volunteers.filter
        (fun v => hasVar v s && sol v.id s.id)).map (fun v => v.id) }) ∧
    (cpSolve st sol).1.assignMap = st.assignMap ∧
    (cpSolve st sol).2 = computeUnfilled (cpSolve st sol).1 := by
  have hchar := cpFold_char st sol st.assignMap (cpPairs st)
    (fun _ => []) (fun _ => 0) (fun _ => [])
  have hstart : clearState st =
      { volunteers := st.volunteers.map (fun v =>
          { v with assignedShifts := ([] : List String), assignedHours := (0 : ℚ) }),
        shifts := st.shifts.map (fun s => { s with assigned := ([] : List String) }),
        assignMap := st.assignMap } := rfl
  have hfold : (cpSolve st sol).1 = (cpPairs st).foldl
      (fun acc p => if sol p.1.id p.2.id then cpApply acc p.1 p.2 else acc)
      (clearState st) := rfl
  refine ⟨?_, ?_, ?_, rfl⟩
  · rw [hfold, hstart, hchar]
    refine List.map_congr_left ?_
    intro v hv
    rw [cpPairs_filter_vol hvnd sol hv]
    rw [List.map_map, List.map_map]
    simp only [List.nil_append, zero_add]
    congr 1
  · rw [hfold, hstart, hchar]
    refine List.map_congr_left ?_
    intro s hs
    rw [cpPairs_filter_shift hsnd sol hs]
    rw [List.map_map]
    simp [Function.comp]
  · rw [hfold, hstart, hchar]



/-! ## CP-SAT facts used by the claims -/

/-- `assign_cp_sat` raises exactly when some volunteer has the unbounded
default `max_hours`: building `int(v.max_hours * 100)` (line 223) is
attempted for every volunteer. -/
theorem assign_cp_sat_raises_iff (st : State) (sol : String → String → Bool) :
    (assign_cp_sat st sol = .error ()) ↔
      ∃ v ∈ st.volunteers, v.maxHours = MaxHours.inf := by
  unfold assign_cp_sat
  by_cases h : st.volunteers.any (fun v => v.maxHours == MaxHours.inf) = true
  · rw [if_pos h]
    simp only [true_iff]
    obtain ⟨v, hv, hb⟩ := List.any_eq_true.mp h
    exact ⟨v, hv, by simpa using hb⟩
  · rw [if_neg h]
    simp only [List.any_eq_true] at h
    constructor
    · intro hc
      cases hc
    · intro ⟨v, hv, he⟩
      exact absurd ⟨v, hv, by simp [he]⟩ h

theorem assign_cp_sat_ok (st : State) (sol : String → String → Bool)
    (h : ∀ v ∈ st.volunteers, v.maxHours ≠ MaxHours.inf) :
    assign_cp_sat st sol = .ok (cpSolve st sol) := by
  unfold assign_cp_sat
  rw [if_neg]
  intro hc
  obtain ⟨v, hv, hb⟩ := List.any_eq_true.mp hc
  exact h v hv (by simpa using hb)

/-- `hasVar` is false for a group-less volunteer: `v.group in
s.required_groups` fails when `group` is `None`. -/
theorem hasVar_none {v : Volunteer} (hg : v.group = none) (s : Shift) :
    hasVar v s = false := by
  unfold hasVar
  rw [hg]
  simp [memOpt]

/-- The claim-facing facts about the CP-SAT result, for any solver valuation
satisfying the model constraints. -/
theorem cpSolve_facts (st : State) (sol : String → String → Bool)
    (hval : ValidState st) :
    -- C3: exact hour accounting
    (∀ v ∈ (cpSolve st sol).1.volunteers,
      v.assignedHours =
        ((v.assignedShifts.map (durOf (cpSolve st sol).1.shifts)).sum)) ∧
    -- C2 components: no duplicate shift per volunteer, no duplicate
    -- volunteer per shift
    (∀ v ∈ (cpSolve st sol).1.volunteers, v.assignedShifts.Nodup) ∧
    (∀ s ∈ (cpSolve st sol).1.shifts, s.assigned.Nodup) ∧
    -- C9: group-less volunteers are untouched
    (∀ v ∈ (cpSolve st sol).1.volunteers, v.group = none →
      v.assignedShifts = [] ∧ v.assignedHours = 0) ∧
    -- immutable fields
    ((cpSolve st sol).1.volunteers.map vCore = st.volunteers.map vCore ∧
      (cpSolve st sol).1.shifts.map sCore = st.shifts.map sCore) := by
  obtain ⟨hv, hs, _, _⟩ := cpSolve_char st sol hval.1 hval.2.1
  have hcoreV : (cpSolve st sol).1.volunteers.map vCore =
      st.volunteers.map vCore := by
    rw [hv, List.map_map]
    refine List.map_congr_left ?_
    intro v _
    rfl
  have hcoreS : (cpSolve st sol).1.shifts.map sCore = st.shifts.map sCore := by
    rw [hs, List.map_map]
    refine List.map_congr_left ?_
    intro s _
    rfl
  refine ⟨?_, ?_, ?_, ?_, hcoreV, hcoreS⟩
  · intro v hv2
    rw [hv] at hv2
    obtain ⟨v0, hv0, rfl⟩ := List.mem_map.mp hv2
    simp only
    rw [List.map_map]
    refine congrArg List.sum (List.map_congr_left ?_).symm
    intro s hsm
    have hsmem : s ∈ st.shifts := List.mem_of_mem_filter hsm
    have hdur : durOf (cpSolve st sol).1.shifts s.id = s.durationHours := by
      rw [durOf_congr hcoreS]
      exact durOf_mem hval.2.1 hsmem
    exact hdur
  · intro v hv2
    rw [hv] at hv2
    obtain ⟨v0, hv0, rfl⟩ := List.mem_map.mp hv2
    simp only
    have hsub : (st.shifts.filter
        (fun s => hasVar v0 s && sol v0.id s.id)).Sublist st.shifts :=
      List.filter_sublist _
    exact (hval.2.1.sublist (hsub.map _))
  · intro s hs2
    rw [hs] at hs2
    obtain ⟨s0, hs0, rfl⟩ := List.mem_map.mp hs2
    simp only
    have hsub : (st.volunteers.filter
        (fun v => hasVar v s0 && sol v.id s0.id)).Sublist st.volunteers :=
      List.filter_sublist _
    exact (hval.1.sublist (hsub.map _))
  · intro v hv2 hg
    rw [hv] at hv2
    obtain ⟨v0, hv0, rfl⟩ := List.mem_map.mp hv2
    have hg0 : v0.group = none := hg
    have hnil : st.shifts.filter (fun s => hasVar v0 s && sol v0.id s.id) = [] := by
      rw [List.filter_eq_nil_iff]
      intro s _
      rw [hasVar_none hg0 s]
      simp
    simp only [hnil]
    simp

/-- Under the model's hour-cap constraints, each decoded volunteer's total
*scaled* duration is within the scaled cap (this, not the real-valued
`1e-9` bound, is what the model enforces). -/
theorem cpSolve_capScaled (st : State) (sol : String → String → Bool)
    (hval : ValidState st) (hcap : hourCapOK st sol) :
    ∀ v ∈ (cpSolve st sol).1.volunteers,
      ((v.assignedShifts.map (scaledDurOf (cpSolve st sol).1.shifts)).sum) ≤
        scaledMax v.maxHours := by
  obtain ⟨hv, hs, _, _⟩ := cpSolve_char st sol hval.1 hval.2.1
  have hcoreS : (cpSolve st sol).1.shifts.map sCore = st.shifts.map sCore := by
    rw [hs, List.map_map]
    exact List.map_congr_left (fun s _ => rfl)
  intro w hw
  rw [hv] at hw
  obtain ⟨v0, hv0, rfl⟩ := List.mem_map.mp hw
  simp only
  rw [List.map_map]
  have he : ∀ s ∈ st.shifts.filter (fun s => hasVar v0 s && sol v0.id s.id),
      (scaledDurOf (cpSolve st sol).1.shifts ∘ fun s => s.id) s = scaledDur s := by
    intro s hsm
    have hsmem : s ∈ st.shifts := List.mem_of_mem_filter hsm
    show scaledDurOf (cpSolve st sol).1.shifts s.id = scaledDur s
    unfold scaledDurOf scaledDur
    rw [durOf_congr hcoreS, durOf_mem hval.2.1 hsmem]
  rw [List.map_congr_left he]
  exact hcap v0 hv0

/-- Under the model's no-overlap constraints, no decoded volunteer holds two
overlapping shifts. -/
theorem cpSolve_noOv (st : State) (sol : String → String → Bool)
    (hval : ValidState st) (hno : noOverlapOK st sol) :
    ∀ v ∈ (cpSolve st sol).1.volunteers,
      v.assignedShifts.Pairwise (noOvIds (cpSolve st sol).1.shifts) := by
  obtain ⟨hv, hs, _, _⟩ := cpSolve_char st sol hval.1 hval.2.1
  have hcoreS : (cpSolve st sol).1.shifts.map sCore = st.shifts.map sCore := by
    rw [hs, List.map_map]
    exact List.map_congr_left (fun s _ => rfl)
  intro w hw
  rw [hv] at hw
  obtain ⟨v0, hv0, rfl⟩ := List.mem_map.mp hw
  simp only
  rw [List.pairwise_map]
  have hidsP : List.Pairwise (fun a b : Shift => a.id ≠ b.id) st.shifts :=
    (List.pairwise_map).mp hval.2.1
  have hsubP : List.Pairwise (fun a b : Shift => a.id ≠ b.id)
      (st.shifts.filter (fun s => hasVar v0 s && sol v0.id s.id)) :=
    hidsP.sublist (List.filter_sublist _)
  refine List.Pairwise.imp_of_mem ?_ hsubP
  intro a b ha hb hne
  have haf := List.mem_filter.mp ha
  have hbf := List.mem_filter.mp hb
  have hA : hasVar v0 a = true ∧ sol v0.id a.id = true := by simpa using haf.2
  have hB : hasVar v0 b = true ∧ sol v0.id b.id = true := by simpa using hbf.2
  unfold noOvIds
  rw [startOf_congr hcoreS a.id, stopOf_congr hcoreS a.id,
    startOf_congr hcoreS b.id, stopOf_congr hcoreS b.id,
    startOf_mem hval.2.1 haf.1, stopOf_mem hval.2.1 haf.1,
    startOf_mem hval.2.1 hbf.1, stopOf_mem hval.2.1 hbf.1]
  cases hov : overlapB a.start a.stop b.start b.stop with
  | false => rfl
  | true =>
    exact absurd ⟨hA.2, hB.2⟩
      (hno a haf.1 b hbf.1 v0 hv0 hne hA.1 hB.1 hov)

/-- Under the model's coverage constraints, no shift holds more volunteers
of a required group than that group's requirement. -/
theorem cpSolve_coverage (st : State) (sol : String → String → Bool)
    (hval : ValidState st) (hcov : coverageOK st sol) :
    ∀ s ∈ (cpSolve st sol).1.shifts, ∀ gc ∈ s.requiredGroups,
      (s.assigned.filter (fun vid =>
        groupOfId (cpSolve st sol).1.volunteers vid == some gc.1)).length ≤
          gc.2 := by
  obtain ⟨hv, hs, _, _⟩ := cpSolve_char st sol hval.1 hval.2.1
  have hcoreV : (cpSolve st sol).1.volunteers.map vCore =
      st.volunteers.map vCore := by
    rw [hv, List.map_map]
    exact List.map_congr_left (fun v _ => rfl)
  intro s2 hs2 gc hgc
  rw [hs] at hs2
  obtain ⟨s0, hs0, rfl⟩ := List.mem_map.mp hs2
  simp only at hgc ⊢
  have hgrp : ∀ v ∈ st.volunteers,
      groupOfId (cpSolve st sol).1.volunteers v.id = v.group := by
    intro v hvm
    rw [groupOfId_congr hcoreV]
    unfold groupOfId
    rw [find?_beq_eq_of_nodup (f := Volunteer.id) hval.1 hvm]
  rw [List.filter_map]
  rw [List.length_map]
  have hsub : ((st.volunteers.filter
      (fun v => hasVar v s0 && sol v.id s0.id)).filter
        ((fun vid => groupOfId (cpSolve st sol).1.volunteers vid ==
          some gc.1) ∘ fun v => v.id)).length ≤
      (st.volunteers.filter
        (fun v => v.group == some gc.1 && hasVar v s0 && sol v.id s0.id)).length := by
    rw [List.filter_filter]
    refine le_of_eq (congrArg List.length ?_)
    refine List.filter_congr ?_
    intro v hvm
    show (((fun vid => groupOfId (cpSolve st sol).1.volunteers vid ==
        some gc.1) ∘ fun v => v.id) v && (hasVar v s0 && sol v.id s0.id)) =
      (v.group == some gc.1 && hasVar v s0 && sol v.id s0.id)
    simp only [Function.comp_apply]
    rw [hgrp v hvm]
    exact (Bool.and_assoc _ _ _).symm
  exact le_trans hsub (hcov s0 hs0 gc hgc)


/-! ## Backtracking search: the invariants carried along the search -/

theorem slotCount_cons (p : Shift × String) (slots : List (Shift × String))
    (sid g : String) :
    slotCount (p :: slots) sid g =
      (if p.1.id = sid ∧ p.2 = g then 1 else 0) + slotCount slots sid g := by
  unfold slotCount
  rw [List.filter_cons]
  by_cases h1 : p.1.id = sid
  · by_cases h2 : p.2 = g
    · have hb : (p.1.id == sid && p.2 == g) = true := by
        rw [beq_iff_eq.mpr h1, beq_iff_eq.mpr h2]; rfl
      simp [hb, h1, h2]
      omega
    · have hb : (p.1.id == sid && p.2 == g) = false := by
        rw [beq_iff_eq.mpr h1, beq_eq_false_iff_ne.mpr h2]; rfl
      simp [hb, h1, h2]
  · have hb : (p.1.id == sid && p.2 == g) = false := by
      rw [beq_eq_false_iff_ne.mpr h1]; rfl
    simp [hb, h1]

theorem slotBound_tail {st : State} {p : Shift × String}
    {slots : List (Shift × String)} (h : SlotBound st (p :: slots)) :
    SlotBound st slots := by
  intro s hs gc hgc
  have := h s hs gc hgc
  rw [slotCount_cons] at this
  omega

/-- `applyAssign` touches no immutable volunteer field. -/
theorem coreV_applyAssign (st : State) (sh : Shift) (vid : String) :
    (applyAssign st sh vid).volunteers.map vCore = st.volunteers.map vCore := by
  show (updateVol st.volunteers vid _).map vCore = _
  unfold updateVol
  rw [List.map_map]
  refine List.map_congr_left ?_
  intro v _
  by_cases hb : v.id == vid <;> simp [Function.comp, hb, vCore]

/-- `applyAssign` touches no immutable shift field. -/
theorem coreS_applyAssign (st : State) (sh : Shift) (vid : String) :
    (applyAssign st sh vid).shifts.map sCore = st.shifts.map sCore := by
  show (updateShiftA st.shifts sh.id _).map sCore = _
  unfold updateShiftA
  rw [List.map_map]
  refine List.map_congr_left ?_
  intro s _
  by_cases hb : s.id == sh.id <;> simp [Function.comp, hb, sCore]

theorem groupOfId_applyAssign (st : State) (sh : Shift) (vid k : String) :
    groupOfId (applyAssign st sh vid).volunteers k = groupOfId st.volunteers k :=
  groupOfId_congr (coreV_applyAssign st sh vid) k

theorem assignedOf_applyAssign_ne (st : State) (sh : Shift) (vid : String)
    {k : String} (hk : k ≠ sh.id) :
    assignedOf (applyAssign st sh vid) k = assignedOf st k := by
  unfold assignedOf applyAssign
  simp only
  rw [find?_updateShiftA
    (f := fun s => { s with assigned := s.assigned ++ [vid] }) (fun s => rfl) k]
  cases hf : st.shifts.find? (fun s => s.id == k) with
  | none => rfl
  | some s =>
    have hsk : s.id = k := by
      have hp := List.find?_some hf
      simpa using hp
    have hb : (s.id == sh.id) = false := by
      refine beq_eq_false_iff_ne.mpr ?_
      rw [hsk]
      exact hk
    simp only [Option.map_some']
    rw [if_neg (fun hc => hk (hsk ▸ beq_iff_eq.mp hc))]

theorem assignedOf_applyAssign_self (st : State) (sh : Shift) (vid : String)
    {s₁ : Shift} (hf : st.shifts.find? (fun s => s.id == sh.id) = some s₁) :
    assignedOf (applyAssign st sh vid) sh.id = assignedOf st sh.id ++ [vid] := by
  unfold assignedOf applyAssign
  simp only
  rw [find?_updateShiftA
    (f := fun s => { s with assigned := s.assigned ++ [vid] }) (fun s => rfl)
    sh.id, hf]
  have hsk : s₁.id = sh.id := by
    have hp := List.find?_some hf
    simpa using hp
  simp only [Option.map_some']
  rw [if_pos (beq_iff_eq.mpr hsk)]

theorem gcountId_applyAssign_ne (st : State) (sh : Shift) (vid : String)
    {k : String} (hk : k ≠ sh.id) (g : String) :
    gcountId (applyAssign st sh vid) k g = gcountId st k g := by
  unfold gcountId
  rw [assignedOf_applyAssign_ne st sh vid hk]
  refine congrArg List.length (List.filter_congr ?_)
  intro x _
  rw [groupOfId_applyAssign]

theorem gcountId_applyAssign_self (st : State) (sh : Shift) (vid : String)
    {s₁ : Shift} (hf : st.shifts.find? (fun s => s.id == sh.id) = some s₁)
    {gv : String} (hgv : groupOfId st.volunteers vid = some gv) (g : String) :
    gcountId (applyAssign st sh vid) sh.id g =
      gcountId st sh.id g + (if gv = g then 1 else 0) := by
  unfold gcountId
  rw [assignedOf_applyAssign_self st sh vid hf]
  have hfc : List.filter
      (fun x => groupOfId (applyAssign st sh vid).volunteers x == some g)
      (assignedOf st sh.id ++ [vid]) =
    (List.filter (fun x => groupOfId st.volunteers x == some g)
      (assignedOf st sh.id)) ++
      (List.filter (fun x => groupOfId st.volunteers x == some g) [vid]) := by
    rw [← List.filter_append]
    refine List.filter_congr ?_
    intro x _
    rw [groupOfId_applyAssign]
  rw [hfc, List.length_append]
  congr 1
  by_cases hg : gv = g
  · have hb : (groupOfId st.volunteers vid == some g) = true := by
      rw [hgv, hg]; exact beq_self_eq_true _
    simp [List.filter_cons, hb, hg]
  · have hb : (groupOfId st.volunteers vid == some g) = false := by
      rw [hgv]
      refine beq_eq_false_iff_ne.mpr ?_
      intro hc
      exact hg (Option.some.injEq _ _ ▸ hc ▸ rfl)
    simp [List.filter_cons, hb, hg]

theorem mem_eligibleOpt {st : State} {sh : Shift} {g : String} {v : Volunteer}
    (hv : v ∈ eligibleOpt st sh g) :
    v ∈ st.volunteers ∧ v.group = some g ∧ sh.allows v = true ∧
      wouldOverlap st v.id sh = false ∧ sh.id ∉ v.assignedShifts ∧
      withinCap v sh.durationHours = true := by
  unfold eligibleOpt at hv
  rw [List.mem_filter] at hv
  refine ⟨hv.1, ?_⟩
  have h := hv.2
  simp only [Bool.and_eq_true, beq_iff_eq, Bool.not_eq_true'] at h
  refine ⟨h.1.1.1.1, h.1.1.1.2, h.1.1.2, ?_, h.2⟩
  have hc := h.1.2
  intro hmem
  rw [List.contains_eq_any_beq] at hc
  have : (v.assignedShifts.any fun x => sh.id == x) = true :=
    List.any_eq_true.mpr ⟨sh.id, hmem, beq_self_eq_true _⟩
  rw [this] at hc
  cases hc

/-- Consuming the head slot by one legal assignment keeps the slot bound. -/
theorem slotBound_applyAssign {st₀ st : State} (hval : ValidState st₀)
    (hInv : Inv st₀ st) {slot : Shift × String} (hsh : slot.1 ∈ st₀.shifts)
    {v : Volunteer} (hv : v ∈ st.volunteers) (hg : v.group = some slot.2)
    {rest : List (Shift × String)} (hSB : SlotBound st (slot :: rest)) :
    SlotBound (applyAssign st slot.1 v.id) rest := by
  have hndV : (st.volunteers.map (fun w => w.id)).Nodup := by
    rw [vol_ids_of_core hInv.coreV]
    exact hval.1
  have hndS : (st.shifts.map (fun s => s.id)).Nodup := by
    rw [shift_ids_of_core hInv.coreS]
    exact hval.2.1
  have hgid : groupOfId st.volunteers v.id = some slot.2 := by
    unfold groupOfId
    rw [find?_beq_eq_of_nodup (f := Volunteer.id) hndV hv]
    exact hg
  intro s2 hs2 gc hgc
  have hsh2 : (applyAssign st slot.1 v.id).shifts =
      updateShiftA st.shifts slot.1.id
        (fun x => { x with assigned := x.assigned ++ [v.id] }) := rfl
  rw [hsh2] at hs2
  obtain ⟨s, hs, hs2eq⟩ := mem_updateShiftA hs2
  have hid : s2.id = s.id := by
    rw [hs2eq]; split <;> rfl
  have hrg : s2.requiredGroups = s.requiredGroups := by
    rw [hs2eq]; split <;> rfl
  rw [hrg] at hgc
  have hbound := hSB s hs gc hgc
  rw [slotCount_cons] at hbound
  rw [hid]
  by_cases hk : s.id = slot.1.id
  · -- the touched shift
    have hfind : st.shifts.find? (fun x => x.id == slot.1.id) = some s := by
      have := find?_beq_eq_of_nodup (f := Shift.id) hndS hs
      rw [hk] at this
      exact this
    rw [show gcountId (applyAssign st slot.1 v.id) s.id gc.1 =
        gcountId (applyAssign st slot.1 v.id) slot.1.id gc.1 by rw [hk]]
    rw [gcountId_applyAssign_self st slot.1 v.id hfind hgid gc.1]
    by_cases hgg : slot.2 = gc.1
    · have hcond : slot.1.id = s.id ∧ slot.2 = gc.1 := ⟨hk.symm, hgg⟩
      rw [if_pos hcond] at hbound
      rw [if_pos hgg]
      rw [show gcountId st slot.1.id gc.1 = gcountId st s.id gc.1 by rw [hk]]
      omega
    · rw [if_neg hgg]
      rw [show gcountId st slot.1.id gc.1 = gcountId st s.id gc.1 by rw [hk]]
      omega
  · rw [gcountId_applyAssign_ne st slot.1 v.id hk gc.1]
    omega

/-- The leaf/timeout behaviour of `backtrack` on an empty slot list. -/
theorem backtrack_nil_spec {st₀ : State} (expired : ℕ → Bool) (st : State)
    (t : ℕ) (best : Best) (scored : ℕ) (hInv : Inv st₀ st)
    (hSB : SlotBound st []) (hB : BestP st₀ best) :
    BestP st₀ (backtrack expired [] st t best scored).2.1 ∧
    scored ≤ (backtrack expired [] st t best scored).2.2 ∧
    ((backtrack expired [] st t best scored).2.2 = scored →
      (backtrack expired [] st t best scored).2.1 = best) := by
  have hG : GBound st := by
    intro s hs gc hgc
    have := hSB s hs gc hgc
    unfold slotCount at this
    simpa using this
  rw [backtrack]
  cases he : expired t
  · rw [if_neg Bool.false_ne_true]
    by_cases hlt : best.score < scoreOf st
    · rw [if_pos hlt]
      refine ⟨Or.inr ⟨st, hInv, hG, rfl⟩, ?_, ?_⟩
      · show scored ≤ scored + 1
        omega
      · intro h
        exact absurd (show scored + 1 = scored from h) (by omega)
    · rw [if_neg hlt]
      refine ⟨hB, ?_, ?_⟩
      · show scored ≤ scored + 1
        omega
      · intro h
        exact absurd (show scored + 1 = scored from h) (by omega)
  · rw [if_pos rfl]
    exact ⟨hB, le_refl _, fun _ => rfl⟩

/-- Joint invariant lemma of the backtracking search: any incumbent produced
is the sentinel or a legal leaf's snapshot, the leaf-scoring count never
decreases, and if no leaf was scored the incumbent is unchanged. -/
theorem backtrack_spec {st₀ : State} (hval : ValidState st₀)
    (expired : ℕ → Bool) :
    ∀ (n : ℕ) (slots : List (Shift × String)), slots.length ≤ n →
      ∀ (st : State) (t : ℕ) (best : Best) (scored : ℕ),
        Inv st₀ st → SlotsFrom st₀ slots → SlotBound st slots →
        BestP st₀ best →
        BestP st₀ (backtrack expired slots st t best scored).2.1 ∧
        scored ≤ (backtrack expired slots st t best scored).2.2 ∧
        ((backtrack expired slots st t best scored).2.2 = scored →
          (backtrack expired slots st t best scored).2.1 = best) := by
  intro n
  induction n with
  | zero =>
    intro slots hlen st t best scored hInv _ hSB hB
    have : slots = [] := List.length_eq_zero.mp (Nat.le_zero.mp hlen)
    subst this
    exact backtrack_nil_spec expired st t best scored hInv hSB hB
  | succ n ih =>
    intro slots hlen st t best scored hInv hSF hSB hB
    cases slots with
    | nil => exact backtrack_nil_spec expired st t best scored hInv hSB hB
    | cons slot rest =>
      have hrlen : rest.length ≤ n := by
        simp only [List.length_cons] at hlen
        omega
      have hSFr : SlotsFrom st₀ rest :=
        fun p hp => hSF p (List.mem_cons_of_mem _ hp)
      have hsh : slot.1 ∈ st₀.shifts := hSF slot (List.mem_cons_self _ _)
      rw [backtrack]
      cases he : expired t
      · rw [if_neg Bool.false_ne_true]
        by_cases hemp :
            (sortCands (eligibleOpt st slot.1 slot.2)).isEmpty = true
        · rw [if_pos hemp]
          exact ih rest hrlen st (t + 1) best scored hInv hSFr
            (slotBound_tail hSB) hB
        · rw [if_neg hemp]
          -- the candidate loop
          have hndV : (st.volunteers.map (fun w => w.id)).Nodup := by
            rw [vol_ids_of_core hInv.coreV]
            exact hval.1
          have hloop : ∀ (vs : List Volunteer),
              (∀ v ∈ vs, v ∈ eligibleOpt st slot.1 slot.2) →
              ∀ (t' : ℕ) (best' : Best) (scored' : ℕ), BestP st₀ best' →
              BestP st₀
                (backtrackCands expired slot rest vs st t' best' scored').2.1 ∧
              scored' ≤
                (backtrackCands expired slot rest vs st t' best' scored').2.2 ∧
              ((backtrackCands expired slot rest vs st t' best' scored').2.2 =
                  scored' →
                (backtrackCands expired slot rest vs st t' best' scored').2.1 =
                  best') := by
            intro vs
            induction vs with
            | nil =>
              intro _ t' best' scored' hB'
              rw [backtrackCands]
              exact ⟨hB', le_refl _, fun _ => rfl⟩
            | cons v vt ihv =>
              intro hmemv t' best' scored' hB'
              have hel := mem_eligibleOpt (hmemv v (List.mem_cons_self _ _))
              have hvmem : v ∈ st.volunteers := hel.1
              have hInv' : Inv st₀ (applyAssign st slot.1 v.id) := by
                refine inv_applyAssign hval hInv hsh
                  (List.mem_map_of_mem _ hvmem) hel.2.2.2.1 ?_
                intro w hw hwid
                have hwv : w = v := mem_map_nodup_eq hndV hw hvmem hwid
                rw [hwv]
                refine ⟨hel.2.2.2.2.2, hel.2.2.2.2.1, ?_⟩
                rw [hel.2.1]
                simp
              have hSB' : SlotBound (applyAssign st slot.1 v.id) rest :=
                slotBound_applyAssign hval hInv hsh hvmem hel.2.1 hSB
              have h1 := ih rest hrlen (applyAssign st slot.1 v.id) t' best'
                scored' hInv' hSFr hSB' hB'
              have h2 := ihv (fun w hw => hmemv w (List.mem_cons_of_mem _ hw))
                (backtrack expired rest (applyAssign st slot.1 v.id) t' best'
                  scored').1
                (backtrack expired rest (applyAssign st slot.1 v.id) t' best'
                  scored').2.1
                (backtrack expired rest (applyAssign st slot.1 v.id) t' best'
                  scored').2.2
                h1.1
              rw [backtrackCands]
              refine ⟨h2.1, le_trans h1.2.1 h2.2.1, ?_⟩
              intro heq
              have hr2 : (backtrack expired rest (applyAssign st slot.1 v.id)
                  t' best' scored').2.2 = scored' := by
                have ha := h1.2.1
                have hb2 := h2.2.1
                omega
              rw [h2.2.2 (heq.trans hr2.symm)]
              exact h1.2.2 hr2
          exact hloop (sortCands (eligibleOpt st slot.1 slot.2))
            (fun v hv => mem_sortCands.mp hv) (t + 1) best scored hB
      · rw [if_pos rfl]
        exact ⟨hB, le_refl _, fun _ => rfl⟩

/-! ## Backtracking: writing the incumbent back -/

theorem applyOne_cons (p : String × List String)
    (asg : List (String × List String)) (s : Shift) :
    applyOne (p :: asg) s =
      applyOne asg (if s.id == p.1 then { s with assigned := p.2 } else s) :=
  rfl

theorem applyAssignments_eq_map (ss : List Shift)
    (asg : List (String × List String)) :
    applyAssignments ss asg = ss.map (applyOne asg) := by
  induction asg generalizing ss with
  | nil =>
    show ss = ss.map (applyOne [])
    have h : ss.map (applyOne []) = ss.map id :=
      List.map_congr_left (fun s _ => rfl)
    rw [h, List.map_id]
  | cons p t ih =>
    have h1 : applyAssignments ss (p :: t) =
        applyAssignments
          (ss.map (fun s =>
            if s.id == p.1 then { s with assigned := p.2 } else s)) t := rfl
    rw [h1, ih, List.map_map]
    refine List.map_congr_left ?_
    intro s _
    rfl

theorem applyOne_skip {asg : List (String × List String)} {s : Shift}
    (h : ∀ p ∈ asg, s.id ≠ p.1) : applyOne asg s = s := by
  induction asg with
  | nil => rfl
  | cons p t ih =>
    rw [applyOne_cons]
    have hb : (s.id == p.1) = false :=
      beq_eq_false_iff_ne.mpr (h p (List.mem_cons_self _ _))
    rw [hb]
    simp only [Bool.false_eq_true, if_false]
    exact ih (fun q hq => h q (List.mem_cons_of_mem _ hq))

/-- Applying a full shift snapshot to a shift whose id occurs in it. -/
theorem applyOne_snapshot_self :
    ∀ {l : List Shift}, ((l.map (fun s => s.id)).Nodup) →
    ∀ {x : Shift}, x ∈ l → ∀ {s : Shift}, s.id = x.id →
    applyOne (l.map (fun y => (y.id, y.assigned))) s =
      { s with assigned := x.assigned } := by
  intro l
  induction l with
  | nil => intro _ x hx; cases hx
  | cons y t ih =>
    intro hnd x hx s hsid
    rw [List.map_cons, List.nodup_cons] at hnd
    rw [List.map_cons, applyOne_cons]
    rcases List.mem_cons.mp hx with rfl | hx'
    · have hb : (s.id == x.id) = true := beq_iff_eq.mpr hsid
      rw [hb]
      simp only [if_true]
      refine applyOne_skip ?_
      rintro p hp
      obtain ⟨z, hz, rfl⟩ := List.mem_map.mp hp
      intro hc
      have hsz : s.id = z.id := hc
      refine hnd.1 ?_
      rw [← hsid, hsz]
      exact List.mem_map_of_mem _ hz
    · have hne : s.id ≠ y.id := by
        intro hc
        have hmm : x.id ∈ t.map (fun s => s.id) := List.mem_map_of_mem _ hx'
        have hyx : y.id = x.id := by rw [← hc, hsid]
        refine hnd.1 ?_
        rw [hyx]
        exact hmm
      have hb : (s.id == y.id) = false := beq_eq_false_iff_ne.mpr hne
      rw [hb]
      simp only [Bool.false_eq_true, if_false]
      exact ih hnd.2 hx' hsid

/-- A shift is its immutable core plus its `assigned` list. -/
theorem shift_eq_of_core_assigned {a b : Shift} (hc : sCore a = sCore b)
    (ha : a.assigned = b.assigned) : a = b := by
  cases a
  cases b
  simp only [sCore, Prod.mk.injEq] at hc
  simp only [Shift.mk.injEq]
  simp only at ha
  exact ⟨hc.1, hc.2.1, hc.2.2.1, hc.2.2.2.1, hc.2.2.2.2.1, hc.2.2.2.2.2, ha⟩

/-- Writing a leaf's snapshot back over the initial shift dict restores
exactly the leaf's shifts. -/
theorem applyAssignments_snapshot :
    ∀ (ss l : List Shift), ss.map sCore = l.map sCore →
    ((l.map (fun s => s.id)).Nodup) →
    applyAssignments ss (l.map (fun x => (x.id, x.assigned))) = l := by
  intro ss
  induction ss with
  | nil =>
    intro l hc _
    cases l with
    | nil => rfl
    | cons x lt => simp at hc
  | cons s sst ih =>
    intro l hc hnd
    cases l with
    | nil => simp at hc
    | cons x lt =>
      simp only [List.map_cons, List.cons.injEq] at hc
      have hnd' := hnd
      rw [List.map_cons, List.nodup_cons] at hnd'
      have hsid : s.id = x.id := by
        have := congrArg Prod.fst hc.1
        simpa [sCore] using this
      rw [applyAssignments_eq_map, List.map_cons]
      have hhead : applyOne ((x :: lt).map (fun y => (y.id, y.assigned))) s
          = x := by
        rw [applyOne_snapshot_self hnd (List.mem_cons_self _ _) hsid]
        exact shift_eq_of_core_assigned hc.1 rfl
      rw [hhead]
      congr 1
      have hstep : ∀ w ∈ sst,
          applyOne ((x :: lt).map (fun y => (y.id, y.assigned))) w =
            applyOne (lt.map (fun y => (y.id, y.assigned))) w := by
        intro w hw
        have hwid : w.id ∈ lt.map (fun s => s.id) := by
          have hids : sst.map (fun s => s.id) = lt.map (fun s => s.id) :=
            shift_ids_of_core hc.2
          rw [← hids]
          exact List.mem_map_of_mem _ hw
        have hne : w.id ≠ x.id := fun h => hnd'.1 (h ▸ hwid)
        rw [List.map_cons, applyOne_cons]
        have hb : (w.id == x.id) = false := beq_eq_false_iff_ne.mpr hne
        rw [hb]
        simp only [Bool.false_eq_true, if_false]
      rw [List.map_congr_left hstep]
      have := ih lt hc.2 hnd'.2
      rw [applyAssignments_eq_map] at this
      exact this

/-! ## Backtracking: re-deriving the volunteers from the applied shifts -/

theorem vCore_fields {a b : Volunteer} (h : vCore a = vCore b) :
    a.id = b.id ∧ a.name = b.name ∧ a.group = b.group ∧
      a.maxHours = b.maxHours := by
  simp only [vCore, Prod.mk.injEq] at h
  exact ⟨h.1, h.2.1, h.2.2.1, h.2.2.2⟩

theorem sCore_fields {a b : Shift} (h : sCore a = sCore b) :
    a.id = b.id ∧ a.start = b.start ∧ a.stop = b.stop ∧
      a.requiredGroups = b.requiredGroups ∧
      a.allowedGroups = b.allowedGroups ∧
      a.excludedGroups = b.excludedGroups := by
  simp only [sCore, Prod.mk.injEq] at h
  exact ⟨h.1, h.2.1, h.2.2.1, h.2.2.2.1, h.2.2.2.2.1, h.2.2.2.2.2⟩

/-- Any reachable state's `assigned` lists are duplicate-free. -/
theorem assigned_nodup_of_inv {st₀ st : State} (hInv : Inv st₀ st) {s : Shift}
    (hs : s ∈ st.shifts) : s.assigned.Nodup := by
  rw [List.nodup_iff_count_le_one]
  intro a
  by_cases ha : a ∈ s.assigned
  · have haid := hInv.assignedVal s hs a ha
    obtain ⟨v, hv, rfl⟩ := List.mem_map.mp haid
    rw [hInv.corr v hv s hs]
    exact List.nodup_iff_count_le_one.mp (hInv.nodupAS v hv) s.id
  · rw [List.count_eq_zero_of_not_mem ha]
    omega

theorem noOvIds_symm {ss : List Shift} : ∀ {a b : String},
    noOvIds ss a b → noOvIds ss b a := by
  intro a b h
  unfold noOvIds at h ⊢
  rw [overlapB_symm]
  exact h

theorem gcountId_congr_state (s1 s2 : State) (hs : s1.shifts = s2.shifts)
    (hv : s1.volunteers.map vCore = s2.volunteers.map vCore) (sid g : String) :
    gcountId s1 sid g = gcountId s2 sid g := by
  unfold gcountId
  rw [show assignedOf s1 sid = assignedOf s2 sid by unfold assignedOf; rw [hs]]
  refine congrArg List.length (List.filter_congr ?_)
  intro x _
  rw [groupOfId_congr hv]

theorem gcountId_mem {st : State}
    (hnd : (st.shifts.map (fun s => s.id)).Nodup) {s : Shift}
    (hs : s ∈ st.shifts) (g : String) :
    gcountId st s.id g = (s.assigned.filter
      (fun vid => groupOfId st.volunteers vid == some g)).length := by
  unfold gcountId assignedOf
  rw [find?_beq_eq_of_nodup (f := Shift.id) hnd hs]

/-- Everything the claims need of the state `assign_optimal` leaves behind,
given that the applied shifts are those of a legal leaf `st'`. -/
theorem rederive_spec {st₀ st' : State} (hval : ValidState st₀)
    (hI : Inv st₀ st') (hG : GBound st') :
    ((optFinal st₀ st').shifts.map sCore = st₀.shifts.map sCore) ∧
    ((optFinal st₀ st').volunteers.map vCore = st₀.volunteers.map vCore) ∧
    (∀ v ∈ (optFinal st₀ st').volunteers, capProp v) ∧
    (∀ v ∈ (optFinal st₀ st').volunteers,
      v.assignedShifts.Nodup ∧
      v.assignedShifts.Pairwise (noOvIds (optFinal st₀ st').shifts)) ∧
    (∀ s ∈ (optFinal st₀ st').shifts, s.assigned.Nodup) ∧
    (∀ v ∈ (optFinal st₀ st').volunteers,
      v.assignedHours =
        ((v.assignedShifts.map (durOf (optFinal st₀ st').shifts)).sum)) ∧
    (∀ s ∈ (optFinal st₀ st').shifts, ∀ gc ∈ s.requiredGroups,
      gcountId (optFinal st₀ st') s.id gc.1 ≤ gc.2 ∧
      (gcountId (optFinal st₀ st') s.id gc.1 < gc.2 →
        (computeUnfilled (optFinal st₀ st')).count
          (s.id, gc.1, gc.2 - gcountId (optFinal st₀ st') s.id gc.1) = 1)) ∧
    (∀ v ∈ (optFinal st₀ st').volunteers,
      v.group = none → v.assignedShifts = [] ∧ v.assignedHours = 0) := by
  have hndV' : (st'.volunteers.map (fun v => v.id)).Nodup := by
    rw [vol_ids_of_core hI.coreV]
    exact hval.1
  have hndS' : (st'.shifts.map (fun s => s.id)).Nodup := by
    rw [shift_ids_of_core hI.coreS]
    exact hval.2.1
  -- the shape of the final state
  have hshifts : (optFinal st₀ st').shifts = st'.shifts := rfl
  have hvols : (optFinal st₀ st').volunteers =
      st₀.volunteers.map (fun v =>
        { v with
          assignedShifts := (st'.shifts.filter
            (fun s => s.assigned.contains v.id)).map (fun s => s.id),
          assignedHours := (((st'.shifts.filter
            (fun s => s.assigned.contains v.id)).map (fun s => s.id)).map
              (durOf st'.shifts)).sum }) := rfl
  -- the partner volunteer in the leaf state, and the transfer facts
  have hpartner : ∀ v ∈ st₀.volunteers, ∃ v' ∈ st'.volunteers,
      vCore v' = vCore v ∧
      (∀ sid, sid ∈ (st'.shifts.filter
        (fun s => s.assigned.contains v.id)).map (fun s => s.id) ↔
        sid ∈ v'.assignedShifts) := by
    intro v hv
    obtain ⟨v', hv', hvc⟩ := mem_vCore_exists hI.coreV.symm hv
    have hidv : v'.id = v.id := (vCore_fields hvc).1
    refine ⟨v', hv', hvc, ?_⟩
    intro sid
    constructor
    · intro hsid
      obtain ⟨s, hsf, rfl⟩ := List.mem_map.mp hsid
      have hsp := List.mem_filter.mp hsf
      have hvin : v.id ∈ s.assigned := by
        have hc := hsp.2
        rw [List.contains_eq_any_beq] at hc
        obtain ⟨x, hx, hbeq⟩ := List.any_eq_true.mp hc
        rw [beq_iff_eq.mp hbeq]
        exact hx
      have hcnt : 0 < s.assigned.count v'.id := by
        rw [hidv]
        exact List.count_pos_iff.mpr hvin
      rw [hI.corr v' hv' s hsp.1] at hcnt
      exact List.count_pos_iff.mp hcnt
    · intro hsid
      obtain ⟨s, hsmem, hsid_eq⟩ := hI.validAS v' hv' sid hsid
      have hcnt : 0 < v'.assignedShifts.count s.id := by
        rw [hsid_eq]
        exact List.count_pos_iff.mpr hsid
      rw [← hI.corr v' hv' s hsmem] at hcnt
      have hvin : v'.id ∈ s.assigned := List.count_pos_iff.mp hcnt
      refine List.mem_map.mpr ⟨s, List.mem_filter.mpr ⟨hsmem, ?_⟩, hsid_eq⟩
      rw [List.contains_eq_any_beq]
      refine List.any_eq_true.mpr ⟨v'.id, hvin, ?_⟩
      rw [hidv]
      exact beq_self_eq_true _
  -- nodup of the recomputed assignment lists
  have hnd2 : ∀ (v : Volunteer), ((st'.shifts.filter
      (fun s => s.assigned.contains v.id)).map (fun s => s.id)).Nodup := by
    intro v
    exact hndS'.sublist ((List.filter_sublist _).map _)
  -- permutation with the leaf's list, and the hour transfer
  have hperm : ∀ v ∈ st₀.volunteers, ∀ v' ∈ st'.volunteers,
      vCore v' = vCore v →
      (∀ sid, sid ∈ (st'.shifts.filter
        (fun s => s.assigned.contains v.id)).map (fun s => s.id) ↔
        sid ∈ v'.assignedShifts) →
      ((st'.shifts.filter
        (fun s => s.assigned.contains v.id)).map (fun s => s.id)).Perm
        v'.assignedShifts := by
    intro v _ v' hv' _ hmemEq
    exact (List.perm_ext_iff_of_nodup (hnd2 v) (hI.nodupAS v' hv')).mpr hmemEq
  have hhours : ∀ v ∈ st₀.volunteers, ∀ v' ∈ st'.volunteers,
      vCore v' = vCore v →
      ((st'.shifts.filter
        (fun s => s.assigned.contains v.id)).map (fun s => s.id)).Perm
        v'.assignedShifts →
      (((st'.shifts.filter
        (fun s => s.assigned.contains v.id)).map (fun s => s.id)).map
          (durOf st'.shifts)).sum = v'.assignedHours := by
    intro v _ v' hv' _ hp
    have h1 := (hp.map (durOf st'.shifts)).sum_eq
    have h2 : v'.assignedShifts.map (durOf st'.shifts) =
        v'.assignedShifts.map (durOf st₀.shifts) :=
      List.map_congr_left (fun sid _ => durOf_congr hI.coreS sid)
    rw [h1, h2, ← hI.hoursEq v' hv']
  refine ⟨?_, ?_, ?_, ?_, ?_, ?_, ?_, ?_⟩
  · -- shift cores
    rw [hshifts]
    exact hI.coreS
  · -- volunteer cores
    rw [hvols, List.map_map]
    refine List.map_congr_left ?_
    intro v _
    rfl
  · -- hour caps
    intro w hw
    rw [hvols] at hw
    obtain ⟨v, hv, rfl⟩ := List.mem_map.mp hw
    obtain ⟨v', hv', hvc, hmemEq⟩ := hpartner v hv
    have hp := hperm v hv v' hv' hvc hmemEq
    have hh := hhours v hv v' hv' hvc hp
    have hmx : v.maxHours = v'.maxHours := ((vCore_fields hvc).2.2.2).symm
    have hcap' := hI.cap v' hv'
    unfold capProp at hcap' ⊢
    simp only
    rw [hmx, hh]
    exact hcap'
  · -- nodup and non-overlap of assigned shifts
    intro w hw
    rw [hvols] at hw
    obtain ⟨v, hv, rfl⟩ := List.mem_map.mp hw
    obtain ⟨v', hv', hvc, hmemEq⟩ := hpartner v hv
    have hp := hperm v hv v' hv' hvc hmemEq
    refine ⟨hnd2 v, ?_⟩
    have hpw : v'.assignedShifts.Pairwise (noOvIds st₀.shifts) := hI.noOv v' hv'
    have hpw2 : ((st'.shifts.filter
        (fun s => s.assigned.contains v.id)).map (fun s => s.id)).Pairwise
          (noOvIds st₀.shifts) :=
      (hp.pairwise_iff (fun h => noOvIds_symm h)).mpr hpw
    simp only
    rw [hshifts]
    refine hpw2.imp ?_
    intro a b h
    unfold noOvIds at h ⊢
    rw [startOf_congr hI.coreS, stopOf_congr hI.coreS,
      startOf_congr hI.coreS, stopOf_congr hI.coreS]
    exact h
  · -- nodup of shift rosters
    intro s hs
    rw [hshifts] at hs
    exact assigned_nodup_of_inv hI hs
  · -- recomputed hours
    intro w hw
    rw [hvols] at hw
    obtain ⟨v, hv, rfl⟩ := List.mem_map.mp hw
    rfl
  · -- group headcount bound and exact shortfall report
    intro s hs gc hgc
    rw [hshifts] at hs
    have hvc2 : (optFinal st₀ st').volunteers.map vCore =
        st'.volunteers.map vCore := by
      rw [hvols, List.map_map]
      rw [show ((fun v => vCore v) ∘ fun v =>
        { v with
          assignedShifts := (st'.shifts.filter
            (fun s => s.assigned.contains v.id)).map (fun s => s.id),
          assignedHours := (((st'.shifts.filter
            (fun s => s.assigned.contains v.id)).map (fun s => s.id)).map
              (durOf st'.shifts)).sum }) = vCore from rfl]
      rw [← hI.coreV]
    have hgeq : gcountId (optFinal st₀ st') s.id gc.1 =
        gcountId st' s.id gc.1 :=
      gcountId_congr_state _ _ hshifts hvc2 s.id gc.1
    refine ⟨?_, ?_⟩
    · rw [hgeq]
      exact hG s hs gc hgc
    · intro hlt
      have hndF : ((optFinal st₀ st').shifts.map (fun s => s.id)).Nodup := by
        rw [hshifts]
        exact hndS'
      have hkeysF : ∀ t ∈ (optFinal st₀ st').shifts,
          (t.requiredGroups.map (fun p => p.1)).Nodup := by
        intro t ht
        rw [hshifts] at ht
        obtain ⟨t₀, ht₀, htc⟩ := mem_sCore_exists hI.coreS ht
        rw [show t.requiredGroups = t₀.requiredGroups from
          ((sCore_fields htc).2.2.2.1).symm]
        exact hval.2.2 t₀ ht₀
      have hsF : s ∈ (optFinal st₀ st').shifts := by
        rw [hshifts]
        exact hs
      have hgm := gcountId_mem hndF hsF gc.1
      rw [hgm] at hlt ⊢
      exact computeUnfilled_count hndF hkeysF hsF hgc hlt
  · -- volunteers without a group are untouched
    intro w hw hg
    rw [hvols] at hw
    obtain ⟨v, hv, rfl⟩ := List.mem_map.mp hw
    simp only at hg
    obtain ⟨v', hv', hvc, hmemEq⟩ := hpartner v hv
    have hg' : v'.group = none := by
      rw [(vCore_fields hvc).2.2.1, hg]
    have hz := hI.noneF v' hv' hg'
    have hnil : (st'.shifts.filter
        (fun s => s.assigned.contains v.id)).map (fun s => s.id) = [] := by
      rw [List.eq_nil_iff_forall_not_mem]
      intro sid hsid
      have := (hmemEq sid).mp hsid
      rw [hz.1] at this
      cases this
    constructor
    · simp only
      rw [hnil]
    · simp only
      rw [hnil]
      rfl

/-! ## Backtracking: the initial slot list -/

theorem sum_ite_key_zero {α : Type} (key : α → String) (f : α → ℕ)
    (k : String) :
    ∀ (l : List α), k ∉ l.map key →
    (l.map (fun x => if key x = k then f x else 0)).sum = 0 := by
  intro l
  induction l with
  | nil => intro _; rfl
  | cons x t ih =>
    intro hk
    rw [List.map_cons, List.mem_cons] at hk
    push_neg at hk
    rw [List.map_cons, List.sum_cons, if_neg (fun hc => hk.1 hc.symm),
      ih hk.2]

theorem sum_ite_key {α : Type} (key : α → String) (f : α → ℕ) :
    ∀ (l : List α), ((l.map key).Nodup) → ∀ {a : α}, a ∈ l →
    (l.map (fun x => if key x = key a then f x else 0)).sum = f a := by
  intro l
  induction l with
  | nil => intro _ a ha; cases ha
  | cons x t ih =>
    intro hnd a ha
    rw [List.map_cons, List.nodup_cons] at hnd
    rw [List.map_cons, List.sum_cons]
    rcases List.mem_cons.mp ha with rfl | ha'
    · rw [if_pos rfl, sum_ite_key_zero key f (key a) t hnd.1]
      omega
    · have hne : key x ≠ key a := by
        intro hc
        exact hnd.1 (hc ▸ List.mem_map_of_mem _ ha')
      rw [if_neg hne, ih hnd.2 ha']
      omega

theorem slotCount_append (a b : List (Shift × String)) (sid g : String) :
    slotCount (a ++ b) sid g = slotCount a sid g + slotCount b sid g := by
  unfold slotCount
  rw [List.filter_append, List.length_append]

theorem slotCount_flatMap {α : Type} (f : α → List (Shift × String))
    (l : List α) (sid g : String) :
    slotCount (l.flatMap f) sid g =
      (l.map (fun x => slotCount (f x) sid g)).sum := by
  induction l with
  | nil => rfl
  | cons x t ih =>
    rw [List.flatMap_cons, slotCount_append, List.map_cons, List.sum_cons, ih]

theorem slotCount_replicate (n : ℕ) (p : Shift × String) (sid g : String) :
    slotCount (List.replicate n p) sid g =
      if p.1.id = sid ∧ p.2 = g then n else 0 := by
  induction n with
  | zero => simp [slotCount]
  | succ m ih =>
    rw [List.replicate_succ, slotCount_cons, ih]
    split <;> omega

/-- In the slot list a `(shift, group)` requirement contributes exactly its
required count. -/
theorem slotCount_mkSlots {ss : List Shift}
    (hnd : (ss.map (fun s => s.id)).Nodup) {s : Shift} (hs : s ∈ ss)
    (hkeys : (s.requiredGroups.map (fun p => p.1)).Nodup)
    {gc : String × ℕ} (hgc : gc ∈ s.requiredGroups) :
    slotCount (mkSlots ss) s.id gc.1 = gc.2 := by
  unfold mkSlots
  rw [slotCount_flatMap]
  have hperm : (sortShiftsHard ss).Perm ss := List.perm_insertionSort _ _
  have hnds : ((sortShiftsHard ss).map (fun s => s.id)).Nodup :=
    ((hperm.map _).nodup_iff).mpr hnd
  have hmem : s ∈ sortShiftsHard ss := (hperm.mem_iff).mpr hs
  have hblock : ∀ s' ∈ sortShiftsHard ss,
      slotCount (s'.requiredGroups.flatMap
        (fun gc' => List.replicate gc'.2 (s', gc'.1))) s.id gc.1 =
      (if s'.id = s.id then gc.2 else 0) := by
    intro s' hs'
    rw [slotCount_flatMap]
    by_cases hid : s'.id = s.id
    · rw [if_pos hid]
      have hss : s' = s := mem_map_nodup_eq hnds hs' hmem hid
      subst hss
      have hpt : ∀ gc' ∈ s'.requiredGroups,
          slotCount (List.replicate gc'.2 (s', gc'.1)) s'.id gc.1 =
            (if gc'.1 = gc.1 then gc'.2 else 0) := by
        intro gc' _
        rw [slotCount_replicate]
        by_cases hgg : gc'.1 = gc.1
        · rw [if_pos ⟨rfl, hgg⟩, if_pos hgg]
        · rw [if_neg (fun hc => hgg hc.2), if_neg hgg]
      rw [List.map_congr_left hpt]
      exact sum_ite_key (fun p => p.1) (fun p => p.2) s'.requiredGroups
        hkeys hgc
    · rw [if_neg hid]
      have hpt : ∀ gc' ∈ s'.requiredGroups,
          slotCount (List.replicate gc'.2 (s', gc'.1)) s.id gc.1 = 0 := by
        intro gc' _
        rw [slotCount_replicate, if_neg (fun hc => hid hc.1)]
      rw [List.map_congr_left hpt]
      simp
  rw [List.map_congr_left hblock]
  exact sum_ite_key (fun s' => s'.id) (fun _ => gc.2) (sortShiftsHard ss)
    hnds hmem

theorem mkSlots_from (ss : List Shift) : ∀ p ∈ mkSlots ss, p.1 ∈ ss := by
  intro p hp
  unfold mkSlots at hp
  rw [List.mem_flatMap] at hp
  obtain ⟨s, hs, hp2⟩ := hp
  rw [List.mem_flatMap] at hp2
  obtain ⟨gc, _, hp3⟩ := hp2
  have hpe := List.eq_of_mem_replicate hp3
  rw [hpe]
  exact (List.mem_insertionSort _).mp hs

/-- A fresh state has empty rosters everywhere. -/
theorem gcountId_mkState (vs : List VolunteerInput) (ss : List ShiftInput)
    (sid g : String) : gcountId (mkState vs ss) sid g = 0 := by
  unfold gcountId assignedOf
  cases hf : (mkState vs ss).shifts.find? (fun s => s.id == sid) with
  | none => rfl
  | some s =>
    have hm := List.mem_of_find?_eq_some hf
    obtain ⟨i, _, rfl⟩ := List.mem_map.mp hm
    simp [mkShift]

/-- The slot bound holds at the root of the search. -/
theorem slotBound_init {vs : List VolunteerInput} {ss : List ShiftInput}
    (hval : ValidInput vs ss) :
    SlotBound (mkState vs ss) (mkSlots (mkState vs ss).shifts) := by
  intro s hs gc hgc
  rw [gcountId_mkState]
  have hval0 : ValidState (mkState vs ss) := validState_mkState hval
  rw [slotCount_mkSlots hval0.2.1 hs (hval0.2.2 s hs) hgc]
  omega

/-- The complete characterisation of `assign_optimal` on a fresh scheduler:
the final state keeps all immutable fields, satisfies the hour cap, has
duplicate-free and non-overlapping rosters with exact recomputed hours, and
the recomputed shortfall report is exact. -/
theorem assign_optimal_spec {vs : List VolunteerInput}
    {ss : List ShiftInput} (hval : ValidInput vs ss) (expired : ℕ → Bool) :
    ((assign_optimal (mkState vs ss) expired).1.shifts.map sCore =
        (mkState vs ss).shifts.map sCore) ∧
    ((assign_optimal (mkState vs ss) expired).1.volunteers.map vCore =
        (mkState vs ss).volunteers.map vCore) ∧
    (∀ v ∈ (assign_optimal (mkState vs ss) expired).1.volunteers,
      capProp v) ∧
    (∀ v ∈ (assign_optimal (mkState vs ss) expired).1.volunteers,
      v.assignedShifts.Nodup ∧
      v.assignedShifts.Pairwise
        (noOvIds (assign_optimal (mkState vs ss) expired).1.shifts)) ∧
    (∀ s ∈ (assign_optimal (mkState vs ss) expired).1.shifts,
      s.assigned.Nodup) ∧
    (∀ v ∈ (assign_optimal (mkState vs ss) expired).1.volunteers,
      v.assignedHours = ((v.assignedShifts.map
        (durOf (assign_optimal (mkState vs ss) expired).1.shifts)).sum)) ∧
    (∀ s ∈ (assign_optimal (mkState vs ss) expired).1.shifts,
      ∀ gc ∈ s.requiredGroups,
        gcountId (assign_optimal (mkState vs ss) expired).1 s.id gc.1 ≤
          gc.2 ∧
        (gcountId (assign_optimal (mkState vs ss) expired).1 s.id gc.1 <
            gc.2 →
          (assign_optimal (mkState vs ss) expired).2.1.count
            (s.id, gc.1, gc.2 -
              gcountId (assign_optimal (mkState vs ss) expired).1 s.id
                gc.1) = 1)) ∧
    (∀ v ∈ (assign_optimal (mkState vs ss) expired).1.volunteers,
      v.group = none → v.assignedShifts = [] ∧ v.assignedHours = 0) := by
  have hval0 : ValidState (mkState vs ss) := validState_mkState hval
  have hInv0 : Inv (mkState vs ss) (mkState vs ss) := inv_mkState hval
  have hG0 : GBound (mkState vs ss) := by
    intro s hs gc hgc
    rw [gcountId_mkState]
    omega
  have hbt := backtrack_spec hval0 expired
    (mkSlots (mkState vs ss).shifts).length (mkSlots (mkState vs ss).shifts)
    (le_refl _) (mkState vs ss) 0 ⟨-1, []⟩ 0 hInv0
    (mkSlots_from _) (slotBound_init hval) (Or.inl rfl)
  have happly : ∃ st', Inv (mkState vs ss) st' ∧ GBound st' ∧
      applyAssignments (mkState vs ss).shifts
        ((backtrack expired (mkSlots (mkState vs ss).shifts)
          (mkState vs ss) 0 ⟨-1, []⟩ 0).2.1).assignments = st'.shifts := by
    rcases hbt.1 with hsent | ⟨st', hI, hG, hsnap⟩
    · refine ⟨mkState vs ss, hInv0, hG0, ?_⟩
      rw [hsent]
      rfl
    · refine ⟨st', hI, hG, ?_⟩
      rw [hsnap]
      refine applyAssignments_snapshot _ _ hI.coreS.symm ?_
      rw [shift_ids_of_core hI.coreS]
      exact hval0.2.1
  obtain ⟨st', hI, hG, happ⟩ := happly
  have hr1 : assign_optimal (mkState vs ss) expired =
      (optFinal (mkState vs ss) st',
       computeUnfilled (optFinal (mkState vs ss) st'),
       (backtrack expired (mkSlots (mkState vs ss).shifts)
         (mkState vs ss) 0 ⟨-1, []⟩ 0).2.2) := by
    show (rederiveVolunteers { mkState vs ss with
        shifts := applyAssignments (mkState vs ss).shifts
          ((backtrack expired (mkSlots (mkState vs ss).shifts)
            (mkState vs ss) 0 ⟨-1, []⟩ 0).2.1).assignments },
      computeUnfilled (rederiveVolunteers { mkState vs ss with
        shifts := applyAssignments (mkState vs ss).shifts
          ((backtrack expired (mkSlots (mkState vs ss).shifts)
            (mkState vs ss) 0 ⟨-1, []⟩ 0).2.1).assignments }),
      (backtrack expired (mkSlots (mkState vs ss).shifts)
        (mkState vs ss) 0 ⟨-1, []⟩ 0).2.2) = _
    rw [happ]
    rfl
  have hspec := rederive_spec hval0 hI hG
  rw [hr1]
  exact hspec

/-- If the wall clock expires before the very first complete configuration
is scored (ghost count zero), the sentinel incumbent is applied: the final
rosters are the fresh empty ones and every positive requirement is reported
with its full count. -/
theorem assign_optimal_timeout {vs : List VolunteerInput}
    {ss : List ShiftInput} (hval : ValidInput vs ss) (expired : ℕ → Bool)
    (hsc : (assign_optimal (mkState vs ss) expired).2.2 = 0) :
    (∀ s ∈ (assign_optimal (mkState vs ss) expired).1.shifts,
      s.assigned = []) ∧
    (∀ s ∈ (assign_optimal (mkState vs ss) expired).1.shifts,
      ∀ gc ∈ s.requiredGroups, 0 < gc.2 →
        (assign_optimal (mkState vs ss) expired).2.1.count
          (s.id, gc.1, gc.2) = 1) := by
  have hval0 : ValidState (mkState vs ss) := validState_mkState hval
  have hInv0 : Inv (mkState vs ss) (mkState vs ss) := inv_mkState hval
  have hG0 : GBound (mkState vs ss) := by
    intro s hs gc hgc
    rw [gcountId_mkState]
    omega
  have hbt := backtrack_spec hval0 expired
    (mkSlots (mkState vs ss).shifts).length (mkSlots (mkState vs ss).shifts)
    (le_refl _) (mkState vs ss) 0 ⟨-1, []⟩ 0 hInv0
    (mkSlots_from _) (slotBound_init hval) (Or.inl rfl)
  have hscb : (backtrack expired (mkSlots (mkState vs ss).shifts)
      (mkState vs ss) 0 ⟨-1, []⟩ 0).2.2 = 0 := hsc
  have hsent := hbt.2.2 hscb
  have hr1 : assign_optimal (mkState vs ss) expired =
      (optFinal (mkState vs ss) (mkState vs ss),
       computeUnfilled (optFinal (mkState vs ss) (mkState vs ss)),
       (backtrack expired (mkSlots (mkState vs ss).shifts)
         (mkState vs ss) 0 ⟨-1, []⟩ 0).2.2) := by
    show (rederiveVolunteers { mkState vs ss with
        shifts := applyAssignments (mkState vs ss).shifts
          ((backtrack expired (mkSlots (mkState vs ss).shifts)
            (mkState vs ss) 0 ⟨-1, []⟩ 0).2.1).assignments },
      computeUnfilled (rederiveVolunteers { mkState vs ss with
        shifts := applyAssignments (mkState vs ss).shifts
          ((backtrack expired (mkSlots (mkState vs ss).shifts)
            (mkState vs ss) 0 ⟨-1, []⟩ 0).2.1).assignments }),
      (backtrack expired (mkSlots (mkState vs ss).shifts)
        (mkState vs ss) 0 ⟨-1, []⟩ 0).2.2) = _
    rw [hsent]
    rfl
  rw [hr1]
  have hspec := rederive_spec hval0 hInv0 hG0
  constructor
  · intro s hs
    have hs0 : s ∈ (mkState vs ss).shifts := hs
    obtain ⟨i, _, rfl⟩ := List.mem_map.mp hs0
    rfl
  · intro s hs gc hgc hpos
    have h7 := hspec.2.2.2.2.2.2.1 s hs gc hgc
    have hvmap : (optFinal (mkState vs ss) (mkState vs ss)).volunteers.map
        vCore = (mkState vs ss).volunteers.map vCore := hspec.2.1
    have hzero : gcountId (optFinal (mkState vs ss) (mkState vs ss)) s.id
        gc.1 = 0 := by
      rw [gcountId_congr_state
        (optFinal (mkState vs ss) (mkState vs ss))
        (mkState vs ss) rfl hvmap, gcountId_mkState]
    have hcnt := h7.2 (by rw [hzero]; exact hpos)
    rw [hzero] at hcnt
    simpa using hcnt

/-! ## Reporting: the group-totals fold -/

theorem find?_key_map {f : (Option String × ℚ) → (Option String × ℚ)}
    (hf : ∀ p, (f p).1 = p.1) (m : List (Option String × ℚ))
    (g : Option String) :
    (m.map f).find? (fun p => p.1 == g) =
      (m.find? (fun p => p.1 == g)).map f := by
  induction m with
  | nil => rfl
  | cons p t ih =>
    show List.find? _ (f p :: t.map f) = _
    cases hg : (p.1 == g)
    · rw [List.find?_cons, List.find?_cons]
      rw [show ((f p).1 == g) = false by rw [hf]; exact hg, hg]
      exact ih
    · rw [List.find?_cons, List.find?_cons]
      rw [show ((f p).1 == g) = true by rw [hf]; exact hg, hg]
      rfl

theorem addTotal_lookup (m : List (Option String × ℚ)) (gv g : Option String)
    (h : ℚ) :
    lookupTot (addTotal m gv h) g =
      if g = gv then some ((lookupTot m g).getD 0 + h)
      else lookupTot m g := by
  unfold addTotal lookupTot
  cases hany : m.any (fun p => p.1 == gv)
  · rw [if_neg Bool.false_ne_true]
    rw [List.find?_append]
    cases hf : m.find? (fun p => p.1 == g) with
    | some p =>
      by_cases hgg : g = gv
      · exfalso
        have hpg : p.1 = g := by
          have hp := List.find?_some hf
          simpa using hp
        have hm := List.mem_of_find?_eq_some hf
        have := List.any_eq_false.mp hany p hm
        exact this (beq_iff_eq.mpr (hpg.trans hgg))
      · rw [if_neg hgg]
        rfl
    | none =>
      by_cases hgg : g = gv
      · rw [if_pos hgg]
        have hb : ((gv, h).1 == g) = true := beq_iff_eq.mpr hgg.symm
        rw [show List.find? (fun p => p.1 == g) [(gv, h)] = some (gv, h) by
          rw [List.find?_cons, hb]]
        show some h = some (Option.getD none 0 + h)
        rw [Option.getD_none, zero_add]
      · rw [if_neg hgg]
        have hb : ((gv, h).1 == g) = false :=
          beq_eq_false_iff_ne.mpr (fun hc => hgg hc.symm)
        rw [show List.find? (fun p => p.1 == g) [(gv, h)] = none by
          rw [List.find?_cons, hb]; rfl]
        rfl
  · rw [if_pos rfl]
    rw [find?_key_map (fun p => by split <;> rfl) m g]
    cases hf : m.find? (fun p => p.1 == g) with
    | none =>
      have hne : g ≠ gv := by
        intro hc
        subst hc
        obtain ⟨p, hp, hpb⟩ := List.any_eq_true.mp hany
        rw [List.find?_eq_none] at hf
        exact hf p hp hpb
      rw [if_neg hne]
      rfl
    | some p =>
      have hpg : p.1 = g := by
        have hp := List.find?_some hf
        simpa using hp
      by_cases hgg : g = gv
      · rw [if_pos hgg]
        have hb : (p.1 == gv) = true := beq_iff_eq.mpr (hpg.trans hgg)
        rw [show (Option.map (fun p =>
            if p.1 == gv then (p.1, p.2 + h) else p) (some p)) =
          some (p.1, p.2 + h) by
            rw [Option.map_some']
            rw [if_pos hb]]
        rfl
      · rw [if_neg hgg]
        have hb : (p.1 == gv) = false :=
          beq_eq_false_iff_ne.mpr (fun hc => hgg (hpg.symm.trans hc))
        rw [show (Option.map (fun p =>
            if p.1 == gv then (p.1, p.2 + h) else p) (some p)) =
          some p by
            rw [Option.map_some']
            rw [if_neg (by rw [hb]; exact Bool.false_ne_true)]]

/-- The `group_totals` fold, characterised entry-wise over any prefix
accumulator. -/
theorem report_fold :
    ∀ (l : List Volunteer) (m : List (Option String × ℚ))
      (g : Option String),
    lookupTot (l.foldl (fun m v => addTotal m v.group v.assignedHours) m) g =
      match lookupTot m g with
      | some q => some (q + groupSum l g)
      | none =>
        if (l.map (fun v => v.group)).contains g then some (groupSum l g)
        else none := by
  intro l
  induction l with
  | nil =>
    intro m g
    rw [List.foldl_nil]
    cases hl : lookupTot m g with
    | some q =>
      show some q = some (q + groupSum [] g)
      rw [show groupSum [] g = 0 from rfl, add_zero]
    | none => rfl
  | cons v t ih =>
    intro m g
    rw [List.foldl_cons, ih, addTotal_lookup]
    by_cases hgg : g = v.group
    · rw [if_pos hgg]
      have hgs : groupSum (v :: t) g = v.assignedHours + groupSum t g := by
        unfold groupSum
        rw [List.filter_cons,
          show (v.group == g) = true from beq_iff_eq.mpr hgg.symm]
        simp
      cases hl : lookupTot m g with
      | some q =>
        show some (q + v.assignedHours + groupSum t g) =
          some (q + groupSum (v :: t) g)
        rw [hgs]
        ring_nf
      | none =>
        show some (Option.getD none 0 + v.assignedHours + groupSum t g) = _
        have hcon : ((v :: t).map (fun v => v.group)).contains g = true := by
          rw [List.map_cons, List.contains_cons,
            show (g == v.group) = true from beq_iff_eq.mpr hgg]
          rfl
        rw [show (match (none : Option ℚ) with
            | some q => some (q + groupSum (v :: t) g)
            | none => if ((v :: t).map (fun v => v.group)).contains g
              then some (groupSum (v :: t) g) else none) =
          if ((v :: t).map (fun v => v.group)).contains g
            then some (groupSum (v :: t) g) else none from rfl]
        rw [hcon, if_pos rfl, hgs, Option.getD_none, zero_add]
    · rw [if_neg hgg]
      have hgs : groupSum (v :: t) g = groupSum t g := by
        unfold groupSum
        rw [List.filter_cons,
          show (v.group == g) = false from
            beq_eq_false_iff_ne.mpr (fun hc => hgg hc.symm)]
        rw [if_neg Bool.false_ne_true]
      have hcon : ((v :: t).map (fun v => v.group)).contains g =
          (t.map (fun v => v.group)).contains g := by
        rw [List.map_cons, List.contains_cons,
          show (g == v.group) = false from beq_eq_false_iff_ne.mpr hgg]
        rfl
      cases hl : lookupTot m g with
      | some q =>
        show some (q + groupSum t g) = some (q + groupSum (v :: t) g)
        rw [hgs]
      | none =>
        show (if (t.map (fun v => v.group)).contains g
            then some (groupSum t g) else none) =
          if ((v :: t).map (fun v => v.group)).contains g
            then some (groupSum (v :: t) g) else none
        rw [hcon, hgs]

/-- `report()`: the group totals map every occurring group label — the
`None` bucket included — to the sum of its volunteers' hours, and no other
label. -/
theorem report_groupTotals (st : State) (g : Option String) :
    lookupTot (Scheduler.report st).groupTotals g =
      if (st.volunteers.map (fun v => v.group)).contains g then
        some (groupSum st.volunteers g)
      else none := by
  show lookupTot (st.volunteers.foldl
    (fun m v => addTotal m v.group v.assignedHours) []) g = _
  rw [report_fold]
  rfl

/-! ## Strategy keys as orders -/

theorem maxHoursGe_total : ∀ a b : MaxHours, maxHoursGe a b ∨ maxHoursGe b a := by
  intro a b
  cases a <;> cases b <;> simp [maxHoursGe]
  exact le_total _ _

theorem maxHoursGe_trans : ∀ a b c : MaxHours,
    maxHoursGe a b → maxHoursGe b c → maxHoursGe a c := by
  intro a b c hab hbc
  cases a <;> cases b <;> cases c <;> simp [maxHoursGe] at hab hbc ⊢
  exact le_trans hbc hab

theorem greedyR_iff (a b : Volunteer) :
    greedyR a b ↔ (a.assignedHours < b.assignedHours ∨
      (a.assignedHours = b.assignedHours ∧
        (a.assignedShifts.length < b.assignedShifts.length ∨
          (a.assignedShifts.length = b.assignedShifts.length ∧
            maxHoursGe a.maxHours b.maxHours)))) := by
  unfold greedyR greedyLe maxHoursGe
  cases hma : a.maxHours <;> cases hmb : b.maxHours <;>
    simp [Bool.or_eq_true, Bool.and_eq_true, decide_eq_true_eq, beq_iff_eq]

theorem strategyR_unfilled_iff (a b : Volunteer) :
    strategyR .minimize_unfilled a b ↔ (a.assignedHours < b.assignedHours ∨
      (a.assignedHours = b.assignedHours ∧
        (a.assignedShifts.length < b.assignedShifts.length ∨
          (a.assignedShifts.length = b.assignedShifts.length ∧
            maxHoursGe a.maxHours b.maxHours)))) :=
  greedyR_iff a b

theorem strategyR_fairness_iff (a b : Volunteer) :
    strategyR .maximize_fairness a b ↔ (a.assignedHours < b.assignedHours ∨
      (a.assignedHours = b.assignedHours ∧
        a.assignedShifts.length ≤ b.assignedShifts.length)) := by
  unfold strategyR strategyLe
  simp [Bool.or_eq_true, Bool.and_eq_true, decide_eq_true_eq, beq_iff_eq]

theorem strategyR_overtime_iff (a b : Volunteer) :
    strategyR .minimize_overtime a b ↔ (loadFraction a < loadFraction b ∨
      (loadFraction a = loadFraction b ∧
        (a.assignedHours < b.assignedHours ∨
          (a.assignedHours = b.assignedHours ∧
            a.assignedShifts.length ≤ b.assignedShifts.length)))) := by
  unfold strategyR strategyLe
  simp [Bool.or_eq_true, Bool.and_eq_true, decide_eq_true_eq, beq_iff_eq]

theorem strategyR_total (strat : OptimizationStrategy) :
    ∀ a b : Volunteer, strategyR strat a b ∨ strategyR strat b a := by
  intro a b
  cases strat
  · rw [strategyR_unfilled_iff, strategyR_unfilled_iff]
    rcases lt_trichotomy a.assignedHours b.assignedHours with h | h | h
    · exact Or.inl (Or.inl h)
    · rcases lt_trichotomy a.assignedShifts.length b.assignedShifts.length
        with h2 | h2 | h2
      · exact Or.inl (Or.inr ⟨h, Or.inl h2⟩)
      · rcases maxHoursGe_total a.maxHours b.maxHours with h3 | h3
        · exact Or.inl (Or.inr ⟨h, Or.inr ⟨h2, h3⟩⟩)
        · exact Or.inr (Or.inr ⟨h.symm, Or.inr ⟨h2.symm, h3⟩⟩)
      · exact Or.inr (Or.inr ⟨h.symm, Or.inl h2⟩)
    · exact Or.inr (Or.inl h)
  · rw [strategyR_fairness_iff, strategyR_fairness_iff]
    rcases lt_trichotomy a.assignedHours b.assignedHours with h | h | h
    · exact Or.inl (Or.inl h)
    · rcases le_total a.assignedShifts.length b.assignedShifts.length
        with h2 | h2
      · exact Or.inl (Or.inr ⟨h, h2⟩)
      · exact Or.inr (Or.inr ⟨h.symm, h2⟩)
    · exact Or.inr (Or.inl h)
  · rw [strategyR_overtime_iff, strategyR_overtime_iff]
    rcases lt_trichotomy (loadFraction a) (loadFraction b) with h | h | h
    · exact Or.inl (Or.inl h)
    · rcases lt_trichotomy a.assignedHours b.assignedHours with h2 | h2 | h2
      · exact Or.inl (Or.inr ⟨h, Or.inl h2⟩)
      · rcases le_total a.assignedShifts.length b.assignedShifts.length
          with h3 | h3
        · exact Or.inl (Or.inr ⟨h, Or.inr ⟨h2, h3⟩⟩)
        · exact Or.inr (Or.inr ⟨h.symm, Or.inr ⟨h2.symm, h3⟩⟩)
      · exact Or.inr (Or.inr ⟨h.symm, Or.inl h2⟩)
    · exact Or.inr (Or.inl h)

theorem strategyR_trans (strat : OptimizationStrategy) :
    ∀ a b c : Volunteer, strategyR strat a b → strategyR strat b c →
      strategyR strat a c := by
  intro a b c hab hbc
  cases strat
  · rw [strategyR_unfilled_iff] at hab hbc ⊢
    rcases hab with h1 | ⟨h1, h1r⟩
    · rcases hbc with h2 | ⟨h2, _⟩
      · exact Or.inl (lt_trans h1 h2)
      · exact Or.inl (h2 ▸ h1)
    · rcases hbc with h2 | ⟨h2, h2r⟩
      · exact Or.inl (h1 ▸ h2)
      · refine Or.inr ⟨h1.trans h2, ?_⟩
        rcases h1r with h3 | ⟨h3, h3r⟩
        · rcases h2r with h4 | ⟨h4, _⟩
          · exact Or.inl (lt_trans h3 h4)
          · exact Or.inl (h4 ▸ h3)
        · rcases h2r with h4 | ⟨h4, h4r⟩
          · exact Or.inl (h3 ▸ h4)
          · exact Or.inr ⟨h3.trans h4, maxHoursGe_trans _ _ _ h3r h4r⟩
  · rw [strategyR_fairness_iff] at hab hbc ⊢
    rcases hab with h1 | ⟨h1, h1r⟩
    · rcases hbc with h2 | ⟨h2, _⟩
      · exact Or.inl (lt_trans h1 h2)
      · exact Or.inl (h2 ▸ h1)
    · rcases hbc with h2 | ⟨h2, h2r⟩
      · exact Or.inl (h1 ▸ h2)
      · exact Or.inr ⟨h1.trans h2, le_trans h1r h2r⟩
  · rw [strategyR_overtime_iff] at hab hbc ⊢
    rcases hab with h1 | ⟨h1, h1r⟩
    · rcases hbc with h2 | ⟨h2, _⟩
      · exact Or.inl (lt_trans h1 h2)
      · exact Or.inl (h2 ▸ h1)
    · rcases hbc with h2 | ⟨h2, h2r⟩
      · exact Or.inl (h1 ▸ h2)
      · refine Or.inr ⟨h1.trans h2, ?_⟩
        rcases h1r with h3 | ⟨h3, h3r⟩
        · rcases h2r with h4 | ⟨h4, _⟩
          · exact Or.inl (lt_trans h3 h4)
          · exact Or.inl (h4 ▸ h3)
        · rcases h2r with h4 | ⟨h4, h4r⟩
          · exact Or.inl (h3 ▸ h4)
          · exact Or.inr ⟨h3.trans h4, le_trans h3r h4r⟩

theorem sortCandsS_sorted (strat : OptimizationStrategy)
    (l : List Volunteer) :
    (sortCandsS strat l).Sorted (strategyR strat) := by
  haveI : IsTotal Volunteer (strategyR strat) := ⟨strategyR_total strat⟩
  haveI : IsTrans Volunteer (strategyR strat) := ⟨strategyR_trans strat⟩
  exact List.sorted_insertionSort (strategyR strat) l

theorem sortCandsS_perm (strat : OptimizationStrategy) (l : List Volunteer) :
    (sortCandsS strat l).Perm l :=
  List.perm_insertionSort (strategyR strat) l

/-- The default-strategy greedy pass is exactly the available `assign`. -/
theorem assignS_default_eq (st : State) :
    Scheduler.assignS .minimize_unfilled st = Scheduler.assign st := rfl

/-! ## Chunked solve: partition facts and aggregation -/

theorem chunkList_flatten_fuel {α : Type} (k : ℕ) (hk : 0 < k) :
    ∀ (n : ℕ) (l : List α), l.length ≤ n → (chunkList k l).flatten = l := by
  intro n
  induction n with
  | zero =>
    intro l hlen
    have hl : l = [] := List.length_eq_zero.mp (Nat.le_zero.mp hlen)
    subst hl
    rw [chunkList, dif_pos (Or.inr List.isEmpty_nil)]
    rfl
  | succ n ih =>
    intro l hlen
    rw [chunkList]
    by_cases hl : l.isEmpty = true
    · rw [dif_pos (Or.inr hl)]
      rw [List.isEmpty_iff] at hl
      rw [hl]
      rfl
    · rw [dif_neg (fun h => h.elim (fun hz => by omega) hl)]
      rw [List.flatten_cons]
      have hdl : (l.drop k).length ≤ n := by
        rw [List.length_drop]
        omega
      rw [ih (l.drop k) hdl]
      exact List.take_append_drop k l

theorem chunkList_flatten {α : Type} (k : ℕ) (hk : 0 < k) (l : List α) :
    (chunkList k l).flatten = l :=
  chunkList_flatten_fuel k hk l.length l (le_refl _)

theorem chunkList_le_fuel {α : Type} (k : ℕ) :
    ∀ (n : ℕ) (l : List α), l.length ≤ n →
      ∀ c ∈ chunkList k l, c.length ≤ k := by
  intro n
  induction n with
  | zero =>
    intro l hlen c hc
    have hl : l = [] := List.length_eq_zero.mp (Nat.le_zero.mp hlen)
    subst hl
    rw [chunkList, dif_pos (Or.inr List.isEmpty_nil)] at hc
    cases hc
  | succ n ih =>
    intro l hlen c hc
    rw [chunkList] at hc
    by_cases hl : k = 0 ∨ l.isEmpty = true
    · rw [dif_pos hl] at hc
      cases hc
    · rw [dif_neg hl] at hc
      push_neg at hl
      have hkpos : 0 < k := Nat.pos_of_ne_zero hl.1
      rcases List.mem_cons.mp hc with rfl | hc'
      · rw [List.length_take]
        omega
      · have hdl : (l.drop k).length ≤ n := by
          rw [List.length_drop]
          have hpos : 0 < l.length := by
            cases l with
            | nil => exact absurd rfl hl.2
            | cons a t => simp
          omega
        exact ih (l.drop k) hdl c hc'

theorem chunkList_le {α : Type} (k : ℕ) (l : List α) :
    ∀ c ∈ chunkList k l, c.length ≤ k :=
  chunkList_le_fuel k l.length l (le_refl _)

theorem chunkList_sublist_fuel {α : Type} (k : ℕ) :
    ∀ (n : ℕ) (l : List α), l.length ≤ n →
      ∀ c ∈ chunkList k l, c.Sublist l := by
  intro n
  induction n with
  | zero =>
    intro l hlen c hc
    have hl : l = [] := List.length_eq_zero.mp (Nat.le_zero.mp hlen)
    subst hl
    rw [chunkList, dif_pos (Or.inr List.isEmpty_nil)] at hc
    cases hc
  | succ n ih =>
    intro l hlen c hc
    rw [chunkList] at hc
    by_cases hl : k = 0 ∨ l.isEmpty = true
    · rw [dif_pos hl] at hc
      cases hc
    · rw [dif_neg hl] at hc
      push_neg at hl
      have hkpos : 0 < k := Nat.pos_of_ne_zero hl.1
      rcases List.mem_cons.mp hc with rfl | hc'
      · exact List.take_sublist _ _
      · have hdl : (l.drop k).length ≤ n := by
          rw [List.length_drop]
          have hpos : 0 < l.length := by
            cases l with
            | nil => exact absurd rfl hl.2
            | cons a t => simp
          omega
        exact (ih (l.drop k) hdl c hc').trans (List.drop_sublist _ _)

theorem chunkList_sublist {α : Type} (k : ℕ) (l : List α) :
    ∀ c ∈ chunkList k l, c.Sublist l :=
  chunkList_sublist_fuel k l.length l (le_refl _)

theorem find?_map_of_key {α : Type} {f : α → α} (key : α → String)
    (hf : ∀ x, key (f x) = key x) (l : List α) (k : String) :
    (l.map f).find? (fun x => key x == k) =
      (l.find? (fun x => key x == k)).map f := by
  induction l with
  | nil => rfl
  | cons x t ih =>
    show List.find? _ (f x :: t.map f) = _
    cases hg : (key x == k)
    · rw [List.find?_cons, List.find?_cons]
      rw [show (key (f x) == k) = false by rw [hf]; exact hg, hg]
      exact ih
    · rw [List.find?_cons, List.find?_cons]
      rw [show (key (f x) == k) = true by rw [hf]; exact hg, hg]
      rfl

/-- The decoded volunteer a chunk solve reports for a given input
volunteer. -/
theorem cpSolve_find_vol (st : State) {sol : String → String → Bool}
    (hvnd : (st.volunteers.map (fun v => v.id)).Nodup)
    (hsnd : (st.shifts.map (fun s => s.id)).Nodup)
    {v : Volunteer} (hv : v ∈ st.volunteers) :
    (cpSolve st sol).1.volunteers.find? (fun w => w.id == v.id) =
      some { v with
        assignedShifts := (st.shifts.filter
          (fun s => hasVar v s && sol v.id s.id)).map (fun s => s.id),
        assignedHours := ((st.shifts.filter
          (fun s => hasVar v s && sol v.id s.id)).map
            Shift.durationHours).sum } := by
  rw [(cpSolve_char st sol hvnd hsnd).1]
  rw [find?_map_of_key (f := fun v => { v with
      assignedShifts := (st.shifts.filter
        (fun s => hasVar v s && sol v.id s.id)).map (fun s => s.id),
      assignedHours := ((st.shifts.filter
        (fun s => hasVar v s && sol v.id s.id)).map
          Shift.durationHours).sum }) Volunteer.id (fun x => rfl)
    st.volunteers v.id]
  rw [find?_beq_eq_of_nodup (f := Volunteer.id) hvnd hv]
  rfl

theorem snd_mem_of_mem_enum {α : Type} {l : List α} {p : ℕ × α}
    (hp : p ∈ l.enum) : p.2 ∈ l := by
  rw [List.mem_enum_iff_getElem?] at hp
  exact List.getElem?_mem hp

theorem cpSolve_shifts_core (st : State) (sol : String → String → Bool)
    (hvnd : (st.volunteers.map (fun v => v.id)).Nodup)
    (hsnd : (st.shifts.map (fun s => s.id)).Nodup) :
    (cpSolve st sol).1.shifts.map sCore = st.shifts.map sCore := by
  rw [(cpSolve_char st sol hvnd hsnd).2.1, List.map_map]
  exact List.map_congr_left (fun s _ => rfl)

/-- On all-finite caps the chunked solve succeeds and decodes, per chunk,
exactly as the CP-SAT model of that chunk: the shifts and deficit reports
are the concatenations of the chunk results, and every volunteer's
assignments and hours accumulate across the chunks. -/
theorem assign_cp_sat_chunked_ok {st : State} (hval : ValidState st)
    (k : ℕ) (sols : ℕ → String → String → Bool)
    (hfin : ∀ v ∈ st.volunteers, v.maxHours ≠ MaxHours.inf) :
    assign_cp_sat_chunked st k sols = .ok (chunkedAgg st k sols) ∧
    (chunkedAgg st k sols).1.volunteers = st.volunteers.map (fun v =>
      { v with
        assignedShifts := ((chunkList k st.shifts).enum.map (fun p =>
          (p.2.filter (fun s => hasVar v s && sols p.1 v.id s.id)).map
            (fun s => s.id))).flatten,
        assignedHours := ((chunkList k st.shifts).enum.map (fun p =>
          ((p.2.filter (fun s => hasVar v s && sols p.1 v.id s.id)).map
            Shift.durationHours).sum)).sum }) ∧
    (chunkedAgg st k sols).1.shifts = ((chunkList k st.shifts).enum.map
      (fun p => (cpSolve (chunkState st p.2) (sols p.1)).1.shifts)).flatten ∧
    (chunkedAgg st k sols).1.assignMap = st.assignMap ∧
    (chunkedAgg st k sols).2 = ((chunkList k st.shifts).enum.map
      (fun p => (cpSolve (chunkState st p.2) (sols p.1)).2)).flatten := by
  have hnoinf : st.volunteers.any (fun v => v.maxHours == MaxHours.inf) =
      false := by
    rw [List.any_eq_false]
    intro v hv
    intro hc
    exact hfin v hv (beq_iff_eq.mp hc)
  have hchunkval : ∀ p ∈ (chunkList k st.shifts).enum,
      ((p.2 : List Shift).map (fun s => s.id)).Nodup := by
    intro p hp
    have hsub : (p.2 : List Shift).Sublist st.shifts :=
      chunkList_sublist k st.shifts p.2 (snd_mem_of_mem_enum hp)
    exact hval.2.1.sublist (hsub.map _)
  refine ⟨?_, ?_, ?_, ?_, ?_⟩
  · unfold assign_cp_sat_chunked
    rw [hnoinf]
    rw [if_neg Bool.false_ne_true]
    rfl
  · show chunkAggVols st k sols = _
    unfold chunkAggVols chunkSolved
    refine List.map_congr_left ?_
    intro v hv
    have hper : ∀ p ∈ (chunkList k st.shifts).enum,
        (((cpSolve (chunkState st p.2) (sols p.1)).1.volunteers.find?
              (fun w => w.id == v.id)).getD (emptyVol v)) =
        { v with
          assignedShifts := (p.2.filter
            (fun s => hasVar v s && sols p.1 v.id s.id)).map
              (fun s => s.id),
          assignedHours := ((p.2.filter
            (fun s => hasVar v s && sols p.1 v.id s.id)).map
              Shift.durationHours).sum } := by
      intro p hp
      rw [cpSolve_find_vol (chunkState st p.2) hval.1
        (hchunkval p hp) hv]
      rfl
    simp only
    congr 1
    · rw [List.map_map, List.map_map]
      refine congrArg List.sum ?_
      refine List.map_congr_left ?_
      intro p hp
      show (((cpSolve (chunkState st p.2) (sols p.1)).1.volunteers.find?
            (fun w => w.id == v.id)).getD (emptyVol v)).assignedHours = _
      rw [hper p hp]
    · rw [List.map_map, List.map_map]
      refine congrArg List.flatten ?_
      refine List.map_congr_left ?_
      intro p hp
      show (((cpSolve (chunkState st p.2) (sols p.1)).1.volunteers.find?
            (fun w => w.id == v.id)).getD (emptyVol v)).assignedShifts = _
      rw [hper p hp]
  · show ((chunkSolved st k sols).map (fun r => r.1.shifts)).flatten = _
    unfold chunkSolved
    rw [List.map_map]
    refine congrArg List.flatten ?_
    exact List.map_congr_left (fun p _ => rfl)
  · rfl
  · show ((chunkSolved st k sols).map (fun r => r.2)).flatten = _
    unfold chunkSolved
    rw [List.map_map]
    refine congrArg List.flatten ?_
    exact List.map_congr_left (fun p _ => rfl)

/-! ## Claim-facing consolidations -/

/-- Everything the claims need of the state `Scheduler.assign` leaves
behind on a fresh scheduler. -/
theorem assign_final_spec {vs : List VolunteerInput} {ss : List ShiftInput}
    (hval : ValidInput vs ss) :
    (∀ v ∈ (Scheduler.assign (mkState vs ss)).1.volunteers, capProp v) ∧
    (∀ v ∈ (Scheduler.assign (mkState vs ss)).1.volunteers,
      v.assignedShifts.Nodup ∧
      v.assignedShifts.Pairwise
        (noOvIds (Scheduler.assign (mkState vs ss)).1.shifts)) ∧
    (∀ s ∈ (Scheduler.assign (mkState vs ss)).1.shifts,
      s.assigned.Nodup) ∧
    (∀ v ∈ (Scheduler.assign (mkState vs ss)).1.volunteers,
      v.assignedHours = ((v.assignedShifts.map
        (durOf (Scheduler.assign (mkState vs ss)).1.shifts)).sum)) ∧
    (∀ s ∈ (Scheduler.assign (mkState vs ss)).1.shifts,
      ∀ gc ∈ s.requiredGroups,
        gcountId (Scheduler.assign (mkState vs ss)).1 s.id gc.1 ≤ gc.2 ∧
        (gcountId (Scheduler.assign (mkState vs ss)).1 s.id gc.1 < gc.2 →
          (Scheduler.assign (mkState vs ss)).2.count
            (s.id, gc.1, gc.2 -
              gcountId (Scheduler.assign (mkState vs ss)).1 s.id gc.1) =
            1)) ∧
    (∀ v ∈ (Scheduler.assign (mkState vs ss)).1.volunteers,
      v.group = none → v.assignedShifts = [] ∧ v.assignedHours = 0) := by
  obtain ⟨hInv, hdone⟩ := assign_spec hval
  refine ⟨hInv.cap, ?_, ?_, ?_, ?_, hInv.noneF⟩
  · intro v hv
    refine ⟨hInv.nodupAS v hv, ?_⟩
    refine (hInv.noOv v hv).imp ?_
    intro a b h
    unfold noOvIds at h ⊢
    rw [startOf_congr hInv.coreS, stopOf_congr hInv.coreS,
      startOf_congr hInv.coreS, stopOf_congr hInv.coreS]
    exact h
  · intro s hs
    exact assigned_nodup_of_inv hInv hs
  · intro v hv
    rw [hInv.hoursEq v hv]
    refine congrArg List.sum ?_
    exact List.map_congr_left (fun sid _ => (durOf_congr hInv.coreS sid).symm)
  · intro s hs gc hgc
    obtain ⟨s₀, hs₀, hsc⟩ := mem_sCore_exists hInv.coreS hs
    have hid : s.id = s₀.id := ((sCore_fields hsc).1).symm
    have hrg : s.requiredGroups = s₀.requiredGroups :=
      ((sCore_fields hsc).2.2.2.1).symm
    rw [hrg] at hgc
    have hd := hdone s₀ hs₀ gc hgc
    rw [hid]
    exact hd

/-- The coverage constraints of the CP-SAT model, combined with the
recomputed report: per shift and required group the decoded headcount is
bounded and any shortfall appears exactly once with the exact deficit. -/
theorem cpSolve_deficits (st : State) (sol : String → String → Bool)
    (hval : ValidState st) (hcov : coverageOK st sol) :
    ∀ s ∈ (cpSolve st sol).1.shifts, ∀ gc ∈ s.requiredGroups,
      gcountId (cpSolve st sol).1 s.id gc.1 ≤ gc.2 ∧
      (gcountId (cpSolve st sol).1 s.id gc.1 < gc.2 →
        (cpSolve st sol).2.count
          (s.id, gc.1, gc.2 - gcountId (cpSolve st sol).1 s.id gc.1) =
          1) := by
  have hchar := cpSolve_char st sol hval.1 hval.2.1
  have hcoreS : (cpSolve st sol).1.shifts.map sCore = st.shifts.map sCore :=
    cpSolve_shifts_core st sol hval.1 hval.2.1
  have hndF : ((cpSolve st sol).1.shifts.map (fun s => s.id)).Nodup := by
    rw [shift_ids_of_core hcoreS]
    exact hval.2.1
  have hkeysF : ∀ t ∈ (cpSolve st sol).1.shifts,
      (t.requiredGroups.map (fun p => p.1)).Nodup := by
    intro t ht
    obtain ⟨t₀, ht₀, htc⟩ := mem_sCore_exists hcoreS ht
    rw [show t.requiredGroups = t₀.requiredGroups from
      ((sCore_fields htc).2.2.2.1).symm]
    exact hval.2.2 t₀ ht₀
  intro s hs gc hgc
  have hgm := gcountId_mem hndF hs gc.1
  have hbound := cpSolve_coverage st sol hval hcov s hs gc hgc
  refine ⟨?_, ?_⟩
  · rw [hgm]
    exact hbound
  · intro hlt
    rw [hchar.2.2.2]
    rw [hgm] at hlt ⊢
    exact computeUnfilled_count hndF hkeysF hs hgc hlt

/-- Inverting a successful `assign_cp_sat`. -/
theorem assign_cp_sat_ok_inv {st : State} {sol : String → String → Bool}
    {r : State × List (String × String × ℕ)}
    (h : assign_cp_sat st sol = .ok r) : r = cpSolve st sol := by
  unfold assign_cp_sat at h
  by_cases hc : st.volunteers.any (fun v => v.maxHours == MaxHours.inf) = true
  · rw [if_pos hc] at h
    cases h
  · rw [if_neg hc] at h
    exact (Except.ok.inj h).symm

/-! ## Sample request inputs used by the witnesses -/

/-- The scaled hour-cap constraint holds on the sample input. -/
theorem hourCapOK_W : hourCapOK (mkState vsW ssW) solW := by
  intro v hv
  simp only [mkState, vsW, ssW, List.map_cons, List.map_nil, List.mem_cons,
    List.not_mem_nil, or_false] at hv
  rcases hv with rfl | rfl
  · have hf : (mkState vsW ssW).shifts.filter
        (fun s => hasVar (mkVolunteer ⟨"alice", "Alice", some "G",
          .fin 10⟩) s && solW (mkVolunteer ⟨"alice", "Alice", some "G",
          .fin 10⟩).id s.id) = (mkState vsW ssW).shifts := by decide
    rw [hf]
    show (((mkState vsW ssW).shifts.map scaledDur).sum) ≤ _
    norm_num [mkState, ssW, mkShift, scaledDur, scaledMax, pyInt,
      Shift.durationHours, mkVolunteer]
  · have hf : (mkState vsW ssW).shifts.filter
        (fun s => hasVar (mkVolunteer ⟨"bob", "Bob", none, .fin 5⟩) s &&
          solW (mkVolunteer ⟨"bob", "Bob", none, .fin 5⟩).id s.id) = [] := by
      decide
    rw [hf]
    show (0 : ℤ) ≤ _
    norm_num [scaledMax, pyInt, mkVolunteer]

/-- The counterexample input is valid. -/
theorem validInput_X : ValidInput vsX ssX := by
  refine ⟨by decide, by decide, by decide, ?_⟩
  intro i hi
  simp only [vsX, List.mem_cons, List.not_mem_nil, or_false] at hi
  subst hi
  show (0 : ℚ) ≤ 83 / 50
  norm_num

/-- The scaled hour-cap constraint holds on the counterexample input:
`int(500/3) = 166 ≤ 166 = int((83/50)*100)`. -/
theorem hourCapOK_X : hourCapOK (mkState vsX ssX) solW := by
  intro v hv
  simp only [mkState, vsX, List.map_cons, List.map_nil, List.mem_cons,
    List.not_mem_nil, or_false] at hv
  subst hv
  have hf : (mkState vsX ssX).shifts.filter
      (fun s => hasVar (mkVolunteer ⟨"v", "V", some "G",
        .fin (83 / 50)⟩) s && solW (mkVolunteer ⟨"v", "V", some "G",
        .fin (83 / 50)⟩).id s.id) = (mkState vsX ssX).shifts := by decide
  rw [hf]
  show (((mkState vsX ssX).shifts.map scaledDur).sum) ≤ _
  have h1 : ((mkState vsX ssX).shifts.map scaledDur).sum =
      scaledDur (mkShift ⟨"s", 0, 100, [("G", 1)], none, none⟩) + 0 := rfl
  rw [h1]
  have h2 : scaledDur (mkShift ⟨"s", 0, 100, [("G", 1)], none, none⟩) =
      Int.tdiv 500 3 := by
    show pyInt ((((100 : ℤ) - 0 : ℤ) : ℚ) / 60 * 100) = _
    norm_num [pyInt]
  have h3 : scaledMax (mkVolunteer ⟨"v", "V", some "G",
      .fin (83 / 50)⟩).maxHours = Int.tdiv 166 1 := by
    show pyInt ((83 / 50 : ℚ) * 100) = _
    norm_num [pyInt]
  rw [h2, h3]
  decide

/-- No two distinct shifts exist in the counterexample, so the no-overlap
constraints hold vacuously. -/
theorem noOverlapOK_X : noOverlapOK (mkState vsX ssX) solW := by
  intro s1 hs1 s2 hs2 v hv hne _ _ _
  simp only [mkState, ssX, List.map_cons, List.map_nil, List.mem_cons,
    List.not_mem_nil, or_false] at hs1 hs2
  rw [hs1, hs2] at hne
  exact absurd rfl hne

/-- The decoded volunteer of the counterexample exceeds the 1e-9 hour
cap: `5/3 > 83/50 + 1e-9`. -/
theorem cap_violation_X :
    ∃ v ∈ (cpSolve (mkState vsX ssX) solW).1.volunteers, ¬ capProp v := by
  have hchar := cpSolve_char (mkState vsX ssX) solW (by decide) (by decide)
  rw [hchar.1]
  refine ⟨_, List.mem_map_of_mem _ (show mkVolunteer ⟨"v", "V", some "G",
    .fin (83 / 50)⟩ ∈ (mkState vsX ssX).volunteers from
      List.mem_cons_self _ _), ?_⟩
  have hf : (mkState vsX ssX).shifts.filter
      (fun s => hasVar (mkVolunteer ⟨"v", "V", some "G",
        .fin (83 / 50)⟩) s && solW (mkVolunteer ⟨"v", "V", some "G",
        .fin (83 / 50)⟩).id s.id) = (mkState vsX ssX).shifts := by decide
  unfold capProp
  simp only [hf]
  show ¬ ((((mkState vsX ssX).shifts.map Shift.durationHours).sum) ≤
    83 / 50 + tol)
  have h1 : ((mkState vsX ssX).shifts.map Shift.durationHours).sum =
      Shift.durationHours (mkShift ⟨"s", 0, 100, [("G", 1)], none, none⟩) +
        0 := rfl
  rw [h1]
  show ¬ (((((100 : ℤ) - 0 : ℤ) : ℚ) / 60 + 0) ≤ 83 / 50 + tol)
  norm_num [tol]

/-! ## The claims -/

/-- C1.  The hour-cap invariant `assigned_hours ≤ max_hours + 1e-9` holds
for every volunteer after `assign` and after `assign_optimal` on entities
built fresh from valid input; the CP-SAT path, however, only enforces the
*scaled integer* inequality `Σ int(duration*100) ≤ int(max_hours*100)`,
which does not imply the claimed real-valued cap (see the counterexample).
-/
theorem C1 (vs : List VolunteerInput) (ss : List ShiftInput)
    (hval : ValidInput vs ss) :
    (∀ v ∈ (Scheduler.assign (mkState vs ss)).1.volunteers, capProp v) ∧
    (∀ expired : ℕ → Bool,
      ∀ v ∈ (assign_optimal (mkState vs ss) expired).1.volunteers,
        capProp v) ∧
    (∀ (sol : String → String → Bool)
        (r : State × List (String × String × ℕ)),
      hourCapOK (mkState vs ss) sol →
      assign_cp_sat (mkState vs ss) sol = .ok r →
      ∀ v ∈ r.1.volunteers,
        ((v.assignedShifts.map (scaledDurOf r.1.shifts)).sum) ≤
          scaledMax v.maxHours) := by
  refine ⟨(assign_final_spec hval).1, ?_, ?_⟩
  · intro expired
    exact (assign_optimal_spec hval expired).2.2.1
  · intro sol r hcap hok
    rw [assign_cp_sat_ok_inv hok]
    exact cpSolve_capScaled (mkState vs ss) sol (validState_mkState hval) hcap

/-- C1 witness: on the sample input every hypothesis holds and the theorem
applies. -/
theorem C1_witness :
    ValidInput vsW ssW ∧ hourCapOK (mkState vsW ssW) solW ∧
    (∀ v ∈ (Scheduler.assign (mkState vsW ssW)).1.volunteers, capProp v) ∧
    (∀ v ∈ (cpSolve (mkState vsW ssW) solW).1.volunteers,
      ((v.assignedShifts.map
        (scaledDurOf (cpSolve (mkState vsW ssW) solW).1.shifts)).sum) ≤
        scaledMax v.maxHours) :=
  ⟨by decide, hourCapOK_W, (C1 vsW ssW (by decide)).1,
    (C1 vsW ssW (by decide)).2.2 solW (cpSolve (mkState vsW ssW) solW)
      hourCapOK_W (assign_cp_sat_ok _ _ (by decide))⟩

/-- C1 counterexample: on a valid fresh input whose only volunteer has the
finite cap `83/50` hours and whose only shift lasts `5/3` hours, the
all-true valuation satisfies every CP-SAT model constraint — the scaled
hour-cap constraint `166 ≤ 166` included — and `assign_cp_sat` completes,
yet the decoded volunteer carries `5/3 > 83/50 + 1e-9` assigned hours,
refuting the claimed invariant for the CP-SAT path. -/
theorem C1_counterexample :
    ValidInput vsX ssX ∧
    coverageOK (mkState vsX ssX) solW ∧
    hourCapOK (mkState vsX ssX) solW ∧
    noOverlapOK (mkState vsX ssX) solW ∧
    assign_cp_sat (mkState vsX ssX) solW =
      .ok (cpSolve (mkState vsX ssX) solW) ∧
    ∃ v ∈ (cpSolve (mkState vsX ssX) solW).1.volunteers, ¬ capProp v := by
  exact ⟨validInput_X, by decide, hourCapOK_X, noOverlapOK_X,
    assign_cp_sat_ok _ _ (by decide), cap_violation_X⟩

/-- C2.  After each of the three solve operations on fresh valid entities
(for the CP-SAT path: under its no-overlap model constraints), no volunteer
holds two overlapping shifts, no shift id repeats in a volunteer's
`assigned_shifts`, and no volunteer id repeats in a shift's `assigned`. -/
theorem C2 (vs : List VolunteerInput) (ss : List ShiftInput)
    (hval : ValidInput vs ss) :
    ((∀ v ∈ (Scheduler.assign (mkState vs ss)).1.volunteers,
      v.assignedShifts.Nodup ∧
      v.assignedShifts.Pairwise
        (noOvIds (Scheduler.assign (mkState vs ss)).1.shifts)) ∧
     (∀ s ∈ (Scheduler.assign (mkState vs ss)).1.shifts,
       s.assigned.Nodup)) ∧
    (∀ expired : ℕ → Bool,
      (∀ v ∈ (assign_optimal (mkState vs ss) expired).1.volunteers,
        v.assignedShifts.Nodup ∧
        v.assignedShifts.Pairwise
          (noOvIds (assign_optimal (mkState vs ss) expired).1.shifts)) ∧
      (∀ s ∈ (assign_optimal (mkState vs ss) expired).1.shifts,
        s.assigned.Nodup)) ∧
    (∀ (sol : String → String → Bool)
        (r : State × List (String × String × ℕ)),
      noOverlapOK (mkState vs ss) sol →
      assign_cp_sat (mkState vs ss) sol = .ok r →
      (∀ v ∈ r.1.volunteers,
        v.assignedShifts.Nodup ∧
        v.assignedShifts.Pairwise (noOvIds r.1.shifts)) ∧
      (∀ s ∈ r.1.shifts, s.assigned.Nodup)) := by
  refine ⟨⟨(assign_final_spec hval).2.1, (assign_final_spec hval).2.2.1⟩,
    ?_, ?_⟩
  · intro expired
    exact ⟨(assign_optimal_spec hval expired).2.2.2.1,
      (assign_optimal_spec hval expired).2.2.2.2.1⟩
  · intro sol r hno hok
    rw [assign_cp_sat_ok_inv hok]
    have hfacts := cpSolve_facts (mkState vs ss) sol (validState_mkState hval)
    refine ⟨?_, hfacts.2.2.1⟩
    intro v hv
    exact ⟨hfacts.2.1 v hv,
      cpSolve_noOv (mkState vs ss) sol (validState_mkState hval) hno v hv⟩

/-- C2 witness. -/
theorem C2_witness :
    ValidInput vsW ssW ∧ noOverlapOK (mkState vsW ssW) solW ∧
    (∀ s ∈ (Scheduler.assign (mkState vsW ssW)).1.shifts,
      s.assigned.Nodup) ∧
    (∀ v ∈ (cpSolve (mkState vsW ssW) solW).1.volunteers,
      v.assignedShifts.Nodup ∧
      v.assignedShifts.Pairwise
        (noOvIds (cpSolve (mkState vsW ssW) solW).1.shifts)) :=
  ⟨by decide, by decide, (C2 vsW ssW (by decide)).1.2,
    ((C2 vsW ssW (by decide)).2.2 solW (cpSolve (mkState vsW ssW) solW)
      (by decide) (assign_cp_sat_ok _ _ (by decide))).1⟩

/-- C3.  After each of the three solve operations on fresh valid entities,
every volunteer's `assigned_hours` equals — exactly, in the rational model,
hence within any tolerance — the sum of the durations of the shifts listed
in its `assigned_shifts`. -/
theorem C3 (vs : List VolunteerInput) (ss : List ShiftInput)
    (hval : ValidInput vs ss) :
    (∀ v ∈ (Scheduler.assign (mkState vs ss)).1.volunteers,
      v.assignedHours = ((v.assignedShifts.map
        (durOf (Scheduler.assign (mkState vs ss)).1.shifts)).sum)) ∧
    (∀ expired : ℕ → Bool,
      ∀ v ∈ (assign_optimal (mkState vs ss) expired).1.volunteers,
        v.assignedHours = ((v.assignedShifts.map
          (durOf (assign_optimal (mkState vs ss) expired).1.shifts)).sum)) ∧
    (∀ (sol : String → String → Bool)
        (r : State × List (String × String × ℕ)),
      assign_cp_sat (mkState vs ss) sol = .ok r →
      ∀ v ∈ r.1.volunteers,
        v.assignedHours =
          ((v.assignedShifts.map (durOf r.1.shifts)).sum)) := by
  refine ⟨(assign_final_spec hval).2.2.2.1, ?_, ?_⟩
  · intro expired
    exact (assign_optimal_spec hval expired).2.2.2.2.2.1
  · intro sol r hok
    rw [assign_cp_sat_ok_inv hok]
    exact (cpSolve_facts (mkState vs ss) sol (validState_mkState hval)).1

/-- C3 witness. -/
theorem C3_witness :
    ValidInput vsW ssW ∧
    (∀ v ∈ (Scheduler.assign (mkState vsW ssW)).1.volunteers,
      v.assignedHours = ((v.assignedShifts.map
        (durOf (Scheduler.assign (mkState vsW ssW)).1.shifts)).sum)) ∧
    (∀ v ∈ (cpSolve (mkState vsW ssW) solW).1.volunteers,
      v.assignedHours = ((v.assignedShifts.map
        (durOf (cpSolve (mkState vsW ssW) solW).1.shifts)).sum)) :=
  ⟨by decide, (C3 vsW ssW (by decide)).1,
    (C3 vsW ssW (by decide)).2.2 solW (cpSolve (mkState vsW ssW) solW)
      (assign_cp_sat_ok _ _ (by decide))⟩

/-- C4.  After each of the three solve operations on fresh valid entities
(for the CP-SAT path: under its coverage model constraints), per shift and
required group the assigned headcount of that group never exceeds the
requirement, and any shortfall is reported exactly once with the exact
deficit. -/
theorem C4 (vs : List VolunteerInput) (ss : List ShiftInput)
    (hval : ValidInput vs ss) :
    (∀ s ∈ (Scheduler.assign (mkState vs ss)).1.shifts,
      ∀ gc ∈ s.requiredGroups,
        gcountId (Scheduler.assign (mkState vs ss)).1 s.id gc.1 ≤ gc.2 ∧
        (gcountId (Scheduler.assign (mkState vs ss)).1 s.id gc.1 < gc.2 →
          (Scheduler.assign (mkState vs ss)).2.count
            (s.id, gc.1, gc.2 -
              gcountId (Scheduler.assign (mkState vs ss)).1 s.id gc.1) =
            1)) ∧
    (∀ expired : ℕ → Bool,
      ∀ s ∈ (assign_optimal (mkState vs ss) expired).1.shifts,
        ∀ gc ∈ s.requiredGroups,
          gcountId (assign_optimal (mkState vs ss) expired).1 s.id gc.1 ≤
            gc.2 ∧
          (gcountId (assign_optimal (mkState vs ss) expired).1 s.id gc.1 <
              gc.2 →
            (assign_optimal (mkState vs ss) expired).2.1.count
              (s.id, gc.1, gc.2 -
                gcountId (assign_optimal (mkState vs ss) expired).1 s.id
                  gc.1) = 1)) ∧
    (∀ (sol : String → String → Bool)
        (r : State × List (String × String × ℕ)),
      coverageOK (mkState vs ss) sol →
      assign_cp_sat (mkState vs ss) sol = .ok r →
      ∀ s ∈ r.1.shifts, ∀ gc ∈ s.requiredGroups,
        gcountId r.1 s.id gc.1 ≤ gc.2 ∧
        (gcountId r.1 s.id gc.1 < gc.2 →
          r.2.count (s.id, gc.1, gc.2 - gcountId r.1 s.id gc.1) = 1)) := by
  refine ⟨(assign_final_spec hval).2.2.2.2.1, ?_, ?_⟩
  · intro expired
    exact (assign_optimal_spec hval expired).2.2.2.2.2.2.1
  · intro sol r hcov hok
    rw [assign_cp_sat_ok_inv hok]
    exact cpSolve_deficits (mkState vs ss) sol (validState_mkState hval) hcov

/-- C4 witness. -/
theorem C4_witness :
    ValidInput vsW ssW ∧ coverageOK (mkState vsW ssW) solW ∧
    (∀ s ∈ (Scheduler.assign (mkState vsW ssW)).1.shifts,
      ∀ gc ∈ s.requiredGroups,
        gcountId (Scheduler.assign (mkState vsW ssW)).1 s.id gc.1 ≤ gc.2 ∧
        (gcountId (Scheduler.assign (mkState vsW ssW)).1 s.id gc.1 < gc.2 →
          (Scheduler.assign (mkState vsW ssW)).2.count
            (s.id, gc.1, gc.2 -
              gcountId (Scheduler.assign (mkState vsW ssW)).1 s.id gc.1) =
            1)) :=
  ⟨by decide, by decide, (C4 vsW ssW (by decide)).1⟩

/-- C5.  The greedy engine's `assign` takes a selectable optimization
strategy: omitting it selects `minimize_unfilled`, whose pass is exactly
the available `assign`; each strategy sorts the candidate pool by its
ascending key (a stable sort, so a permutation), where
`maximize_fairness` compares `(assigned_hours, number of assigned shifts)`
and the default additionally breaks ties by `-max_hours`. -/
theorem C5 :
    (∀ st : State,
      Scheduler.assignDefault st = Scheduler.assignS .minimize_unfilled st) ∧
    (∀ st : State,
      Scheduler.assignS .minimize_unfilled st = Scheduler.assign st) ∧
    (∀ (strat : OptimizationStrategy) (l : List Volunteer),
      (sortCandsS strat l).Perm l) ∧
    (∀ (strat : OptimizationStrategy) (l : List Volunteer),
      (sortCandsS strat l).Sorted (strategyR strat)) ∧
    (∀ a b : Volunteer, strategyR .maximize_fairness a b ↔
      (a.assignedHours < b.assignedHours ∨
        (a.assignedHours = b.assignedHours ∧
          a.assignedShifts.length ≤ b.assignedShifts.length))) ∧
    (∀ a b : Volunteer, strategyR .minimize_unfilled a b ↔
      (a.assignedHours < b.assignedHours ∨
        (a.assignedHours = b.assignedHours ∧
          (a.assignedShifts.length < b.assignedShifts.length ∨
            (a.assignedShifts.length = b.assignedShifts.length ∧
              maxHoursGe a.maxHours b.maxHours))))) :=
  ⟨fun _ => rfl, fun st => assignS_default_eq st, sortCandsS_perm,
    sortCandsS_sorted, strategyR_fairness_iff, strategyR_unfilled_iff⟩

/-- C6.  If the wall clock of `assign_optimal` expires before the very
first complete slot configuration is scored (the ghost scoring count of the
run is zero), the call still returns the full result structure, with the
initial empty incumbent applied: every shift's roster equals its fresh
pre-search value (empty), and every positive `(shift, group)` requirement
is reported with its full required count as deficit. -/
theorem C6 (vs : List VolunteerInput) (ss : List ShiftInput)
    (expired : ℕ → Bool) (hval : ValidInput vs ss)
    (hto : (assign_optimal (mkState vs ss) expired).2.2 = 0) :
    (∀ s ∈ (assign_optimal (mkState vs ss) expired).1.shifts,
      s.assigned = []) ∧
    (∀ s ∈ (assign_optimal (mkState vs ss) expired).1.shifts,
      ∀ gc ∈ s.requiredGroups, 0 < gc.2 →
        (assign_optimal (mkState vs ss) expired).2.1.count
          (s.id, gc.1, gc.2) = 1) :=
  assign_optimal_timeout hval expired hto

/-- With an immediately-expired clock no leaf is ever scored. -/
theorem opt_timeout_W :
    (assign_optimal (mkState vsW ssW) (fun _ => true)).2.2 = 0 := by
  show (backtrack (fun _ => true) (mkSlots (mkState vsW ssW).shifts)
    (mkState vsW ssW) 0 ⟨-1, []⟩ 0).2.2 = 0
  rw [backtrack.eq_def]
  rfl

/-- C6 witness: with an immediately-expired clock on the sample input the
run scores no leaf, and the theorem applies. -/
theorem C6_witness :
    ValidInput vsW ssW ∧
    (assign_optimal (mkState vsW ssW) (fun _ => true)).2.2 = 0 ∧
    (∀ s ∈ (assign_optimal (mkState vsW ssW) (fun _ => true)).1.shifts,
      s.assigned = []) :=
  ⟨by decide, opt_timeout_W,
    (C6 vsW ssW (fun _ => true) (by decide) opt_timeout_W).1⟩

/-- C7.  The engine's chunked exact solve `assign_cp_sat_chunked`
partitions the shift collection into consecutive chunks of the requested
size (the concatenation of the chunks is the original collection and no
chunk exceeds the size), solves each chunk independently against its own
solver valuation (one per chunk, modelling the per-chunk time budget), and
aggregates the per-chunk results into the common result shape: the shifts
and the deficit reports are the concatenations of the chunk results, and
each volunteer's assignments and hours accumulate across chunks. -/
theorem C7 (vs : List VolunteerInput) (ss : List ShiftInput) (k : ℕ)
    (sols : ℕ → String → String → Bool) (hval : ValidInput vs ss)
    (hfin : ∀ i ∈ vs, i.maxHours ≠ MaxHours.inf) (hk : 0 < k) :
    ((chunkList k (mkState vs ss).shifts).flatten =
      (mkState vs ss).shifts) ∧
    (∀ c ∈ chunkList k (mkState vs ss).shifts, c.length ≤ k) ∧
    (assign_cp_sat_chunked (mkState vs ss) k sols =
      .ok (chunkedAgg (mkState vs ss) k sols)) ∧
    ((chunkedAgg (mkState vs ss) k sols).1.shifts =
      ((chunkList k (mkState vs ss).shifts).enum.map (fun p =>
        (cpSolve (chunkState (mkState vs ss) p.2)
          (sols p.1)).1.shifts)).flatten) ∧
    ((chunkedAgg (mkState vs ss) k sols).1.volunteers =
      (mkState vs ss).volunteers.map (fun v =>
        { v with
          assignedShifts := ((chunkList k
            (mkState vs ss).shifts).enum.map (fun p =>
              (p.2.filter (fun s => hasVar v s && sols p.1 v.id s.id)).map
                (fun s => s.id))).flatten,
          assignedHours := ((chunkList k
            (mkState vs ss).shifts).enum.map (fun p =>
              ((p.2.filter (fun s => hasVar v s && sols p.1 v.id s.id)).map
                Shift.durationHours).sum)).sum })) ∧
    ((chunkedAgg (mkState vs ss) k sols).2 =
      ((chunkList k (mkState vs ss).shifts).enum.map (fun p =>
        (cpSolve (chunkState (mkState vs ss) p.2) (sols p.1)).2)).flatten) := by
  have hfin' : ∀ v ∈ (mkState vs ss).volunteers,
      v.maxHours ≠ MaxHours.inf := by
    intro v hv
    obtain ⟨i, hi, rfl⟩ := List.mem_map.mp hv
    exact hfin i hi
  have hok := assign_cp_sat_chunked_ok (validState_mkState hval) k sols hfin'
  exact ⟨chunkList_flatten k hk _, chunkList_le k _, hok.1, hok.2.2.1,
    hok.2.1, hok.2.2.2.2⟩

/-- C7 witness. -/
theorem C7_witness :
    ValidInput vsW ssW ∧
    (∀ i ∈ vsW, i.maxHours ≠ MaxHours.inf) ∧ 0 < 1 ∧
    ((chunkList 1 (mkState vsW ssW).shifts).flatten =
      (mkState vsW ssW).shifts) ∧
    (assign_cp_sat_chunked (mkState vsW ssW) 1 (fun _ => solW) =
      .ok (chunkedAgg (mkState vsW ssW) 1 (fun _ => solW))) :=
  ⟨by decide, by decide, by decide,
    (C7 vsW ssW 1 (fun _ => solW) (by decide) (by decide) (by decide)).1,
    (C7 vsW ssW 1 (fun _ => solW) (by decide) (by decide)
      (by decide)).2.2.1⟩

/-- C8.  `assign_cp_sat` raises exactly when some volunteer still carries
the unbounded default `max_hours` — building the hour-cap constraint
evaluates `int(v.max_hours * 100)` for every volunteer — and returns
normally (with the decoded solution) exactly when every cap is finite. -/
theorem C8 : ∀ (st : State) (sol : String → String → Bool),
    ((assign_cp_sat st sol = .error ()) ↔
      ∃ v ∈ st.volunteers, v.maxHours = MaxHours.inf) ∧
    ((assign_cp_sat st sol = .ok (cpSolve st sol)) ↔
      ∀ v ∈ st.volunteers, v.maxHours ≠ MaxHours.inf) := by
  intro st sol
  refine ⟨assign_cp_sat_raises_iff st sol, ?_, ?_⟩
  · intro hok v hv hinf
    have herr : assign_cp_sat st sol = .error () :=
      (assign_cp_sat_raises_iff st sol).mpr ⟨v, hv, hinf⟩
    rw [herr] at hok
    cases hok
  · exact assign_cp_sat_ok st sol

/-- C9.  A volunteer whose `group` is `None` is left untouched by each of
the three solve operations on fresh entities: its `assigned_shifts` stays
empty and its `assigned_hours` stays zero, because every candidate
selection requires the group to equal a string key of some
`required_groups`. -/
theorem C9 (vs : List VolunteerInput) (ss : List ShiftInput)
    (hval : ValidInput vs ss) :
    (∀ v ∈ (Scheduler.assign (mkState vs ss)).1.volunteers,
      v.group = none → v.assignedShifts = [] ∧ v.assignedHours = 0) ∧
    (∀ expired : ℕ → Bool,
      ∀ v ∈ (assign_optimal (mkState vs ss) expired).1.volunteers,
        v.group = none → v.assignedShifts = [] ∧ v.assignedHours = 0) ∧
    (∀ (sol : String → String → Bool)
        (r : State × List (String × String × ℕ)),
      assign_cp_sat (mkState vs ss) sol = .ok r →
      ∀ v ∈ r.1.volunteers,
        v.group = none → v.assignedShifts = [] ∧ v.assignedHours = 0) := by
  refine ⟨(assign_final_spec hval).2.2.2.2.2, ?_, ?_⟩
  · intro expired
    exact (assign_optimal_spec hval expired).2.2.2.2.2.2.2
  · intro sol r hok
    rw [assign_cp_sat_ok_inv hok]
    exact (cpSolve_facts (mkState vs ss) sol
      (validState_mkState hval)).2.2.2.1

/-- C9 witness (the sample input's second volunteer has no group). -/
theorem C9_witness :
    ValidInput vsW ssW ∧
    (∀ v ∈ (Scheduler.assign (mkState vsW ssW)).1.volunteers,
      v.group = none → v.assignedShifts = [] ∧ v.assignedHours = 0) ∧
    (∀ v ∈ (cpSolve (mkState vsW ssW) solW).1.volunteers,
      v.group = none → v.assignedShifts = [] ∧ v.assignedHours = 0) :=
  ⟨by decide, (C9 vsW ssW (by decide)).1,
    (C9 vsW ssW (by decide)).2.2 solW (cpSolve (mkState vsW ssW) solW)
      (assign_cp_sat_ok _ _ (by decide))⟩

/-- C10.  `report()` mutates nothing: calling it twice on the unchanged
state yields identical output; and its `group_totals` maps a group label —
the `None` bucket included — to a recorded total exactly when some
volunteer carries that label, in which case the total is the sum of
`assigned_hours` over the volunteers of that label. -/
theorem C10 : ∀ st : State,
    (Scheduler.reportWithState st).2 = st ∧
    (Scheduler.reportWithState ((Scheduler.reportWithState st).2)).1 =
      (Scheduler.reportWithState st).1 ∧
    ∀ g : Option String,
      lookupTot (Scheduler.report st).groupTotals g =
        (if (st.volunteers.map (fun v => v.group)).contains g then
          some (groupSum st.volunteers g)
        else none) :=
  fun st => ⟨rfl, rfl, report_groupTotals st⟩

end SchedulerModel
